import Mathlib

/-!
Verification of the automatic graph-layout engine of the flowchart editor
(source: the `autoLayout` module).  The TypeScript source is shallowly
embedded: JS strings are modelled as `List Char` (so that concatenation,
`split('->')` and `startsWith` are ordinary structural programs), JS numbers
as exact fractions `JNum` (every JS float is a dyadic rational, and the only
arithmetic the layout engine performs is +, -, *, /2, max and comparisons,
all exact on such inputs; `JNum.toRat` interprets them in `ℚ`), and JS `Map`s
as functions `Str → Option α` (the code never observes a map's iteration
order, only `get`/`set`/`has`, so the functional representation is exact,
with later `set` winning as in JS).  A thrown `TypeError` (calling `.push`
on `undefined` after a failed `Map.get`) is modelled by `Option`: `none`
means the run throws.  Loops whose bound is not structural carry a fuel
argument chosen at the call site to exceed the number of iterations the
JS loop can perform whenever it terminates; all general theorems below are
proved for every fuel value, so no fuel-sufficiency argument is needed.
-/

namespace AutoLayout

/-- JS string, as its list of characters. -/
abbrev Str := List Char

/-- JS number: an exact fraction `num / den`.  Every IEEE double is of this
form; the layout code only ever adds, subtracts, multiplies, halves,
maximises and compares, which this type models exactly (for `den ≠ 0`,
which every number arising in the pipeline satisfies). -/
structure JNum where
  num : Int
  den : Nat
deriving DecidableEq, Repr

/-- Interpretation of a `JNum` into `ℚ`. -/
def JNum.toRat (x : JNum) : ℚ := (x.num : ℚ) / (x.den : ℚ)

/-- Embed a natural number literal. -/
def jofNat (n : Nat) : JNum := ⟨(n : Int), 1⟩

/-- Addition of JS numbers (exact). -/
def jadd (a b : JNum) : JNum := ⟨a.num * b.den + b.num * a.den, a.den * b.den⟩

/-- Subtraction of JS numbers (exact). -/
def jsub (a b : JNum) : JNum := ⟨a.num * b.den - b.num * a.den, a.den * b.den⟩

/-- Multiplication of JS numbers (exact). -/
def jmul (a b : JNum) : JNum := ⟨a.num * b.num, a.den * b.den⟩

/-- Division by two (exact on doubles, and on `JNum`). -/
def jhalf (a : JNum) : JNum := ⟨a.num, a.den * 2⟩

/-- Comparison `a < b` of JS numbers (cross-multiplication; correct for
positive denominators, which all pipeline numbers have). -/
def jlt (a b : JNum) : Bool := a.num * b.den < b.num * a.den

/-- Comparison `a ≤ b` of JS numbers. -/
def jle (a b : JNum) : Bool := a.num * b.den ≤ b.num * a.den

/-- `Math.max` on two numbers. -/
def jmax (a b : JNum) : JNum := if jlt a b then b else a

/-- JS `Map` keyed by strings.  `get`/`set`/`has` only; iteration order is
never observed by the layout code. -/
def MapF (α : Type) : Type := Str → Option α

/-- Empty map. -/
def MapF.empty {α : Type} : MapF α := fun _ => none

/-- `Map.set`: later writes win, as in JS. -/
def MapF.set {α : Type} (m : MapF α) (k : Str) (v : α) : MapF α :=
  fun x => if x = k then some v else m x

/-- `Map.get`. -/
def MapF.get {α : Type} (m : MapF α) (k : Str) : Option α := m k

/-- JS `x || d` on an optional number whose value, if present, is an `Int`:
`undefined` and `0` are falsy. -/
def jsOrI (x : Option Int) (d : Int) : Int :=
  match x with
  | none => d
  | some v => if v = 0 then d else v

/-- Shape kinds from `types.ts` (not semantically relevant to layout). -/
inductive ShapeType where
  | Process | Decision | Start | End | Email
deriving DecidableEq, Repr

/-- 2D position, from `types.ts`. -/
structure Position where
  x : JNum
  y : JNum
deriving DecidableEq, Repr

/-- `Node` from `types.ts`. -/
structure Node where
  id : Str
  type : ShapeType
  position : Position
  label : Str
  width : JNum
  height : JNum
deriving DecidableEq, Repr

/-- `Edge` from `types.ts` (`sourceHandle`/`targetHandle`/`label` optional). -/
structure Edge where
  id : Str
  source : Str
  target : Str
  sourceHandle : Option Int := none
  targetHandle : Option Int := none
  label : Option Str := none
deriving DecidableEq, Repr

/-- Orientation parameter of `autoLayout`. -/
inductive Orientation where
  | horizontal | vertical
deriving DecidableEq, Repr

/-- `const Y_GAP = 120`. -/
def Y_GAP : JNum := jofNat 120

/-- `const X_GAP = 200`. -/
def X_GAP : JNum := jofNat 200

/-- The string `"->"` used to build back-edge keys. -/
def arrowSep : Str := ['-', '>']

/-- Back-edge key `` `${source}->${target}` ``. -/
def edgeKey (s t : Str) : Str := s ++ arrowSep ++ t

/-- JS `String.prototype.split('->')`: left-to-right scan for the
two-character separator, non-overlapping. -/
def splitArrowAux : Str → Str → List Str
  | '-' :: '>' :: rest, acc => acc.reverse :: splitArrowAux rest []
  | c :: rest, acc => splitArrowAux rest (c :: acc)
  | [], acc => [acc.reverse]

/-- `edgeId.split('->')`. -/
def splitArrow (s : Str) : List Str := splitArrowAux s []

/-- `const [source, target] = edgeId.split('->')`.  A key built by
`edgeKey` always contains the separator, so the one-element case (where JS
would destructure `target` as `undefined`) is unreachable; it is mapped to
the empty string. -/
def splitKey (k : Str) : Str × Str :=
  match splitArrow k with
  | a :: b :: _ => (a, b)
  | [a] => (a, [])
  | [] => ([], [])

/-- Does the string contain the substring `"->"`?  Ids for which this is
`false` make the back-edge key encoding collision-free. -/
def hasArrow : Str → Bool
  | '-' :: '>' :: _ => true
  | _ :: rest => hasArrow rest
  | [] => false

/-- The literal string `"dummy-"`. -/
def dummyPre : Str := ['d', 'u', 'm', 'm', 'y', '-']

/-- Adjacency/in-degree state built at the top of `autoLayout`
(`nodeMap` is kept separately). -/
structure Graph where
  adj : MapF (List Str)
  revAdj : MapF (List Str)
  inDegree : MapF Int

/-- `adj.get(u) || []`. -/
def adjL (adj : MapF (List Str)) (u : Str) : List Str := (adj.get u).getD []

/-- The maps `adj = new Map(nodes.map(n => [n.id, []]))`,
`revAdj` likewise, `inDegree = new Map(nodes.map(n => [n.id, 0]))`. -/
def initGraph (nodes : List Node) : Graph :=
  { adj := nodes.foldl (fun m n => m.set n.id []) MapF.empty
    revAdj := nodes.foldl (fun m n => m.set n.id []) MapF.empty
    inDegree := nodes.foldl (fun m n => m.set n.id 0) MapF.empty }

/-- First loop of `findAndHandleCycles` (lines 43–47): for each edge,
`adj.get(edge.source)!.push(edge.target)`,
`revAdj.get(edge.target)!.push(edge.source)`, and increment
`inDegree` of the target.  The non-null assertions `!` are TypeScript-only:
at runtime a failed `get` yields `undefined` and `.push` throws a
`TypeError`, modelled by `none`. -/
def addEdges (g : Graph) : List Edge → Option Graph
  | [] => some g
  | e :: rest =>
    match g.adj.get e.source with
    | none => none
    | some l =>
      let g1 := { g with adj := g.adj.set e.source (l ++ [e.target]) }
      match g1.revAdj.get e.target with
      | none => none
      | some l2 =>
        let g2 := { g1 with revAdj := g1.revAdj.set e.target (l2 ++ [e.source]) }
        let g3 := { g2 with
          inDegree := g2.inDegree.set e.target (jsOrI (g2.inDegree.get e.target) 0 + 1) }
        addEdges g3 rest

/-- State of the depth-first search of `findAndHandleCycles`:
`visited`, `recursionStack` and `backEdges` are JS `Set`s, modelled as
insertion-ordered duplicate-free lists. -/
structure DfsSt where
  visited : List Str
  recStack : List Str
  back : List Str
deriving Repr

/-- `Set.add`. -/
def pushSet (l : List Str) (x : Str) : List Str := if x ∈ l then l else l ++ [x]

/-- The recursive `dfs` of `findAndHandleCycles` (lines 53–65).  The JS
recursion is unbounded; `fuel` is chosen by the caller to exceed the
recursion depth (which is at most the number of distinct node ids, since
`dfs` is only entered on unvisited nodes and marks them visited first). -/
def dfs (adj : MapF (List Str)) : Nat → Str → DfsSt → DfsSt
  | 0, _, st => st
  | fuel + 1, u, st =>
    let st := { st with visited := pushSet st.visited u,
                        recStack := pushSet st.recStack u }
    let st := (adjL adj u).foldl
      (fun st nb =>
        if nb ∈ st.visited then
          if nb ∈ st.recStack then { st with back := pushSet st.back (edgeKey u nb) }
          else st
        else dfs adj fuel nb st)
      st
    { st with recStack := st.recStack.filter (fun x => x ≠ u) }

/-- Outer DFS loop (lines 67–71): start a search from every unvisited node,
in input node order. -/
def runDfs (adj : MapF (List Str)) (nodes : List Node) : DfsSt :=
  nodes.foldl
    (fun st n => if n.id ∈ st.visited then st else dfs adj (nodes.length + 1) n.id st)
    { visited := [], recStack := [], back := [] }

/-- Remove the first occurrence of `t` (JS `indexOf` + `splice(index, 1)`,
a no-op when absent). -/
def removeFirst : List Str → Str → List Str
  | [], _ => []
  | x :: xs, t => if x = t then xs else x :: removeFirst xs t

/-- Adjustment loop of `findAndHandleCycles` (lines 74–82): for each
back-edge key, split it on `"->"`, remove one copy of the target from the
source's adjacency list (guarded by `if (adjList)`), and decrement the
target's in-degree via `(inDegree.get(target) || 1) - 1`. -/
def removalStep (g : Graph) (k : Str) : Graph :=
  let g1 :=
    match g.adj.get (splitKey k).1 with
    | some l => { g with adj := g.adj.set (splitKey k).1 (removeFirst l (splitKey k).2) }
    | none => g
  { g1 with inDegree :=
      g1.inDegree.set (splitKey k).2 (jsOrI (g1.inDegree.get (splitKey k).2) 1 - 1) }

/-- Iteration of `removalStep` over the back-edge keys in insertion
order. -/
def applyBackEdgeRemoval (g : Graph) : List Str → Graph
  | [] => g
  | k :: rest => applyBackEdgeRemoval (removalStep g k) rest

/-- `findAndHandleCycles` (lines 42–85): build adjacency (possibly
throwing on a dangling endpoint), detect back-edges by DFS, then adjust
`adj` and `inDegree` for acyclic layering.  Returns the adjusted graph and
the back-edge set. -/
def findAndHandleCycles (nodes : List Node) (edges : List Edge) (g0 : Graph) :
    Option (Graph × List Str) :=
  match addEdges g0 edges with
  | none => none
  | some g =>
    let st := runDfs g.adj nodes
    some (applyBackEdgeRemoval g st.back, st.back)

/-- Inner `for` of lines 94–99: decrement the in-degree of each successor
via `(inDegree.get(v) || 1) - 1` and push those that reach exactly zero
onto `nextQueue`. -/
def processTargets : List Str → List Str × MapF Int → List Str × MapF Int
  | [], acc => acc
  | v :: vs, acc =>
    let d := jsOrI (acc.2.get v) 1 - 1
    processTargets vs (if d = 0 then acc.1 ++ [v] else acc.1, acc.2.set v d)

/-- Iterate `processTargets` over the queue (outer `for` of lines 93–99). -/
def processQueue (adj : MapF (List Str)) : List Str →
    List Str × MapF Int → List Str × MapF Int
  | [], acc => acc
  | u :: us, acc => processQueue adj us (processTargets (adjL adj u) acc)

/-- One `while`-iteration body of `assignLayers`. -/
def processLayer (adj : MapF (List Str)) (queue : List Str) (deg : MapF Int) :
    List Str × MapF Int :=
  processQueue adj queue ([], deg)

/-- The `while (queue.length > 0)` loop of `assignLayers` (lines 90–102).
`fuel` bounds the number of iterations; the caller passes
`nodes.length + edges.length + 1`, which exceeds the number of layers the
JS loop produces whenever it terminates on inputs with consistent
in-degrees (each layer is nonempty and every pushed id consumed one unit
of in-degree). -/
def kahnLoop (adj : MapF (List Str)) : Nat → List Str → MapF Int → List (List Str)
  | 0, _, _ => []
  | fuel + 1, queue, deg =>
    if queue.isEmpty then []
    else
      let s := processLayer adj queue deg
      queue :: kahnLoop adj fuel s.1 s.2

/-- `assignLayers` (lines 87–104). -/
def assignLayers (fuel : Nat) (nodes : List Node) (adj : MapF (List Str))
    (deg : MapF Int) : List (List Str) :=
  let queue := (nodes.filter (fun n => deg.get n.id = some 0)).map (fun n => n.id)
  kahnLoop adj fuel queue deg

/-- Id of the `i`-th dummy node for a multi-layer edge `u → v`:
`` `dummy-${u}-${v}-${i}` ``. -/
def dummyId (u v : Str) (i : Nat) : Str :=
  dummyPre ++ u ++ ['-'] ++ v ++ ['-'] ++ Nat.toDigits 10 i

/-- The synthetic dummy node of `createVirtualGraph` (line 121). -/
def mkDummyNode (u v : Str) (i : Nat) : Node :=
  { id := dummyId u v i, type := ShapeType.Process,
    position := ⟨jofNat 0, jofNat 0⟩, label := [],
    width := jofNat 1, height := jofNat 50 }

/-- A virtual edge `` {id: `e-${s}-${t}`, source: s, target: t} ``. -/
def mkVirtEdge (s t : Str) : Edge :=
  { id := ['e', '-'] ++ s ++ ['-'] ++ t, source := s, target := t }

/-- `layerMap`: node id → index of its layer, later layers winning on
duplicates (lines 109–110). -/
def mkLayerMap (layers : List (List Str)) : MapF Nat :=
  layers.enum.foldl
    (fun m p => p.2.foldl (fun m id => m.set id p.1) m)
    MapF.empty

/-- Working state of `createVirtualGraph`: the (mutated) layers, the
collected dummy nodes, and the virtual edge list. -/
structure VG where
  layers : List (List Str)
  dummies : List (Str × Node)
  vedges : List Edge
deriving Repr

/-- Dummy-chain synthesis for one edge `u → v` spanning from layer `ul` to
layer `vl` with `vl - ul > 1` (lines 118–127): one dummy per intermediate
layer, pushed into that layer, linked `u → d₁ → ⋯ → v`. -/
def addChainGo (u v : Str) : List Nat → VG × Str → VG × Str
  | [], s => s
  | i :: is, s =>
    let d := dummyId u v i
    addChainGo u v is
      ({ layers := s.1.layers.set i ((s.1.layers.getD i []) ++ [d])
         dummies := s.1.dummies ++ [(d, mkDummyNode u v i)]
         vedges := s.1.vedges ++ [mkVirtEdge s.2 d] }, d)

/-- Chain synthesis wrapper: run the intermediate layers, then close the
chain with the edge to `v` (line 127). -/
def addChain (st : VG) (u v : Str) (ul vl : Nat) : VG :=
  let s := addChainGo u v (List.range' (ul + 1) (vl - 1 - ul)) (st, u)
  { s.1 with vedges := s.1.vedges ++ [mkVirtEdge s.2 v] }

/-- Successor loop of `createVirtualGraph` for one worklist entry `u`
(lines 114–131): for each successor `v`, either synthesize a dummy chain
(when both layer indices are defined and differ by more than 1) or pass
the edge through.  An undefined layer lookup makes the JS comparison
`vLayer - uLayer > 1` evaluate to `NaN > 1 = false`, hence the
pass-through branch. -/
def virtTargets (lm : MapF Nat) (u : Str) : List Str → VG → VG
  | [], st => st
  | v :: vs, st =>
    virtTargets lm u vs
      (match lm.get u, lm.get v with
       | some ul, some vl =>
         if (vl : Int) - ul > 1 then addChain st u v ul vl
         else { st with vedges := st.vedges ++ [mkVirtEdge u v] }
       | _, _ => { st with vedges := st.vedges ++ [mkVirtEdge u v] })

/-- Processing of one worklist entry of `createVirtualGraph`. -/
def processVirt (lm : MapF Nat) (adj : MapF (List Str)) (st : VG) (u : Str) : VG :=
  virtTargets lm u (adjL adj u) st

/-- The nested `for (const layer of layers) for (const u of layer)`
iteration of `createVirtualGraph`.  JS iterates the live arrays by index,
so dummies pushed into a not-yet-finished layer are themselves visited
(and contribute nothing, having no adjacency entry); the embedding
re-reads the current layer at each step to reproduce this.  `c` is the
layer index, `k` the position inside it; `fuel` exceeds the total number
of steps (positions visited plus layer transitions). -/
def virtLoop (lm : MapF Nat) (adj : MapF (List Str)) :
    Nat → VG → Nat → Nat → VG
  | 0, st, _, _ => st
  | fuel + 1, st, c, k =>
    if c < st.layers.length then
      let layer := st.layers.getD c []
      if k < layer.length then
        virtLoop lm adj fuel (processVirt lm adj st (layer.getD k [])) c (k + 1)
      else virtLoop lm adj fuel st (c + 1) 0
    else st

/-- `createVirtualGraph` (lines 106–135).  The JS function also receives
`nodeMap` but never uses it.  Fuel is supplied by the caller. -/
def createVirtualGraph (layers : List (List Str)) (adj : MapF (List Str))
    (fuel : Nat) : VG :=
  virtLoop (mkLayerMap layers) adj fuel
    { layers := layers, dummies := [], vedges := [] } 0 0

/-- Stable insertion into a sorted list: `x` is placed after every `y`
with `le y x`, so elements the comparator treats as equal keep their
original relative order. -/
def insertSorted {α : Type} (le : α → α → Bool) (x : α) : List α → List α
  | [] => [x]
  | y :: ys => if le y x then y :: insertSorted le x ys else x :: y :: ys

/-- Stable sort, modelling `Array.prototype.sort` (required stable since
ES2019) under a consistent comparator: the result is the unique sorted
stable permutation, which stable insertion sort computes. -/
def stableSortBy {α : Type} (le : α → α → Bool) (l : List α) : List α :=
  l.foldl (fun acc x => insertSorted le x acc) []

/-- `median` (lines 259–264), acting on the array
`neighbors.map(n => pos.get(n)!)` whose entries may be `undefined`.
JS `sort` moves `undefined` entries to the end and sorts the numbers
ascending; the median then reads the middle slot(s).  `none` models a
`NaN`/`undefined` median (an `undefined` middle slot, or an average
involving one). -/
def medianJS (arr : List (Option JNum)) : Option JNum :=
  if arr.length = 0 then some ⟨-1, 1⟩
  else
    let nums := stableSortBy jle (arr.filterMap id)
    let mid := arr.length / 2
    if arr.length % 2 = 1 then nums.get? mid
    else
      match nums.get? (mid - 1), nums.get? mid with
      | some a, some b => some (jhalf (jadd a b))
      | _, _ => none

/-- Comparator key order for the layer sorts of `reduceCrossings`:
`le a b` iff the JS comparator `aMedian - bMedian` returns a value `≤ 0`.
A comparison involving `NaN`/`undefined` returns `NaN`, which the JS sort
treats as `0` (equal), hence `true` both ways. -/
def cmpKey (a b : Option JNum) : Bool :=
  match a, b with
  | some x, some y => jle x y
  | _, _ => true

/-- Position map `new Map(layer.map((id, pos) => [id, pos]))`. -/
def posMapOf (layer : List Str) : MapF JNum :=
  layer.enum.foldl (fun m p => m.set p.2 (jofNat p.1)) MapF.empty

/-- Sort one layer by median neighbor position (the sorts at
lines 152–158 and 163–169). -/
def sortLayer (neigh : Str → List Str) (pos : MapF JNum) (layer : List Str) :
    List Str :=
  stableSortBy
    (fun a b => cmpKey (medianJS ((neigh a).map pos.get))
                       (medianJS ((neigh b).map pos.get)))
    layer

/-- Adjacency maps local to `reduceCrossings` (lines 138–145), built from
the virtual edges. -/
def buildAdjPair (edges : List Edge) : MapF (List Str) × MapF (List Str) :=
  edges.foldl
    (fun mr e =>
      let a := match mr.1.get e.source with
        | some _ => mr.1
        | none => mr.1.set e.source []
      let r := match mr.2.get e.target with
        | some _ => mr.2
        | none => mr.2.set e.target []
      (a.set e.source (((a.get e.source).getD []) ++ [e.target]),
       r.set e.target (((r.get e.target).getD []) ++ [e.source])))
    (MapF.empty, MapF.empty)

/-- Downward pass (lines 150–159): for `i = 1 .. layers.length - 1`, sort
layer `i` by the median position of its predecessors in the (already
re-sorted) layer `i - 1`. -/
def downPass (revAdj : MapF (List Str)) (layers : List (List Str)) :
    List (List Str) :=
  (List.range' 1 (layers.length - 1)).foldl
    (fun ls i =>
      let pos := posMapOf (ls.getD (i - 1) [])
      ls.set i (sortLayer (adjL revAdj) pos (ls.getD i [])))
    layers

/-- Upward pass (lines 161–170): for `i = layers.length - 2 .. 0`, sort
layer `i` by the median position of its successors in layer `i + 1`. -/
def upPass (adj : MapF (List Str)) (layers : List (List Str)) :
    List (List Str) :=
  ((List.range (layers.length - 1)).reverse).foldl
    (fun ls i =>
      let pos := posMapOf (ls.getD (i + 1) [])
      ls.set i (sortLayer (adjL adj) pos (ls.getD i [])))
    layers

/-- The body of `reduceCrossings` for a given iteration count: each
iteration of the `for (let iter = 0; iter < n; iter++)` loop performs one
full downward pass followed by one full upward pass. -/
def reduceCrossingsIter (iters : Nat) (layers : List (List Str))
    (edges : List Edge) : List (List Str) :=
  let ar := buildAdjPair edges
  (List.range iters).foldl (fun ls _ => upPass ar.1 (downPass ar.2 ls)) layers

/-- `reduceCrossings` (lines 137–173): the loop bound in the source is 4,
so four downward and four upward passes are performed in total. -/
def reduceCrossings (layers : List (List Str)) (edges : List Edge) :
    List (List Str) :=
  reduceCrossingsIter 4 layers edges

/-- Sum of a selected dimension over a layer
(`layer.reduce((sum, id) => sum + nodeMap.get(id)!.height, 0)`); `none`
models the `TypeError` on a missing id. -/
def sumSel (nm : MapF Node) (sel : Node → JNum) : List Str → Option JNum
  | [] => some (jofNat 0)
  | id :: rest =>
    match nm.get id with
    | none => none
    | some nd =>
      match sumSel nm sel rest with
      | none => none
      | some s => some (jadd (sel nd) s)

/-- Total extent of a layer along the stacking axis:
dimension sum plus `(layer.length - 1) * gap` (lines 179–181 / 198–200). -/
def layerExtent (nm : MapF Node) (sel : Node → JNum) (gap : JNum)
    (layer : List Str) : Option JNum :=
  match sumSel nm sel layer with
  | none => none
  | some s => some (jadd s (jmul (jsub (jofNat layer.length) (jofNat 1)) gap))

/-- `Math.max(...)` over a list; the empty case is unreachable in the
pipeline (`assignCoordinates` is only called with nonempty `layers`). -/
def jmaxList : List JNum → JNum
  | [] => jofNat 0
  | h :: t => t.foldl jmax h

/-- Placement of one horizontal layer (inner loop of lines 189–194):
starting at `y`, each node is emitted at `(x, currentY)`, `currentY`
advances by `height + Y_GAP`, and the running maximum width is kept. -/
def placeRowH (nm : MapF Node) (x : JNum) : List Str → JNum → JNum →
    Option (List Node × JNum)
  | [], _, maxW => some ([], maxW)
  | id :: rest, y, maxW =>
    match nm.get id with
    | none => none
    | some nd =>
      match placeRowH nm x rest (jadd y (jadd nd.height Y_GAP))
              (if jlt maxW nd.width then nd.width else maxW) with
      | none => none
      | some rm => some ({ nd with position := ⟨x, y⟩ } :: rm.1, rm.2)

/-- Placement of one vertical layer (inner loop of lines 208–213):
starting at `x`, each node is emitted at `(currentX, y)`, `currentX`
advances by `width + X_GAP`, and the running maximum height is kept. -/
def placeRowV (nm : MapF Node) (y : JNum) : List Str → JNum → JNum →
    Option (List Node × JNum)
  | [], _, maxH => some ([], maxH)
  | id :: rest, x, maxH =>
    match nm.get id with
    | none => none
    | some nd =>
      match placeRowV nm y rest (jadd x (jadd nd.width X_GAP))
              (if jlt maxH nd.height then nd.height else maxH) with
      | none => none
      | some rm => some ({ nd with position := ⟨x, y⟩ } :: rm.1, rm.2)

/-- `layers.forEach` of the horizontal branch of `assignCoordinates`
(lines 185–196): place each layer at the running `currentX`, vertically
centered against the tallest layer, then advance `currentX` by the
layer's maximum width plus `X_GAP`. -/
def coordFoldH (nm : MapF Node) (maxH : JNum) : List (List Str) → JNum →
    Option (List Node)
  | [], _ => some []
  | layer :: rest, curX =>
    match layerExtent nm (fun n => n.height) Y_GAP layer with
    | none => none
    | some lh =>
      match placeRowH nm curX layer (jadd (jhalf (jsub maxH lh)) (jofNat 50))
              (jofNat 0) with
      | none => none
      | some rm =>
        match coordFoldH nm maxH rest (jadd curX (jadd rm.2 X_GAP)) with
        | none => none
        | some out => some (rm.1 ++ out)

/-- `layers.forEach` of the vertical branch (lines 204–215). -/
def coordFoldV (nm : MapF Node) (maxW : JNum) : List (List Str) → JNum →
    Option (List Node)
  | [], _ => some []
  | layer :: rest, curY =>
    match layerExtent nm (fun n => n.width) X_GAP layer with
    | none => none
    | some lw =>
      match placeRowV nm curY layer (jadd (jhalf (jsub maxW lw)) (jofNat 50))
              (jofNat 0) with
      | none => none
      | some rm =>
        match coordFoldV nm maxW rest (jadd curY (jadd rm.2 Y_GAP)) with
        | none => none
        | some out => some (rm.1 ++ out)

/-- `assignCoordinates` (lines 175–218).  The JS code first computes every
layer extent (crashing on any missing id), takes the maximum, then places
the layers; `none` models the crash. -/
def assignCoordinates (layers : List (List Str)) (nm : MapF Node)
    (o : Orientation) : Option (List Node) :=
  match o with
  | Orientation.horizontal =>
    match layers.mapM (layerExtent nm (fun n => n.height) Y_GAP) with
    | none => none
    | some hs => coordFoldH nm (jmaxList hs) layers (jofNat 50)
  | Orientation.vertical =>
    match layers.mapM (layerExtent nm (fun n => n.width) X_GAP) with
    | none => none
    | some ws => coordFoldV nm (jmaxList ws) layers (jofNat 50)

/-- `assignEdgeHandles` (lines 220–256).  The `Map.get` results are
checked (`if (!source || !target) return edge`) before any property
access, so a missing endpoint returns the edge unchanged and never
throws; back-edges get the fixed pair; otherwise handles are derived from
the relative cross-axis position with a 10px tolerance. -/
def assignEdgeHandles (edges : List Edge) (nm : MapF Node) (back : List Str)
    (o : Orientation) : List Edge :=
  edges.map (fun e =>
    match nm.get e.source, nm.get e.target with
    | some s, some t =>
      if edgeKey e.source e.target ∈ back then
        { e with sourceHandle := some (if o = Orientation.horizontal then 2 else 1),
                 targetHandle := some (if o = Orientation.horizontal then 2 else 1) }
      else
        match o with
        | Orientation.horizontal =>
          if jlt (jadd t.position.y (jofNat 10)) s.position.y then
            { e with sourceHandle := some 0, targetHandle := some 2 }
          else if jlt s.position.y (jsub t.position.y (jofNat 10)) then
            { e with sourceHandle := some 2, targetHandle := some 0 }
          else { e with sourceHandle := some 1, targetHandle := some 3 }
        | Orientation.vertical =>
          if jlt (jadd t.position.x (jofNat 10)) s.position.x then
            { e with sourceHandle := some 3, targetHandle := some 1 }
          else if jlt s.position.x (jsub t.position.x (jofNat 10)) then
            { e with sourceHandle := some 1, targetHandle := some 3 }
          else { e with sourceHandle := some 2, targetHandle := some 0 }
    | _, _ => e)

/-- Result record of `autoLayout`. -/
structure LayoutResult where
  newNodes : List Node
  newEdges : List Edge
deriving DecidableEq, Repr

/-- Fuel passed to `createVirtualGraph`: an overapproximation of the
number of worklist steps (original positions, plus at most one dummy per
residual adjacency entry per layer, plus the layer transitions). -/
def virtFuel (layers : List (List Str)) (edgeCount : Nat) : Nat :=
  layers.foldl (fun a l => a + l.length) 0 +
    edgeCount * layers.length + layers.length + 2

/-- The ids of the input nodes. -/
def nodeIds (nodes : List Node) : List Str := nodes.map (fun n => n.id)

/-- `nodeMap = new Map(nodes.map(n => [n.id, n]))`. -/
def mkNodeMap (nodes : List Node) : MapF Node :=
  nodes.foldl (fun m n => m.set n.id n) MapF.empty

/-- The graph-adjustment phase and back-edge set of a run
(`findAndHandleCycles` applied to the freshly initialized maps). -/
def builtGraph (nodes : List Node) (edges : List Edge) :
    Option (Graph × List Str) :=
  findAndHandleCycles nodes edges (initGraph nodes)

/-- The layering a run computes (empty when the build phase throws; the
caller never reaches the layering in that case). -/
def layersOf (nodes : List Node) (edges : List Edge) : List (List Str) :=
  match builtGraph nodes edges with
  | none => []
  | some gb => assignLayers (nodes.length + edges.length + 1) nodes gb.1.adj gb.1.inDegree

/-- The back-edge key set of a run (empty when the build phase throws). -/
def backOf (nodes : List Node) (edges : List Edge) : List Str :=
  match builtGraph nodes edges with
  | none => []
  | some gb => gb.2

/-- The fallback placement for a graph with only cycles (lines 22–25):
every node keeps its data and is stacked at `(50, 50 + i * 150)`; the
edges are returned unchanged. -/
def fallbackLayout (nodes : List Node) (edges : List Edge) : LayoutResult :=
  ⟨nodes.enum.map (fun p =>
      { p.2 with position := ⟨jofNat 50,
          jadd (jofNat 50) (jmul (jofNat p.1) (jofNat 150))⟩ }),
    edges⟩

/-- The `new Map([...nodeMap, ...dummyNodes])` overlay (line 28): dummy
entries win on a colliding key, as later spread entries do in JS. -/
def overlayDummies (nm : MapF Node) (dummies : List (Str × Node)) : MapF Node :=
  dummies.foldl (fun m p => m.set p.1 p.2) nm

/-- `new Map(positionedNodes.map(n => [n.id, n]))` (line 33). -/
def mkFinalMap (positioned : List Node) : MapF Node :=
  positioned.foldl (fun m n => m.set n.id n) MapF.empty

/-- The virtual graph of a run (line 27). -/
def vgOf (edges : List Edge) (g : Graph) (layers : List (List Str)) : VG :=
  createVirtualGraph layers g.adj (virtFuel layers edges.length)

/-- The node map including dummies (line 28). -/
def vmapOf (nodes : List Node) (vg : VG) : MapF Node :=
  overlayDummies (mkNodeMap nodes) vg.dummies

/-- The crossing-reduced layers of a run (line 30). -/
def orderedOf (vg : VG) : List (List Str) :=
  reduceCrossings vg.layers vg.vedges

/-- Lines 27–39 of `autoLayout`: virtual graph, crossing reduction,
coordinates, dummy filtering and handle assignment, for an already
computed nonempty layering. -/
def layoutFromLayers (nodes : List Node) (edges : List Edge) (o : Orientation)
    (g : Graph) (back : List Str) (layers : List (List Str)) :
    Option LayoutResult :=
  match assignCoordinates (orderedOf (vgOf edges g layers))
      (vmapOf nodes (vgOf edges g layers)) o with
  | none => none
  | some positioned =>
    some ⟨positioned.filter (fun n => ¬ dummyPre.isPrefixOf n.id),
          assignEdgeHandles edges (mkFinalMap positioned) back o⟩

/-- The layering computed by a run whose build phase produced `gb`
(line 20, with the fuel `autoLayout` passes). -/
def layersFor (nodes : List Node) (edges : List Edge)
    (gb : Graph × List Str) : List (List Str) :=
  assignLayers (nodes.length + edges.length + 1) nodes gb.1.adj gb.1.inDegree

/-- `autoLayout` (lines 10–40).  `none` models a thrown `TypeError`. -/
def autoLayout (nodes : List Node) (edges : List Edge) (o : Orientation) :
    Option LayoutResult :=
  if nodes.isEmpty then some ⟨[], []⟩
  else
    match builtGraph nodes edges with
    | none => none
    | some gb =>
      if (layersFor nodes edges gb).isEmpty then
        some (fallbackLayout nodes edges)
      else layoutFromLayers nodes edges o gb.1 gb.2 (layersFor nodes edges gb)

/-- The handle-independent data of an edge: id, source, target, label. -/
def edgeSig (e : Edge) : Str × Str × Str × Option Str :=
  (e.id, e.source, e.target, e.label)

/-- The layer-axis coordinate of a node: `x` for horizontal flow, `y` for
vertical flow. -/
def axisCoord (o : Orientation) (n : Node) : JNum :=
  match o with
  | Orientation.horizontal => n.position.x
  | Orientation.vertical => n.position.y

/-- The residual adjacency of a run (after cycle adjustment); the empty
map when the build phase throws. -/
def residualAdj (nodes : List Node) (edges : List Edge) : MapF (List Str) :=
  match builtGraph nodes edges with
  | none => MapF.empty
  | some gb => gb.1.adj

/-- The virtual graph a (successful, non-fallback) run builds; an empty
record when the build phase throws. -/
def vgRun (nodes : List Node) (edges : List Edge) : VG :=
  match builtGraph nodes edges with
  | none => ⟨[], [], []⟩
  | some gb => vgOf edges gb.1 (layersFor nodes edges gb)

section ConcreteInputs

/-- A process node of the default 140×80 size (position is irrelevant:
the layout overwrites it). -/
def cNode (id : Str) : Node :=
  { id := id, type := ShapeType.Process, position := ⟨jofNat 0, jofNat 0⟩,
    label := [], width := jofNat 140, height := jofNat 80 }

/-- A plain edge without handles or label. -/
def cEdge (id s t : Str) : Edge := { id := id, source := s, target := t }

/-- Nodes of the fully-cyclic example that triggers the fallback branch:
`A` and `B` with edges `A→B` and two parallel copies of `B→A` (the DFS
marks the pair `B→A` as one back-edge, removing a single copy, so no node
ever reaches in-degree 0 and the layering is empty). -/
def fbNodes : List Node := [cNode ['A'], cNode ['B']]

/-- Edges of the fallback example. -/
def fbEdges : List Edge :=
  [cEdge ['1'] ['A'] ['B'], cEdge ['2'] ['B'] ['A'], cEdge ['3'] ['B'] ['A']]

/-- A single input node whose id starts with `dummy-`. -/
def dummyNamedNode : Node := cNode (['d', 'u', 'm', 'm', 'y', '-', 'a'])

/-- The fallback example's edges with an input source handle `0` on the
first edge. -/
def c5EdgesA : List Edge :=
  [{ cEdge ['1'] ['A'] ['B'] with sourceHandle := some 0 },
   cEdge ['2'] ['B'] ['A'], cEdge ['3'] ['B'] ['A']]

/-- The fallback example's edges with an input source handle `1` on the
first edge. -/
def c5EdgesB : List Edge :=
  [{ cEdge ['1'] ['A'] ['B'] with sourceHandle := some 1 },
   cEdge ['2'] ['B'] ['A'], cEdge ['3'] ['B'] ['A']]

/-- Parallel back-edges carrying distinct input handles. -/
def c10Edges : List Edge :=
  [cEdge ['1'] ['A'] ['B'],
   { cEdge ['2'] ['B'] ['A'] with sourceHandle := some 0 },
   { cEdge ['3'] ['B'] ['A'] with sourceHandle := some 1 }]

/-- A single node with a self-loop. -/
def selfNodes : List Node := [cNode ['X']]

/-- The self-loop edge `X→X`. -/
def selfEdges : List Edge := [cEdge ['1'] ['X'] ['X']]

/-- A plain two-node cycle `A→B→A` (laid out normally, `B→A` back). -/
def abNodes : List Node := [cNode ['A'], cNode ['B']]

/-- Edges of the two-node cycle. -/
def abEdges : List Edge := [cEdge ['1'] ['A'] ['B'], cEdge ['2'] ['B'] ['A']]

/-- Layers of the crossing-reduction example distinguishing two from four
down/up iterations. -/
def c4layers : List (List Str) :=
  [[['A']], [['p'], ['q'], ['r'], ['s']], [['x'], ['y'], ['z']]]

/-- Virtual edges of the crossing-reduction example. -/
def c4edges : List Edge :=
  [cEdge ['1'] ['A'] ['p'], cEdge ['2'] ['A'] ['s'], cEdge ['3'] ['p'] ['x'],
   cEdge ['4'] ['q'] ['x'], cEdge ['5'] ['q'] ['y'], cEdge ['6'] ['r'] ['y'],
   cEdge ['7'] ['r'] ['z']]

/-- The concrete result of laying out the two-node cycle (used by
witnesses; the run succeeds, so the default is never taken). -/
def abResult : LayoutResult :=
  (autoLayout abNodes abEdges Orientation.horizontal).getD ⟨[], []⟩

/-- The concrete result of laying out the fallback example. -/
def fbResult : LayoutResult :=
  (autoLayout fbNodes fbEdges Orientation.horizontal).getD ⟨[], []⟩

/-- Two distinct parallel forward edges `A→B` (both endpoints get laid
out normally). -/
def parEdges : List Edge := [cEdge ['1'] ['A'] ['B'], cEdge ['2'] ['A'] ['B']]

/-- The concrete result of laying out the parallel-forward-edge example. -/
def parResult : LayoutResult :=
  (autoLayout abNodes parEdges Orientation.horizontal).getD ⟨[], []⟩

/-- The two-node-cycle edges with an input handle planted on `A→B`. -/
def abEdgesH : List Edge :=
  [{ cEdge ['1'] ['A'] ['B'] with sourceHandle := some 0 },
   cEdge ['2'] ['B'] ['A']]

/-- The concrete result of laying out the two-node cycle with a planted
input handle. -/
def abResultH : LayoutResult :=
  (autoLayout abNodes abEdgesH Orientation.horizontal).getD ⟨[], []⟩

/-- The concrete result of laying out the single self-loop node. -/
def selfResult : LayoutResult :=
  (autoLayout selfNodes selfEdges Orientation.horizontal).getD ⟨[], []⟩

/-- The first returned node of the two-node-cycle run (the laid-out
`A`). -/
def c3nu : Node := abResult.newNodes.getD 0 (cNode [])

/-- The second returned node of the two-node-cycle run (the laid-out
`B`). -/
def c3nv : Node := abResult.newNodes.getD 1 (cNode [])

/-- A single layer holding both nodes `A` and `B` (for the coordinate
geometry witness). -/
def c6Layers : List (List Str) := [[['A'], ['B']]]

/-- The concrete coordinate assignment of that layer. -/
def c6Out : List Node :=
  (assignCoordinates c6Layers (mkNodeMap abNodes) Orientation.horizontal).getD []

end ConcreteInputs

/-- Two layer lists of equal length whose layers are pairwise permutations
of one another (what crossing reduction does to the layers). -/
def PermByIndex (a b : List (List Str)) : Prop :=
  a.length = b.length ∧ ∀ i, (a.getD i []).Perm (b.getD i [])

/-- `b` extends `a` by appending only `dummy-`-prefixed ids to (some of)
its layers (what virtual-graph construction does to the layers). -/
def LayerExt (a b : List (List Str)) : Prop :=
  a.length = b.length ∧
    ∀ i, ∃ ext, b.getD i [] = a.getD i [] ++ ext ∧
      ∀ x ∈ ext, dummyPre.isPrefixOf x = true

/-- Every value stored in the map carries its own key as `id` (true of
`nodeMap`, the dummy overlay and the final positioned map). -/
def IdKeyed (nm : MapF Node) : Prop :=
  ∀ k nd, nm.get k = some nd → nd.id = k

/-- Number of copies of `w` among the adjacency targets of the sources
`srcs` (the ghost count that the in-degree map tracks). -/
def occFrom (adj : MapF (List Str)) (srcs : List Str) (w : Str) : Nat :=
  (srcs.map (fun u => (adjL adj u).count w)).sum

/-- The ids not yet processed by the layering (ghost state of the Kahn
invariant). -/
def remaining (ids P : List Str) : List Str :=
  ids.filter (fun x => decide (x ∉ P))

/-- Neat ids: no id contains the substring `"->"`, which makes the
back-edge key encoding collision-free. -/
@[reducible]
def CleanIds (ids : List Str) : Prop := ∀ id ∈ ids, hasArrow id = false

/-- Well-formed node dimensions: positive denominators (true of every node
the editor produces, whose sizes are plain nonnegative doubles). -/
@[reducible]
def WFDims (nodes : List Node) : Prop :=
  ∀ n ∈ nodes, 0 < n.width.den ∧ 0 < n.height.den

section JNumLemmas

/-- Interpretation of a literal. -/
theorem toRat_jofNat (n : Nat) : (jofNat n).toRat = n := by
  simp [jofNat, JNum.toRat]

/-- Denominator positivity is preserved by addition. -/
theorem den_jadd {a b : JNum} (ha : 0 < a.den) (hb : 0 < b.den) :
    0 < (jadd a b).den := Nat.mul_pos ha hb

/-- Denominator positivity is preserved by subtraction. -/
theorem den_jsub {a b : JNum} (ha : 0 < a.den) (hb : 0 < b.den) :
    0 < (jsub a b).den := Nat.mul_pos ha hb

/-- Denominator positivity is preserved by multiplication. -/
theorem den_jmul {a b : JNum} (ha : 0 < a.den) (hb : 0 < b.den) :
    0 < (jmul a b).den := Nat.mul_pos ha hb

/-- Denominator positivity is preserved by halving. -/
theorem den_jhalf {a : JNum} (ha : 0 < a.den) : 0 < (jhalf a).den :=
  Nat.mul_pos ha (by omega)

/-- Denominator positivity is preserved by `jmax`. -/
theorem den_jmax {a b : JNum} (ha : 0 < a.den) (hb : 0 < b.den) :
    0 < (jmax a b).den := by
  unfold jmax; split <;> assumption

/-- The literal embedding has a positive denominator. -/
theorem den_jofNat (n : Nat) : 0 < (jofNat n).den := by simp [jofNat]

/-- `jadd` interprets as rational addition. -/
theorem toRat_jadd {a b : JNum} (ha : 0 < a.den) (hb : 0 < b.den) :
    (jadd a b).toRat = a.toRat + b.toRat := by
  have ha' : (a.den : ℚ) ≠ 0 := by exact_mod_cast ha.ne'
  have hb' : (b.den : ℚ) ≠ 0 := by exact_mod_cast hb.ne'
  unfold jadd JNum.toRat
  push_cast
  field_simp

/-- `jsub` interprets as rational subtraction. -/
theorem toRat_jsub {a b : JNum} (ha : 0 < a.den) (hb : 0 < b.den) :
    (jsub a b).toRat = a.toRat - b.toRat := by
  have ha' : (a.den : ℚ) ≠ 0 := by exact_mod_cast ha.ne'
  have hb' : (b.den : ℚ) ≠ 0 := by exact_mod_cast hb.ne'
  unfold jsub JNum.toRat
  push_cast
  field_simp
  ring

/-- `jmul` interprets as rational multiplication. -/
theorem toRat_jmul {a b : JNum} (ha : 0 < a.den) (hb : 0 < b.den) :
    (jmul a b).toRat = a.toRat * b.toRat := by
  have ha' : (a.den : ℚ) ≠ 0 := by exact_mod_cast ha.ne'
  have hb' : (b.den : ℚ) ≠ 0 := by exact_mod_cast hb.ne'
  unfold jmul JNum.toRat
  push_cast
  field_simp

/-- `jhalf` interprets as rational halving. -/
theorem toRat_jhalf {a : JNum} (ha : 0 < a.den) :
    (jhalf a).toRat = a.toRat / 2 := by
  have ha' : (a.den : ℚ) ≠ 0 := by exact_mod_cast ha.ne'
  unfold jhalf JNum.toRat
  push_cast
  field_simp

/-- `jlt` decides the rational strict order. -/
theorem jlt_iff {a b : JNum} (ha : 0 < a.den) (hb : 0 < b.den) :
    jlt a b = true ↔ a.toRat < b.toRat := by
  unfold jlt JNum.toRat
  rw [div_lt_div_iff₀ (show (0 : ℚ) < a.den by exact_mod_cast ha)
    (show (0 : ℚ) < b.den by exact_mod_cast hb)]
  simp only [decide_eq_true_eq]
  constructor
  · intro h; exact_mod_cast h
  · intro h; exact_mod_cast h

/-- `jle` decides the rational order. -/
theorem jle_iff {a b : JNum} (ha : 0 < a.den) (hb : 0 < b.den) :
    jle a b = true ↔ a.toRat ≤ b.toRat := by
  unfold jle JNum.toRat
  rw [div_le_div_iff₀ (show (0 : ℚ) < a.den by exact_mod_cast ha)
    (show (0 : ℚ) < b.den by exact_mod_cast hb)]
  simp only [decide_eq_true_eq]
  constructor
  · intro h; exact_mod_cast h
  · intro h; exact_mod_cast h

/-- `jmax` interprets as the rational maximum. -/
theorem toRat_jmax {a b : JNum} (ha : 0 < a.den) (hb : 0 < b.den) :
    (jmax a b).toRat = max a.toRat b.toRat := by
  unfold jmax
  by_cases h : jlt a b = true
  · rw [if_pos h, max_eq_right ((jlt_iff ha hb).1 h).le]
  · rw [if_neg h, max_eq_left]
    have := (jlt_iff ha hb).not.1 h
    exact le_of_not_lt this

end JNumLemmas

section MapHelpers

/-- Lookup after `set` at the written key. -/
theorem MapF.get_set_self {α : Type} (m : MapF α) (k : Str) (v : α) :
    (m.set k v).get k = some v := by
  simp [MapF.set, MapF.get]

/-- Lookup after `set` at a different key. -/
theorem MapF.get_set_ne {α : Type} (m : MapF α) (k k' : Str) (v : α)
    (h : k' ≠ k) : (m.set k v).get k' = m.get k' := by
  simp [MapF.set, MapF.get, h]

/-- Any binding produced by a `foldl`-of-`set` comes from the list or from
the initial map. -/
theorem get_foldl_set {α β : Type} (key : β → Str) (val : β → α) :
    ∀ (l : List β) (m0 : MapF α) (k : Str) (v : α),
      (l.foldl (fun m b => m.set (key b) (val b)) m0).get k = some v →
      (∃ b ∈ l, key b = k ∧ val b = v) ∨ m0.get k = some v := by
  intro l
  induction l with
  | nil => intro m0 k v h; exact Or.inr h
  | cons b t ih =>
    intro m0 k v h
    rcases ih _ _ _ h with h1 | h2
    · obtain ⟨b', hb', hk, hv⟩ := h1
      exact Or.inl ⟨b', List.mem_cons_of_mem _ hb', hk, hv⟩
    · by_cases hk : k = key b
      · subst hk
        rw [MapF.get_set_self] at h2
        exact Or.inl ⟨b, List.mem_cons_self _ _, rfl, Option.some.inj h2⟩
      · rw [MapF.get_set_ne _ _ _ _ hk] at h2
        exact Or.inr h2

/-- A key written by the fold (or already present) is present afterwards. -/
theorem isSome_foldl_set {α β : Type} (key : β → Str) (val : β → α) :
    ∀ (l : List β) (m0 : MapF α) (k : Str),
      ((∃ b ∈ l, key b = k) ∨ (m0.get k).isSome) →
      ((l.foldl (fun m b => m.set (key b) (val b)) m0).get k).isSome := by
  intro l
  induction l with
  | nil =>
    intro m0 k h
    rcases h with ⟨b, hb, _⟩ | h
    · exact absurd hb (List.not_mem_nil _)
    · exact h
  | cons b t ih =>
    intro m0 k h
    apply ih
    by_cases hmem : ∃ b' ∈ t, key b' = k
    · exact Or.inl hmem
    · right
      rcases h with ⟨b', hb', hk⟩ | h
      · rcases List.mem_cons.1 hb' with rfl | hb'
        · rw [← hk, MapF.get_set_self]; rfl
        · exact absurd ⟨b', hb', hk⟩ hmem
      · by_cases hk : k = key b
        · subst hk; rw [MapF.get_set_self]; rfl
        · rwa [MapF.get_set_ne _ _ _ _ hk]

end MapHelpers

section ListHelpers

/-- A list is a prefix of itself extended. -/
theorem isPrefixOf_append (p s : Str) : p.isPrefixOf (p ++ s) = true := by
  rw [List.isPrefixOf_iff_prefix]
  exact List.prefix_append p s

/-- Generated dummy ids carry the `dummy-` prefix. -/
theorem dummyId_pre (u v : Str) (i : Nat) :
    dummyPre.isPrefixOf (dummyId u v i) = true := by
  unfold dummyId
  simp only [List.append_assoc]
  exact isPrefixOf_append _ _

/-- `insertSorted` permutes the inserted element into the list. -/
theorem insertSorted_perm {α : Type} (le : α → α → Bool) (x : α) :
    ∀ l : List α, (insertSorted le x l).Perm (x :: l) := by
  intro l
  induction l with
  | nil => simp [insertSorted]
  | cons y ys ih =>
    unfold insertSorted
    by_cases h : le y x = true
    · rw [if_pos h]
      exact (ih.cons y).trans (List.Perm.swap x y ys)
    · rw [if_neg h]

/-- `stableSortBy` permutes its input. -/
theorem stableSortBy_perm {α : Type} (le : α → α → Bool) (l : List α) :
    (stableSortBy le l).Perm l := by
  have aux : ∀ (l acc : List α),
      (l.foldl (fun a x => insertSorted le x a) acc).Perm (acc ++ l) := by
    intro l
    induction l with
    | nil => intro acc; simp
    | cons x t ih =>
      intro acc
      refine (ih (insertSorted le x acc)).trans ?_
      refine ((insertSorted_perm le x acc).append_right t).trans ?_
      exact List.perm_middle.symm
  simpa using aux l []

end ListHelpers

section StringLemmas

/-- A string that does not start with `"->"` contains the separator iff
its tail does. -/
theorem hasArrow_cons_false {c : Char} {t : List Char}
    (h : hasArrow (c :: t) = false) : hasArrow t = false := by
  unfold hasArrow at h
  split at h
  · exact absurd h (by simp)
  · rename_i heq
    injection heq with h1 h2
    rw [h2]; exact h
  · rename_i heq
    exact absurd heq (by simp)

/-- Splitting a separator-free string yields the single accumulated
component. -/
theorem splitArrowAux_no_arrow :
    ∀ (s : List Char), hasArrow s = false →
      ∀ acc, splitArrowAux s acc = [acc.reverse ++ s] := by
  intro s
  induction s with
  | nil => intro _ acc; simp [splitArrowAux]
  | cons c t ih =>
    intro h acc
    unfold splitArrowAux
    split
    · rename_i rest heq
      exfalso
      injection heq with h1 h2
      subst h1; subst h2
      simp [hasArrow] at h
    · rename_i heq
      injection heq with h1 h3
      subst h1; subst h3
      rw [ih (hasArrow_cons_false h)]
      simp
    · rename_i heq
      exact absurd heq (by simp)

/-- Splitting at the first separator after a separator-free prefix. -/
theorem splitArrowAux_sep :
    ∀ (u : List Char), hasArrow u = false →
      ∀ (rest : List Char) (acc : List Char),
        splitArrowAux (u ++ '-' :: '>' :: rest) acc =
          (acc.reverse ++ u) :: splitArrowAux rest [] := by
  intro u
  induction u with
  | nil =>
    intro _ rest acc
    simp only [List.nil_append]
    show List.reverse acc :: splitArrowAux rest [] = _
    simp
  | cons c t ih =>
    intro h rest acc
    have hstep : (c :: t) ++ '-' :: '>' :: rest = c :: (t ++ '-' :: '>' :: rest) := rfl
    rw [hstep]
    rw [splitArrowAux.eq_def]
    split
    · rename_i rest2 heq
      exfalso
      injection heq with h1 h2
      subst h1
      cases t with
      | nil =>
        injection h2 with h3 h4
        exact absurd h3 (by decide)
      | cons d t2 =>
        injection h2 with h3 h4
        subst h3
        simp [hasArrow] at h
    · rename_i heq
      injection heq with h1 h3
      subst h1; subst h3
      rw [ih (hasArrow_cons_false h)]
      simp
    · rename_i heq
      exact absurd heq (by simp)

/-- A back-edge key built from separator-free ids parses back to exactly
its two components. -/
theorem splitKey_edgeKey (u v : Str) (hu : hasArrow u = false)
    (hv : hasArrow v = false) : splitKey (edgeKey u v) = (u, v) := by
  unfold splitKey splitArrow edgeKey arrowSep
  rw [List.append_assoc]
  simp only [List.cons_append, List.nil_append]
  have h1 : splitArrowAux (u ++ ('-' :: '>' :: v)) [] =
      ([].reverse ++ u) :: splitArrowAux v [] := splitArrowAux_sep u hu v []
  rw [h1, splitArrowAux_no_arrow v hv []]
  simp

/-- The key encoding is injective on separator-free ids. -/
theorem edgeKey_inj (u v u' v' : Str) (hu : hasArrow u = false)
    (hv : hasArrow v = false) (hu' : hasArrow u' = false)
    (hv' : hasArrow v' = false) (h : edgeKey u v = edgeKey u' v') :
    u = u' ∧ v = v' := by
  have h1 := splitKey_edgeKey u v hu hv
  have h2 := splitKey_edgeKey u' v' hu' hv'
  rw [h] at h1
  rw [h2] at h1
  exact ⟨congrArg Prod.fst h1.symm, congrArg Prod.snd h1.symm⟩

end StringLemmas


section LayerStructure

/-- `PermByIndex` is reflexive. -/
theorem permByIndex_refl (a : List (List Str)) : PermByIndex a a :=
  ⟨rfl, fun _ => List.Perm.refl _⟩

/-- `PermByIndex` is transitive. -/
theorem permByIndex_trans {a b c : List (List Str)}
    (h1 : PermByIndex a b) (h2 : PermByIndex b c) : PermByIndex a c :=
  ⟨h1.1.trans h2.1, fun i => (h1.2 i).trans (h2.2 i)⟩

/-- Replacing one layer by a permutation of it is a `PermByIndex` step. -/
theorem permByIndex_set (ls : List (List Str)) (i : Nat) (L : List Str)
    (h : L.Perm (ls.getD i [])) : PermByIndex (ls.set i L) ls := by
  refine ⟨List.length_set ls i L, fun j => ?_⟩
  rw [List.getD_eq_getElem?_getD, List.getD_eq_getElem?_getD, List.getElem?_set]
  by_cases hij : i = j
  · subst hij
    by_cases hlt : i < ls.length
    · rw [if_pos rfl, if_pos hlt]
      simpa [List.getD_eq_getElem?_getD] using h
    · rw [if_pos rfl, if_neg hlt, List.getElem?_eq_none (Nat.le_of_not_lt hlt)]
  · rw [if_neg hij]

/-- A fold that replaces layers by permutations of themselves is a
`PermByIndex`. -/
theorem foldl_set_permByIndex (g : List (List Str) → Nat → List Str)
    (hg : ∀ ls i, (g ls i).Perm (ls.getD i [])) :
    ∀ (idxs : List Nat) (ls : List (List Str)),
      PermByIndex (idxs.foldl (fun ls i => ls.set i (g ls i)) ls) ls := by
  intro idxs
  induction idxs with
  | nil => intro ls; exact permByIndex_refl ls
  | cons i t ih =>
    intro ls
    exact permByIndex_trans (ih _) (permByIndex_set ls i _ (hg ls i))

/-- The downward pass permutes each layer in place. -/
theorem downPass_permByIndex (revAdj : MapF (List Str))
    (layers : List (List Str)) : PermByIndex (downPass revAdj layers) layers :=
  foldl_set_permByIndex _ (fun _ _ => stableSortBy_perm _ _) _ _

/-- The upward pass permutes each layer in place. -/
theorem upPass_permByIndex (adj : MapF (List Str))
    (layers : List (List Str)) : PermByIndex (upPass adj layers) layers :=
  foldl_set_permByIndex _ (fun _ _ => stableSortBy_perm _ _) _ _

/-- Crossing reduction only permutes the layers, for any iteration
count. -/
theorem reduceCrossingsIter_permByIndex (iters : Nat)
    (layers : List (List Str)) (edges : List Edge) :
    PermByIndex (reduceCrossingsIter iters layers edges) layers := by
  unfold reduceCrossingsIter
  generalize List.range iters = idxs
  induction idxs generalizing layers with
  | nil => exact permByIndex_refl layers
  | cons i t ih =>
    refine permByIndex_trans (ih _) ?_
    exact permByIndex_trans (upPass_permByIndex _ _) (downPass_permByIndex _ _)

/-- `LayerExt` is reflexive. -/
theorem layerExt_refl (a : List (List Str)) : LayerExt a a :=
  ⟨rfl, fun i => ⟨[], by simp, by simp⟩⟩

/-- `LayerExt` is transitive. -/
theorem layerExt_trans {a b c : List (List Str)}
    (h1 : LayerExt a b) (h2 : LayerExt b c) : LayerExt a c := by
  refine ⟨h1.1.trans h2.1, fun i => ?_⟩
  obtain ⟨e1, he1, hp1⟩ := h1.2 i
  obtain ⟨e2, he2, hp2⟩ := h2.2 i
  refine ⟨e1 ++ e2, by rw [he2, he1, List.append_assoc], fun x hx => ?_⟩
  rcases List.mem_append.1 hx with hx | hx
  · exact hp1 x hx
  · exact hp2 x hx

/-- Appending one dummy-prefixed id to a layer is a `LayerExt` step. -/
theorem layerExt_push (ls : List (List Str)) (i : Nat) (d : Str)
    (hd : dummyPre.isPrefixOf d = true) :
    LayerExt ls (ls.set i ((ls.getD i []) ++ [d])) := by
  refine ⟨(List.length_set ls i _).symm, fun j => ?_⟩
  by_cases hij : i = j
  · subst hij
    by_cases hlt : i < ls.length
    · refine ⟨[d], ?_, by simpa using hd⟩
      rw [List.getD_eq_getElem?_getD, List.getElem?_set, if_pos rfl, if_pos hlt]
      rfl
    · refine ⟨[], ?_, by simp⟩
      rw [List.set_eq_of_length_le (Nat.le_of_not_lt hlt)]
      simp
  · refine ⟨[], by simp_all [List.getD_eq_getElem?_getD, List.getElem?_set], by simp⟩

/-- The dummy-chain loop only appends dummy ids to layers. -/
theorem addChainGo_layerExt (u v : Str) :
    ∀ (is : List Nat) (s : VG × Str),
      LayerExt s.1.layers (addChainGo u v is s).1.layers := by
  intro is
  induction is with
  | nil => intro s; exact layerExt_refl _
  | cons i t ih =>
    intro s
    refine layerExt_trans ?_ (ih _)
    exact layerExt_push _ i _ (dummyId_pre u v i)

/-- `addChain` only appends dummy ids to layers. -/
theorem addChain_layerExt (st : VG) (u v : Str) (ul vl : Nat) :
    LayerExt st.layers (addChain st u v ul vl).layers := by
  unfold addChain
  exact addChainGo_layerExt u v _ (st, u)

/-- The successor loop of the virtual-graph builder only appends dummy
ids to layers. -/
theorem virtTargets_layerExt (lm : MapF Nat) (u : Str) :
    ∀ (vs : List Str) (st : VG),
      LayerExt st.layers (virtTargets lm u vs st).layers := by
  intro vs
  induction vs with
  | nil => intro st; exact layerExt_refl _
  | cons v t ih =>
    intro st
    refine layerExt_trans ?_ (ih _)
    cases hu : lm.get u with
    | none => exact layerExt_refl _
    | some ul =>
      cases hv : lm.get v with
      | none => simp only [virtTargets, hu, hv]; exact layerExt_refl _
      | some vl =>
        simp only [virtTargets, hu, hv]
        by_cases hgt : (vl : Int) - ul > 1
        · rw [if_pos hgt]; exact addChain_layerExt st u v ul vl
        · rw [if_neg hgt]; exact layerExt_refl _

/-- The virtual-graph worklist only appends dummy ids to layers. -/
theorem virtLoop_layerExt (lm : MapF Nat) (adj : MapF (List Str)) :
    ∀ (fuel : Nat) (st : VG) (c k : Nat),
      LayerExt st.layers (virtLoop lm adj fuel st c k).layers := by
  intro fuel
  induction fuel with
  | zero => intro st c k; exact layerExt_refl _
  | succ f ih =>
    intro st c k
    unfold virtLoop
    by_cases hc : c < st.layers.length
    · rw [if_pos hc]
      by_cases hk : k < (st.layers.getD c []).length
      · rw [if_pos hk]
        exact layerExt_trans (virtTargets_layerExt lm _ _ st) (ih _ _ _)
      · rw [if_neg hk]
        exact ih _ _ _
    · rw [if_neg hc]
      exact layerExt_refl _

/-- `createVirtualGraph` only appends dummy ids to the layers. -/
theorem createVirtualGraph_layerExt (layers : List (List Str))
    (adj : MapF (List Str)) (fuel : Nat) :
    LayerExt layers (createVirtualGraph layers adj fuel).layers := by
  unfold createVirtualGraph
  exact virtLoop_layerExt _ _ fuel { layers := layers, dummies := [], vedges := [] } 0 0

end LayerStructure

section BuildLemmas

/-- `removeFirst` yields a sublist element-wise. -/
theorem removeFirst_subset : ∀ (l : List Str) (t x : Str),
    x ∈ removeFirst l t → x ∈ l := by
  intro l
  induction l with
  | nil => intro t x h; exact absurd h (List.not_mem_nil _)
  | cons y ys ih =>
    intro t x h
    unfold removeFirst at h
    by_cases hy : y = t
    · rw [if_pos hy] at h
      exact List.mem_cons_of_mem _ h
    · rw [if_neg hy] at h
      rcases List.mem_cons.1 h with rfl | h
      · exact List.mem_cons_self _ _
      · exact List.mem_cons_of_mem _ (ih _ _ h)

/-- `adjL` after writing the looked-up key. -/
theorem adjL_set_self (m : MapF (List Str)) (k : Str) (l : List Str) :
    adjL (m.set k l) k = l := by
  unfold adjL
  rw [MapF.get_set_self]
  rfl

/-- `adjL` after writing a different key. -/
theorem adjL_set_ne (m : MapF (List Str)) (k k' : Str) (l : List Str)
    (h : k' ≠ k) : adjL (m.set k l) k' = adjL m k' := by
  unfold adjL
  rw [MapF.get_set_ne _ _ _ _ h]

/-- The adjacency component of one removal step. -/
theorem removalStep_adj (g : Graph) (k : Str) :
    (removalStep g k).adj =
      match g.adj.get (splitKey k).1 with
      | some l => g.adj.set (splitKey k).1 (removeFirst l (splitKey k).2)
      | none => g.adj := by
  unfold removalStep
  cases hget : g.adj.get (splitKey k).1 <;> simp only [hget]

/-- One removal step only shrinks adjacency lists. -/
theorem removalStep_adj_subset (g : Graph) (k : Str) (u v : Str)
    (h : v ∈ adjL (removalStep g k).adj u) : v ∈ adjL g.adj u := by
  rw [removalStep_adj] at h
  cases hget : g.adj.get (splitKey k).1 with
  | none => rwa [hget] at h
  | some l =>
    rw [hget] at h
    by_cases hu : u = (splitKey k).1
    · subst hu
      rw [adjL_set_self] at h
      unfold adjL
      rw [hget]
      exact removeFirst_subset _ _ _ h
    · rwa [adjL_set_ne _ _ _ _ hu] at h

/-- The whole removal loop only shrinks adjacency lists. -/
theorem applyBackEdgeRemoval_adj_subset :
    ∀ (back : List Str) (g : Graph) (u v : Str),
      v ∈ adjL (applyBackEdgeRemoval g back).adj u → v ∈ adjL g.adj u := by
  intro back
  induction back with
  | nil => intro g u v h; exact h
  | cons k t ih =>
    intro g u v h
    exact removalStep_adj_subset g k u v (ih _ _ _ h)

/-- Successful edge insertion leaves the `revAdj` key set unchanged. -/
theorem addEdges_rev_isSome :
    ∀ (es : List Edge) (g g' : Graph), addEdges g es = some g' →
      ∀ k, ((g'.revAdj.get k).isSome ↔ (g.revAdj.get k).isSome) := by
  intro es
  induction es with
  | nil =>
    intro g g' h k
    cases h
    exact Iff.rfl
  | cons e t ih =>
    intro g g' h k
    unfold addEdges at h
    cases h1 : g.adj.get e.source with
    | none => rw [h1] at h; cases h
    | some l =>
      rw [h1] at h
      cases h2 : g.revAdj.get e.target with
      | none => simp only [h2] at h; cases h
      | some l2 =>
        simp only [h2] at h
        refine (ih _ _ h k).trans ?_
        by_cases hk : k = e.target
        · subst hk
          simp only [MapF.get_set_self]
          rw [h2]
          exact ⟨fun _ => rfl, fun _ => rfl⟩
        · rw [MapF.get_set_ne _ _ _ _ hk]

/-- In a successful build, every adjacency entry either existed before or
is an edge target whose id is a `revAdj` key. -/
theorem addEdges_adj_targets :
    ∀ (es : List Edge) (g g' : Graph), addEdges g es = some g' →
      ∀ u v, v ∈ adjL g'.adj u →
        v ∈ adjL g.adj u ∨ (g.revAdj.get v).isSome := by
  intro es
  induction es with
  | nil =>
    intro g g' h u v hv
    cases h
    exact Or.inl hv
  | cons e t ih =>
    intro g g' h u v hv
    unfold addEdges at h
    cases h1 : g.adj.get e.source with
    | none => rw [h1] at h; cases h
    | some l =>
      rw [h1] at h
      cases h2 : g.revAdj.get e.target with
      | none => simp only [h2] at h; cases h
      | some l2 =>
        simp only [h2] at h
        rcases ih _ _ h u v hv with h3 | h3
        · -- entry of the one-step-updated graph
          by_cases hu : u = e.source
          · subst hu
            rw [adjL_set_self] at h3
            rcases List.mem_append.1 h3 with h4 | h4
            · exact Or.inl (by unfold adjL; rw [h1]; exact h4)
            · right
              have hv' : v = e.target := by simpa using h4
              subst hv'
              rw [h2]; rfl
          · exact Or.inl (by rwa [adjL_set_ne _ _ _ _ hu] at h3)
        · -- a revAdj key of the updated graph
          right
          by_cases hk : v = e.target
          · subst hk; rw [h2]; rfl
          · rwa [MapF.get_set_ne _ _ _ _ hk] at h3

/-- The freshly initialized adjacency lists are all empty. -/
theorem initGraph_adjL (nodes : List Node) (u : Str) :
    adjL (initGraph nodes).adj u = [] := by
  unfold adjL initGraph
  cases hget : ((nodes.foldl (fun m n => m.set n.id ([] : List Str))
      MapF.empty).get u) with
  | none => rfl
  | some l =>
    rcases get_foldl_set (fun n => n.id) (fun _ => ([] : List Str)) nodes
        MapF.empty u l hget with ⟨b, _, _, hv⟩ | h
    · rw [← hv]; rfl
    · cases h

/-- A `revAdj` key of the freshly initialized graph is a node id. -/
theorem initGraph_rev_mem (nodes : List Node) (k : Str)
    (h : ((initGraph nodes).revAdj.get k).isSome) : k ∈ nodeIds nodes := by
  unfold initGraph at h
  cases hget : ((nodes.foldl (fun m n => m.set n.id ([] : List Str))
      MapF.empty).get k) with
  | none => rw [hget] at h; cases h
  | some l =>
    rcases get_foldl_set (fun n => n.id) (fun _ => ([] : List Str)) nodes
        MapF.empty k l hget with ⟨b, hb, hk, _⟩ | hemp
    · exact hk ▸ List.mem_map.2 ⟨b, hb, rfl⟩
    · cases hemp

/-- In a successfully built (and cycle-adjusted) graph, every adjacency
target is an input node id. -/
theorem builtGraph_adj_targets (nodes : List Node) (edges : List Edge)
    (gb : Graph × List Str) (h : builtGraph nodes edges = some gb) :
    ∀ u v, v ∈ adjL gb.1.adj u → v ∈ nodeIds nodes := by
  intro u v hv
  unfold builtGraph findAndHandleCycles at h
  cases hadd : addEdges (initGraph nodes) edges with
  | none => rw [hadd] at h; cases h
  | some g =>
    rw [hadd] at h
    have hg1 : gb.1 = applyBackEdgeRemoval g (runDfs g.adj nodes).back := by
      cases h; rfl
    rw [hg1] at hv
    have hv' := applyBackEdgeRemoval_adj_subset _ _ _ _ hv
    rcases addEdges_adj_targets edges _ _ hadd u v hv' with h3 | h3
    · rw [initGraph_adjL] at h3
      exact absurd h3 (List.not_mem_nil _)
    · exact initGraph_rev_mem nodes v h3

end BuildLemmas

section OccCounting

/-- `occFrom` over a cons of sources. -/
theorem occFrom_cons (adj : MapF (List Str)) (u : Str) (srcs : List Str)
    (w : Str) :
    occFrom adj (u :: srcs) w = (adjL adj u).count w + occFrom adj srcs w := by
  simp [occFrom]

/-- Membership in the unprocessed-ids list. -/
theorem mem_remaining {ids P : List Str} {x : Str} :
    x ∈ remaining ids P ↔ x ∈ ids ∧ x ∉ P := by
  simp [remaining]

/-- A source with an edge to `w` makes the count positive. -/
theorem occFrom_pos (adj : MapF (List Str)) {srcs : List Str} {u w : Str}
    (hu : u ∈ srcs) (hw : w ∈ adjL adj u) : 0 < occFrom adj srcs w := by
  induction srcs with
  | nil => exact absurd hu (List.not_mem_nil _)
  | cons a t ih =>
    rw [occFrom_cons]
    rcases List.mem_cons.1 hu with rfl | hu2
    · have h1 : 0 < (adjL adj u).count w := List.count_pos_iff.2 hw
      omega
    · have := ih hu2
      omega

/-- Updating a source outside the list leaves the count unchanged. -/
theorem occFrom_set_not_mem (adj : MapF (List Str)) {srcs : List Str}
    {u : Str} (l : List Str) (hu : u ∉ srcs) (w : Str) :
    occFrom (adj.set u l) srcs w = occFrom adj srcs w := by
  induction srcs with
  | nil => rfl
  | cons a t ih =>
    rw [occFrom_cons, occFrom_cons]
    have ha : a ≠ u := fun h => hu (h ▸ List.mem_cons_self _ _)
    rw [adjL_set_ne _ _ _ _ ha]
    rw [ih (fun h => hu (List.mem_cons_of_mem _ h))]

/-- Exchange law for rewriting one source of a duplicate-free source
list. -/
theorem occFrom_set_mem (adj : MapF (List Str)) {srcs : List Str} {u : Str}
    (l : List Str) (hN : srcs.Nodup) (hu : u ∈ srcs) (w : Str) :
    occFrom (adj.set u l) srcs w + (adjL adj u).count w =
      occFrom adj srcs w + l.count w := by
  induction srcs with
  | nil => exact absurd hu (List.not_mem_nil _)
  | cons a t ih =>
    have hN2 := List.nodup_cons.1 hN
    rcases List.mem_cons.1 hu with rfl | hu2
    · rw [occFrom_cons, occFrom_cons, adjL_set_self,
        occFrom_set_not_mem adj l hN2.1 w]
      omega
    · have ha : a ≠ u := fun h => hN2.1 (h ▸ hu2)
      rw [occFrom_cons, occFrom_cons, adjL_set_ne _ _ _ _ ha]
      have := ih hN2.2 hu2
      omega

/-- Removing one processed source: its adjacency count is carved out of
the total. -/
theorem occFrom_remaining_step (adj : MapF (List Str)) {ids : List Str}
    (hN : ids.Nodup) {P : List Str} {u : Str} (hu : u ∈ ids) (hP : u ∉ P)
    (w : Str) :
    occFrom adj (remaining ids P) w =
      (adjL adj u).count w + occFrom adj (remaining ids (P ++ [u])) w := by
  induction ids with
  | nil => exact absurd hu (List.not_mem_nil _)
  | cons a t ih =>
    have hN2 := List.nodup_cons.1 hN
    rcases List.mem_cons.1 hu with rfl | hu2
    · have h1 : remaining (u :: t) P = u :: remaining t P := by
        simp [remaining, hP]
      have h2 : remaining (u :: t) (P ++ [u]) = remaining t (P ++ [u]) := by
        simp [remaining]
      have h3 : remaining t (P ++ [u]) = remaining t P := by
        unfold remaining
        refine List.filter_congr ?_
        intro x hx
        have hxa : x ≠ u := fun h => hN2.1 (h ▸ hx)
        simp [hxa]
      rw [h1, h2, h3, occFrom_cons]
    · have ha : a ≠ u := fun h => hN2.1 (h ▸ hu2)
      by_cases haP : a ∈ P
      · have h1 : remaining (a :: t) P = remaining t P := by
          simp [remaining, haP]
        have h2 : remaining (a :: t) (P ++ [u]) = remaining t (P ++ [u]) := by
          unfold remaining
          rw [List.filter_cons]
          simp [haP]
        rw [h1, h2]
        exact ih hN2.2 hu2
      · have h1 : remaining (a :: t) P = a :: remaining t P := by
          simp [remaining, haP]
        have h2 : remaining (a :: t) (P ++ [u]) =
            a :: remaining t (P ++ [u]) := by
          simp [remaining, haP, ha]
        rw [h1, h2, occFrom_cons, occFrom_cons, ih hN2.2 hu2]
        omega

/-- Shrinking the unprocessed set cannot increase the count. -/
theorem occFrom_remaining_le (adj : MapF (List Str)) (ids : List Str)
    {P P' : List Str} (hsub : ∀ x, x ∈ P → x ∈ P') (w : Str) :
    occFrom adj (remaining ids P') w ≤ occFrom adj (remaining ids P) w := by
  induction ids with
  | nil => exact Nat.le_refl _
  | cons a t ih =>
    by_cases haP : a ∈ P'
    · have h1 : remaining (a :: t) P' = remaining t P' := by
        simp [remaining, haP]
      rw [h1]
      by_cases haQ : a ∈ P
      · have h2 : remaining (a :: t) P = remaining t P := by
          simp [remaining, haQ]
        rw [h2]; exact ih
      · have h2 : remaining (a :: t) P = a :: remaining t P := by
          simp [remaining, haQ]
        rw [h2, occFrom_cons]
        omega
    · have haQ : a ∉ P := fun h => haP (hsub a h)
      have h1 : remaining (a :: t) P' = a :: remaining t P' := by
        simp [remaining, haP]
      have h2 : remaining (a :: t) P = a :: remaining t P := by
        simp [remaining, haQ]
      rw [h1, h2, occFrom_cons, occFrom_cons]
      omega

/-- Zero counts transfer to any larger processed set. -/
theorem occFrom_remaining_zero (adj : MapF (List Str)) (ids : List Str)
    {P P' : List Str} (hsub : ∀ x, x ∈ P → x ∈ P') {w : Str}
    (h : occFrom adj (remaining ids P) w = 0) :
    occFrom adj (remaining ids P') w = 0 :=
  Nat.le_zero.1 (h ▸ occFrom_remaining_le adj ids hsub w)

/-- With nothing processed, the unprocessed list is the id list itself. -/
theorem remaining_nil (ids : List Str) : remaining ids [] = ids := by
  simp [remaining]

end OccCounting

section BuildConsistency

/-- `x || d` on a present value with default `0` is the value itself. -/
theorem jsOrI_some_zero (d : Int) : jsOrI (some d) 0 = d := by
  simp only [jsOrI]
  split <;> omega

/-- `x || d` on a present nonzero value is the value itself. -/
theorem jsOrI_some_ne (d e : Int) (h : d ≠ 0) : jsOrI (some d) e = d := by
  simp [jsOrI, h]

/-- Removing one copy decrements that element's count by one. -/
theorem count_removeFirst_self :
    ∀ (l : List Str) (t : Str), t ∈ l →
      (removeFirst l t).count t + 1 = l.count t := by
  intro l
  induction l with
  | nil => intro t h; exact absurd h (List.not_mem_nil _)
  | cons y ys ih =>
    intro t h
    unfold removeFirst
    by_cases hy : y = t
    · subst hy
      rw [if_pos rfl]
      simp [List.count_cons]
    · rw [if_neg hy]
      have ht : t ∈ ys := by
        rcases List.mem_cons.1 h with rfl | h2
        · exact absurd rfl hy
        · exact h2
      have h2 := ih t ht
      have hne : t ≠ y := fun h3 => hy h3.symm
      rw [List.count_cons_of_ne hne, List.count_cons_of_ne hne]
      omega

/-- Removing a different element leaves a count unchanged. -/
theorem count_removeFirst_ne :
    ∀ (l : List Str) (t w : Str), w ≠ t →
      (removeFirst l t).count w = l.count w := by
  intro l
  induction l with
  | nil => intro t w _; rfl
  | cons y ys ih =>
    intro t w hw
    unfold removeFirst
    by_cases hy : y = t
    · subst hy
      rw [if_pos rfl]
      simp [List.count_cons]
      exact fun h2 => hw h2.symm
    · rw [if_neg hy]
      simp [List.count_cons, ih t w hw]

/-- Membership of other elements survives a removal. -/
theorem mem_removeFirst_of_ne {l : List Str} {t w : Str} (hw : w ∈ l)
    (hne : w ≠ t) : w ∈ removeFirst l t := by
  have h1 : 0 < (removeFirst l t).count w := by
    rw [count_removeFirst_ne l t w hne]
    exact List.count_pos_iff.2 hw
  exact List.count_pos_iff.1 h1

/-- `Set.add` preserves freedom from duplicates. -/
theorem pushSet_nodup {l : List Str} (x : Str) (h : l.Nodup) :
    (pushSet l x).Nodup := by
  unfold pushSet
  by_cases hx : x ∈ l
  · rw [if_pos hx]; exact h
  · rw [if_neg hx]
    simp [List.nodup_append, h, hx]

/-- A member of `Set.add` is an old member or the new element. -/
theorem pushSet_mem {l : List Str} {x k : Str} (h : k ∈ pushSet l x) :
    k ∈ l ∨ k = x := by
  unfold pushSet at h
  by_cases hx : x ∈ l
  · rw [if_pos hx] at h; exact Or.inl h
  · rw [if_neg hx] at h
    rcases List.mem_append.1 h with h2 | h2
    · exact Or.inl h2
    · exact Or.inr (by simpa using h2)

/-- A nonempty adjacency entry names an existing key. -/
theorem adjL_mem_get {adj : MapF (List Str)} {a b : Str}
    (h : b ∈ adjL adj a) : ∃ l, adj.get a = some l ∧ b ∈ l := by
  unfold adjL at h
  cases hget : adj.get a with
  | none => rw [hget] at h; exact absurd h (List.not_mem_nil _)
  | some l => rw [hget] at h; exact ⟨l, rfl, h⟩

/-- Keys of `adj` never disappear during edge insertion. -/
theorem addEdges_adj_isSome :
    ∀ (es : List Edge) (g g' : Graph), addEdges g es = some g' →
      ∀ k, ((g'.adj.get k).isSome ↔ (g.adj.get k).isSome) := by
  intro es
  induction es with
  | nil => intro g g' h k; cases h; exact Iff.rfl
  | cons e t ih =>
    intro g g' h k
    unfold addEdges at h
    cases h1 : g.adj.get e.source with
    | none => rw [h1] at h; cases h
    | some l =>
      rw [h1] at h
      cases h2 : g.revAdj.get e.target with
      | none => simp only [h2] at h; cases h
      | some l2 =>
        simp only [h2] at h
        refine (ih _ _ h k).trans ?_
        by_cases hk : k = e.source
        · subst hk
          simp only [MapF.get_set_self]
          rw [h1]
          exact ⟨fun _ => rfl, fun _ => rfl⟩
        · rw [MapF.get_set_ne _ _ _ _ hk]

/-- Edge insertion only appends to adjacency lists: counts never drop. -/
theorem addEdges_count_le :
    ∀ (es : List Edge) (g g' : Graph), addEdges g es = some g' →
      ∀ u v, (adjL g.adj u).count v ≤ (adjL g'.adj u).count v := by
  intro es
  induction es with
  | nil => intro g g' h u v; cases h; exact Nat.le_refl _
  | cons e t ih =>
    intro g g' h u v
    unfold addEdges at h
    cases h1 : g.adj.get e.source with
    | none => rw [h1] at h; cases h
    | some l =>
      rw [h1] at h
      cases h2 : g.revAdj.get e.target with
      | none => simp only [h2] at h; cases h
      | some l2 =>
        simp only [h2] at h
        refine Nat.le_trans ?_ (ih _ _ h u v)
        by_cases hu : u = e.source
        · subst hu
          rw [adjL_set_self]
          have hl : adjL g.adj e.source = l := by unfold adjL; rw [h1]; rfl
          rw [hl, List.count_append]
          omega
        · rw [adjL_set_ne _ _ _ _ hu]

/-- Every inserted edge is present in the final adjacency. -/
theorem addEdges_mem_count :
    ∀ (es : List Edge) (g g' : Graph), addEdges g es = some g' →
      ∀ e ∈ es, 1 ≤ (adjL g'.adj e.source).count e.target := by
  intro es
  induction es with
  | nil => intro g g' h e he; exact absurd he (List.not_mem_nil _)
  | cons e0 t ih =>
    intro g g' h e he
    unfold addEdges at h
    cases h1 : g.adj.get e0.source with
    | none => rw [h1] at h; cases h
    | some l =>
      rw [h1] at h
      cases h2 : g.revAdj.get e0.target with
      | none => simp only [h2] at h; cases h
      | some l2 =>
        simp only [h2] at h
        rcases List.mem_cons.1 he with rfl | he2
        · refine Nat.le_trans ?_ (addEdges_count_le t _ _ h e.source e.target)
          rw [adjL_set_self]
          exact List.count_pos_iff.2 (by simp)
        · exact ih _ _ h e he2

/-- Both endpoints of every inserted edge are keys of the final maps. -/
theorem addEdges_endpoints :
    ∀ (es : List Edge) (g g' : Graph), addEdges g es = some g' →
      ∀ e ∈ es,
        (g'.adj.get e.source).isSome ∧ (g'.revAdj.get e.target).isSome := by
  intro es
  induction es with
  | nil => intro g g' h e he; exact absurd he (List.not_mem_nil _)
  | cons e0 t ih =>
    intro g g' h e he
    unfold addEdges at h
    cases h1 : g.adj.get e0.source with
    | none => rw [h1] at h; cases h
    | some l =>
      rw [h1] at h
      cases h2 : g.revAdj.get e0.target with
      | none => simp only [h2] at h; cases h
      | some l2 =>
        simp only [h2] at h
        rcases List.mem_cons.1 he with rfl | he2
        · constructor
          · rw [addEdges_adj_isSome t _ _ h e.source]
            simp [MapF.get_set_self]
          · rw [addEdges_rev_isSome t _ _ h e.target]
            simp [MapF.get_set_self]
        · exact ih _ _ h e he2

/-- The bookkeeping invariant of edge insertion: key sets stay inside the
id set and the in-degree of every id tracks its occurrence count. -/
theorem addEdges_consistency (ids : List Str) (hN : ids.Nodup) :
    ∀ (es : List Edge) (g g' : Graph), addEdges g es = some g' →
      (∀ u, (g.adj.get u).isSome → u ∈ ids) →
      (∀ u, (g.revAdj.get u).isSome → u ∈ ids) →
      (∀ w ∈ ids, g.inDegree.get w = some ((occFrom g.adj ids w : Int))) →
      (∀ u, (g'.adj.get u).isSome → u ∈ ids) ∧
      (∀ u, (g'.revAdj.get u).isSome → u ∈ ids) ∧
      (∀ w ∈ ids, g'.inDegree.get w = some ((occFrom g'.adj ids w : Int))) := by
  intro es
  induction es with
  | nil =>
    intro g g' h hK hR hD
    cases h
    exact ⟨hK, hR, hD⟩
  | cons e t ih =>
    intro g g' h hK hR hD
    unfold addEdges at h
    cases h1 : g.adj.get e.source with
    | none => rw [h1] at h; cases h
    | some l =>
      rw [h1] at h
      cases h2 : g.revAdj.get e.target with
      | none => simp only [h2] at h; cases h
      | some l2 =>
        simp only [h2] at h
        have hsrc : e.source ∈ ids := hK e.source (by rw [h1]; rfl)
        have htgt : e.target ∈ ids := hR e.target (by rw [h2]; rfl)
        have hl : adjL g.adj e.source = l := by unfold adjL; rw [h1]; rfl
        refine ih _ _ h ?_ ?_ ?_
        · intro u hu
          by_cases hus : u = e.source
          · exact hus ▸ hsrc
          · rw [MapF.get_set_ne _ _ _ _ hus] at hu
            exact hK u hu
        · intro u hu
          by_cases hut : u = e.target
          · exact hut ▸ htgt
          · rw [MapF.get_set_ne _ _ _ _ hut] at hu
            exact hR u hu
        · intro w hw
          by_cases hwt : w = e.target
          · subst hwt
            rw [MapF.get_set_self, hD _ hw, jsOrI_some_zero]
            have hex := occFrom_set_mem g.adj (l ++ [e.target]) hN hsrc e.target
            rw [hl] at hex
            have hcnt : (l ++ [e.target]).count e.target =
                l.count e.target + 1 := by
              rw [List.count_append]; simp
            have hocc : occFrom (g.adj.set e.source (l ++ [e.target])) ids
                e.target = occFrom g.adj ids e.target + 1 := by omega
            rw [hocc]
            norm_cast
          · rw [MapF.get_set_ne _ _ _ _ hwt, hD w hw]
            have hex := occFrom_set_mem g.adj (l ++ [e.target]) hN hsrc w
            rw [hl] at hex
            have hw0 : w ∉ [e.target] := by simp [hwt]
            have hcnt : (l ++ [e.target]).count w = l.count w := by
              rw [List.count_append, List.count_eq_zero.2 hw0]
              omega
            have hocc : occFrom (g.adj.set e.source (l ++ [e.target])) ids w =
                occFrom g.adj ids w := by omega
            rw [hocc]

/-- Pointwise-preserved predicates survive a fold. -/
theorem foldl_inv {α β : Type} (Q : β → Prop) :
    ∀ (l : List α) (f : β → α → β) (s : β),
      (∀ s x, x ∈ l → Q s → Q (f s x)) → Q s → Q (l.foldl f s) := by
  intro l
  induction l with
  | nil => intro f s _ hs; exact hs
  | cons a t ih =>
    intro f s hstep hs
    rw [List.foldl_cons]
    exact ih f (f s a) (fun s' x hx => hstep s' x (List.mem_cons_of_mem _ hx))
      (hstep s a (List.mem_cons_self _ _) hs)

/-- Through the DFS, the back set stays duplicate-free and every key in it
is the encoding of an actual adjacency pair. -/
theorem dfs_back_inv (adj : MapF (List Str)) (ids : List Str)
    (hT : ∀ u v, v ∈ adjL adj u → v ∈ ids) :
    ∀ (fuel : Nat) (u : Str) (st : DfsSt), u ∈ ids →
      st.back.Nodup ∧
        (∀ k ∈ st.back, ∃ a b, a ∈ ids ∧ b ∈ adjL adj a ∧ k = edgeKey a b) →
      (dfs adj fuel u st).back.Nodup ∧
        ∀ k ∈ (dfs adj fuel u st).back,
          ∃ a b, a ∈ ids ∧ b ∈ adjL adj a ∧ k = edgeKey a b := by
  intro fuel
  induction fuel with
  | zero => intro u st _ h; exact h
  | succ f ih =>
    intro u st hu h
    unfold dfs
    refine foldl_inv (fun s : DfsSt => s.back.Nodup ∧
      ∀ k ∈ s.back, ∃ a b, a ∈ ids ∧ b ∈ adjL adj a ∧ k = edgeKey a b)
      (adjL adj u) _ _ ?_ h
    intro s nb hnb hQ
    by_cases hv : nb ∈ s.visited
    · rw [if_pos hv]
      by_cases hr : nb ∈ s.recStack
      · rw [if_pos hr]
        refine ⟨pushSet_nodup _ hQ.1, ?_⟩
        intro k hk
        rcases pushSet_mem hk with hk2 | hk2
        · exact hQ.2 k hk2
        · exact ⟨u, nb, hu, hnb, hk2⟩
      · rw [if_neg hr]
        exact hQ
    · rw [if_neg hv]
      exact ih nb s (hT u nb hnb) hQ

/-- The back set of the whole cycle detection is duplicate-free and every
key in it encodes an actual adjacency pair between node ids. -/
theorem runDfs_back_inv (adj : MapF (List Str)) (nodes : List Node)
    (hT : ∀ u v, v ∈ adjL adj u → v ∈ nodeIds nodes) :
    (runDfs adj nodes).back.Nodup ∧
      ∀ k ∈ (runDfs adj nodes).back,
        ∃ a b, a ∈ nodeIds nodes ∧ b ∈ adjL adj a ∧ k = edgeKey a b := by
  unfold runDfs
  refine foldl_inv (fun s : DfsSt => s.back.Nodup ∧
    ∀ k ∈ s.back, ∃ a b, a ∈ nodeIds nodes ∧ b ∈ adjL adj a ∧ k = edgeKey a b)
    nodes _ _ ?_ ?_
  · intro s n hn hQ
    by_cases hv : n.id ∈ s.visited
    · rw [if_pos hv]; exact hQ
    · rw [if_neg hv]
      exact dfs_back_inv adj (nodeIds nodes) hT _ n.id s
        (List.mem_map.2 ⟨n, hn, rfl⟩) hQ
  · exact ⟨List.nodup_nil, fun k hk => absurd hk (List.not_mem_nil _)⟩

/-- The in-degree component of one removal step. -/
theorem removalStep_deg (g : Graph) (k : Str) :
    (removalStep g k).inDegree =
      g.inDegree.set (splitKey k).2
        (jsOrI (g.inDegree.get (splitKey k).2) 1 - 1) := by
  unfold removalStep
  cases hget : g.adj.get (splitKey k).1 <;> simp only [hget]

/-- Through the adjustment loop, the in-degree of every id keeps tracking
its occurrence count in the residual adjacency. -/
theorem removal_consistency (ids : List Str) (hN : ids.Nodup)
    (hC : CleanIds ids) :
    ∀ (ks : List Str) (g : Graph),
      (∀ u, (g.adj.get u).isSome → u ∈ ids) →
      (∀ u v, v ∈ adjL g.adj u → v ∈ ids) →
      (∀ w ∈ ids, g.inDegree.get w = some ((occFrom g.adj ids w : Int))) →
      ks.Nodup →
      (∀ k ∈ ks, ∃ a b, a ∈ ids ∧ b ∈ adjL g.adj a ∧ k = edgeKey a b) →
      ∀ w ∈ ids, (applyBackEdgeRemoval g ks).inDegree.get w =
        some ((occFrom (applyBackEdgeRemoval g ks).adj ids w : Int)) := by
  intro ks
  induction ks with
  | nil =>
    intro g _ _ hD _ _ w hw
    exact hD w hw
  | cons k kt ih =>
    intro g hK hT hD hNk hO
    obtain ⟨a, b, ha, hb, hk⟩ := hO k (List.mem_cons_self _ _)
    have hca : hasArrow a = false := hC a ha
    have hbid : b ∈ ids := hT a b hb
    have hcb : hasArrow b = false := hC b hbid
    have hsk : splitKey k = (a, b) := by
      rw [hk]; exact splitKey_edgeKey a b hca hcb
    obtain ⟨l, hgl, hbl⟩ := adjL_mem_get hb
    have hadj : (removalStep g k).adj = g.adj.set a (removeFirst l b) := by
      rw [removalStep_adj, hsk]
      simp only [hgl]
    have hdeg : (removalStep g k).inDegree =
        g.inDegree.set b (jsOrI (g.inDegree.get b) 1 - 1) := by
      rw [removalStep_deg, hsk]
    have hla : adjL g.adj a = l := by unfold adjL; rw [hgl]; rfl
    have hop : 0 < occFrom g.adj ids b := occFrom_pos g.adj ha hb
    have hval : jsOrI (g.inDegree.get b) 1 - 1 =
        ((occFrom g.adj ids b : Int)) - 1 := by
      rw [hD b hbid, jsOrI_some_ne]
      exact_mod_cast hop.ne'
    unfold applyBackEdgeRemoval
    refine ih (removalStep g k) ?_ ?_ ?_ (List.nodup_cons.1 hNk).2 ?_
    · intro u hu
      rw [hadj] at hu
      by_cases hua : u = a
      · exact hua ▸ ha
      · rw [MapF.get_set_ne _ _ _ _ hua] at hu
        exact hK u hu
    · intro u v hv
      exact hT u v (removalStep_adj_subset g k u v hv)
    · intro w hw
      rw [hadj, hdeg]
      by_cases hwb : w = b
      · subst hwb
        rw [MapF.get_set_self, hval]
        have hex := occFrom_set_mem g.adj (removeFirst l w) hN ha w
        rw [hla] at hex
        have hcr := count_removeFirst_self l w hbl
        have hsum : occFrom (g.adj.set a (removeFirst l w)) ids w + 1 =
            occFrom g.adj ids w := by omega
        have h2 : ((occFrom g.adj ids w : Int)) - 1 =
            ((occFrom (g.adj.set a (removeFirst l w)) ids w : Int)) := by
          omega
        rw [h2]
      · rw [MapF.get_set_ne _ _ _ _ hwb, hD w hw]
        have hex := occFrom_set_mem g.adj (removeFirst l b) hN ha w
        rw [hla] at hex
        have hcr := count_removeFirst_ne l b w hwb
        have heq : occFrom (g.adj.set a (removeFirst l b)) ids w =
            occFrom g.adj ids w := by omega
        rw [heq]
    · intro k' hk'
      obtain ⟨a', b', ha', hb', hk2⟩ := hO k' (List.mem_cons_of_mem _ hk')
      refine ⟨a', b', ha', ?_, hk2⟩
      rw [hadj]
      by_cases haa : a' = a
      · subst haa
        rw [adjL_set_self]
        have hkne : k' ≠ k := by
          intro hcon
          exact (List.nodup_cons.1 hNk).1 (hcon ▸ hk')
        have hbb : b' ≠ b := by
          intro hcon
          apply hkne
          rw [hk2, hk, hcon]
        rw [hla] at hb'
        exact mem_removeFirst_of_ne hb' hbb
      · rw [adjL_set_ne _ _ _ _ haa]
        exact hb'

/-- The adjustment loop never touches the adjacency count of a pair whose
key is not in the back set. -/
theorem removal_count_keep (s t : Str) :
    ∀ (ks : List Str) (g : Graph),
      (∀ k ∈ ks, ∃ a b, hasArrow a = false ∧ hasArrow b = false ∧
        k = edgeKey a b) →
      edgeKey s t ∉ ks →
      (adjL (applyBackEdgeRemoval g ks).adj s).count t =
        (adjL g.adj s).count t := by
  intro ks
  induction ks with
  | nil => intro g _ _; rfl
  | cons k kt ih =>
    intro g hO hni
    obtain ⟨a, b, hca, hcb, hk⟩ := hO k (List.mem_cons_self _ _)
    have hsk : splitKey k = (a, b) := by
      rw [hk]; exact splitKey_edgeKey a b hca hcb
    unfold applyBackEdgeRemoval
    rw [ih (removalStep g k) (fun k' hk' => hO k' (List.mem_cons_of_mem _ hk'))
      (fun h => hni (List.mem_cons_of_mem _ h))]
    rw [removalStep_adj, hsk]
    cases hget : g.adj.get a with
    | none => simp only [hget]
    | some l =>
      simp only [hget]
      by_cases hsa : s = a
      · subst hsa
        have hbt : b ≠ t := by
          intro hcon
          apply hni
          rw [hcon] at hk
          rw [← hk]
          exact List.mem_cons_self _ _
        rw [adjL_set_self]
        have hls : adjL g.adj s = l := by unfold adjL; rw [hget]; rfl
        rw [hls]
        exact count_removeFirst_ne l b t (fun h => hbt h.symm)
      · rw [adjL_set_ne _ _ _ _ hsa]

/-- An `adj` key of the freshly initialized graph is a node id. -/
theorem initGraph_adj_key (nodes : List Node) (k : Str)
    (h : ((initGraph nodes).adj.get k).isSome) : k ∈ nodeIds nodes := by
  unfold initGraph at h
  cases hget : ((nodes.foldl (fun m n => m.set n.id ([] : List Str))
      MapF.empty).get k) with
  | none => rw [hget] at h; cases h
  | some l =>
    rcases get_foldl_set (fun n => n.id) (fun _ => ([] : List Str)) nodes
        MapF.empty k l hget with ⟨b, hb, hk, _⟩ | hemp
    · exact hk ▸ List.mem_map.2 ⟨b, hb, rfl⟩
    · cases hemp

/-- Every node id starts with in-degree `0`. -/
theorem initGraph_deg (nodes : List Node) (w : Str)
    (hw : w ∈ nodeIds nodes) : (initGraph nodes).inDegree.get w = some 0 := by
  unfold initGraph
  cases hget : ((nodes.foldl (fun m n => m.set n.id (0 : Int))
      MapF.empty).get w) with
  | none =>
    exfalso
    obtain ⟨n, hn, hid⟩ := List.mem_map.1 hw
    have hs := isSome_foldl_set (fun n => n.id) (fun _ => (0 : Int)) nodes
      MapF.empty w (Or.inl ⟨n, hn, hid⟩)
    rw [hget] at hs
    simp at hs
  | some v =>
    rcases get_foldl_set (fun n => n.id) (fun _ => (0 : Int)) nodes MapF.empty
        w v hget with ⟨b2, _, _, hv⟩ | h2
    · rw [← hv]
    · cases h2

/-- The freshly initialized adjacency has no occurrences at all. -/
theorem occFrom_initGraph (nodes : List Node) (srcs : List Str) (w : Str) :
    occFrom (initGraph nodes).adj srcs w = 0 := by
  induction srcs with
  | nil => rfl
  | cons a t ih =>
    rw [occFrom_cons, initGraph_adjL nodes a, ih]
    simp

/-- Every target of the post-insertion adjacency is a node id. -/
theorem postAdd_targets (nodes : List Node) (edges : List Edge) (g : Graph)
    (hadd : addEdges (initGraph nodes) edges = some g) :
    ∀ u v, v ∈ adjL g.adj u → v ∈ nodeIds nodes := by
  intro u v hv
  rcases addEdges_adj_targets edges _ _ hadd u v hv with h3 | h3
  · rw [initGraph_adjL] at h3
    exact absurd h3 (List.not_mem_nil _)
  · exact initGraph_rev_mem nodes v h3

/-- After the whole build-and-adjust phase, every id's in-degree equals
its occurrence count in the residual adjacency. -/
theorem builtGraph_consistency (nodes : List Node) (edges : List Edge)
    (gb : Graph × List Str) (h : builtGraph nodes edges = some gb)
    (hN : (nodeIds nodes).Nodup) (hC : CleanIds (nodeIds nodes)) :
    ∀ w ∈ nodeIds nodes, gb.1.inDegree.get w =
      some ((occFrom gb.1.adj (nodeIds nodes) w : Int)) := by
  unfold builtGraph findAndHandleCycles at h
  cases hadd : addEdges (initGraph nodes) edges with
  | none => rw [hadd] at h; cases h
  | some g =>
    rw [hadd] at h
    have hg1 : gb.1 = applyBackEdgeRemoval g (runDfs g.adj nodes).back := by
      cases h; rfl
    obtain ⟨hK, hR, hD⟩ := addEdges_consistency (nodeIds nodes) hN edges
      (initGraph nodes) g hadd
      (fun u hu => initGraph_adj_key nodes u hu)
      (fun u hu => initGraph_rev_mem nodes u hu)
      (fun w hw => by rw [initGraph_deg nodes w hw, occFrom_initGraph]; rfl)
    have hT := postAdd_targets nodes edges g hadd
    obtain ⟨hBN, hBO⟩ := runDfs_back_inv g.adj nodes hT
    rw [hg1]
    exact removal_consistency (nodeIds nodes) hN hC _ g hK hT hD hBN hBO

/-- The back set of a successful build: duplicate-free keys, each encoding
a pair of node ids. -/
theorem builtGraph_back_pairs (nodes : List Node) (edges : List Edge)
    (gb : Graph × List Str) (h : builtGraph nodes edges = some gb) :
    gb.2.Nodup ∧ ∀ k ∈ gb.2, ∃ a b, a ∈ nodeIds nodes ∧
      b ∈ nodeIds nodes ∧ k = edgeKey a b := by
  unfold builtGraph findAndHandleCycles at h
  cases hadd : addEdges (initGraph nodes) edges with
  | none => rw [hadd] at h; cases h
  | some g =>
    rw [hadd] at h
    have hg2 : gb.2 = (runDfs g.adj nodes).back := by cases h; rfl
    have hT := postAdd_targets nodes edges g hadd
    obtain ⟨hBN, hBO⟩ := runDfs_back_inv g.adj nodes hT
    rw [hg2]
    refine ⟨hBN, ?_⟩
    intro k hk
    obtain ⟨a, b, ha, hb, hk2⟩ := hBO k hk
    exact ⟨a, b, ha, hT a b hb, hk2⟩

/-- An input edge whose key is not in the back set keeps its entry in the
residual adjacency (neat ids). -/
theorem builtGraph_nonback_mem (nodes : List Node) (edges : List Edge)
    (gb : Graph × List Str) (h : builtGraph nodes edges = some gb)
    (hC : CleanIds (nodeIds nodes)) (e : Edge) (he : e ∈ edges)
    (hnb : edgeKey e.source e.target ∉ gb.2) :
    e.target ∈ adjL gb.1.adj e.source := by
  unfold builtGraph findAndHandleCycles at h
  cases hadd : addEdges (initGraph nodes) edges with
  | none => rw [hadd] at h; cases h
  | some g =>
    rw [hadd] at h
    have hg1 : gb.1 = applyBackEdgeRemoval g (runDfs g.adj nodes).back := by
      cases h; rfl
    have hg2 : gb.2 = (runDfs g.adj nodes).back := by cases h; rfl
    have hT := postAdd_targets nodes edges g hadd
    obtain ⟨hBN, hBO⟩ := runDfs_back_inv g.adj nodes hT
    have h1 : 1 ≤ (adjL g.adj e.source).count e.target :=
      addEdges_mem_count edges _ _ hadd e he
    have hkeep := removal_count_keep e.source e.target
      (runDfs g.adj nodes).back g
      (fun k hk => by
        obtain ⟨a, b, ha, hb, hk2⟩ := hBO k hk
        exact ⟨a, b, hC a ha, hC b (hT a b hb), hk2⟩)
      (hg2 ▸ hnb)
    rw [hg1]
    refine List.count_pos_iff.1 ?_
    rw [hkeep]
    omega

/-- Both endpoints of every edge of a successful build are node ids. -/
theorem builtGraph_edge_endpoints (nodes : List Node) (edges : List Edge)
    (gb : Graph × List Str) (h : builtGraph nodes edges = some gb) :
    ∀ e ∈ edges, e.source ∈ nodeIds nodes ∧ e.target ∈ nodeIds nodes := by
  unfold builtGraph findAndHandleCycles at h
  cases hadd : addEdges (initGraph nodes) edges with
  | none => rw [hadd] at h; cases h
  | some g =>
    intro e he
    obtain ⟨hsrc, htgt⟩ := addEdges_endpoints edges _ _ hadd e he
    constructor
    · exact initGraph_adj_key nodes e.source
        ((addEdges_adj_isSome edges _ _ hadd e.source).1 hsrc)
    · exact initGraph_rev_mem nodes e.target
        ((addEdges_rev_isSome edges _ _ hadd e.target).1 htgt)

end BuildConsistency

section KahnSubset

/-- Everything `processTargets` pushes comes from its target list. -/
theorem processTargets_acc_mem :
    ∀ (vs : List Str) (acc : List Str × MapF Int) (x : Str),
      x ∈ (processTargets vs acc).1 → x ∈ acc.1 ∨ x ∈ vs := by
  intro vs
  induction vs with
  | nil => intro acc x h; exact Or.inl h
  | cons v t ih =>
    intro acc x h
    unfold processTargets at h
    rcases ih _ _ h with h1 | h1
    · by_cases hd : jsOrI (acc.2.get v) 1 - 1 = 0
      · rw [if_pos hd] at h1
        rcases List.mem_append.1 h1 with h2 | h2
        · exact Or.inl h2
        · have : x = v := by simpa using h2
          subst this
          exact Or.inr (List.mem_cons_self _ _)
      · rw [if_neg hd] at h1
        exact Or.inl h1
    · exact Or.inr (List.mem_cons_of_mem _ h1)

/-- Everything `processQueue` pushes comes from some adjacency list. -/
theorem processQueue_acc_mem (adj : MapF (List Str)) :
    ∀ (q : List Str) (acc : List Str × MapF Int) (x : Str),
      x ∈ (processQueue adj q acc).1 →
      x ∈ acc.1 ∨ ∃ u, x ∈ adjL adj u := by
  intro q
  induction q with
  | nil => intro acc x h; exact Or.inl h
  | cons u t ih =>
    intro acc x h
    rcases ih _ _ h with h1 | h1
    · rcases processTargets_acc_mem _ _ _ h1 with h2 | h2
      · exact Or.inl h2
      · exact Or.inr ⟨u, h2⟩
    · exact Or.inr h1

/-- Every id appearing in any layer of the Kahn loop lies in `S`, when the
initial queue and all adjacency targets do. -/
theorem kahnLoop_mem_subset (adj : MapF (List Str)) (S : List Str)
    (hA : ∀ u v, v ∈ adjL adj u → v ∈ S) :
    ∀ (fuel : Nat) (queue : List Str) (deg : MapF Int),
      (∀ x ∈ queue, x ∈ S) →
      ∀ L ∈ kahnLoop adj fuel queue deg, ∀ x ∈ L, x ∈ S := by
  intro fuel
  induction fuel with
  | zero => intro queue deg _ L hL; exact absurd hL (List.not_mem_nil _)
  | succ f ih =>
    intro queue deg hq L hL x hx
    unfold kahnLoop at hL
    by_cases he : queue.isEmpty
    · rw [if_pos he] at hL
      exact absurd hL (List.not_mem_nil _)
    · rw [if_neg he] at hL
      rcases List.mem_cons.1 hL with rfl | hL
      · exact hq x hx
      · refine ih _ _ ?_ L hL x hx
        intro y hy
        rcases processQueue_acc_mem adj _ _ _ hy with h1 | ⟨u, h1⟩
        · exact absurd h1 (List.not_mem_nil _)
        · exact hA u y h1

/-- Every id of every computed layer is an input node id (in a successful
build). -/
theorem layers_subset (nodes : List Node) (edges : List Edge)
    (gb : Graph × List Str) (h : builtGraph nodes edges = some gb)
    (fuel : Nat) :
    ∀ L ∈ assignLayers fuel nodes gb.1.adj gb.1.inDegree,
      ∀ x ∈ L, x ∈ nodeIds nodes := by
  unfold assignLayers
  refine kahnLoop_mem_subset _ (nodeIds nodes)
    (builtGraph_adj_targets nodes edges gb h) fuel _ _ ?_
  intro x hx
  rcases List.mem_map.1 hx with ⟨n, hn, rfl⟩
  exact List.mem_map.2 ⟨n, List.mem_of_mem_filter hn, rfl⟩

end KahnSubset

section KahnInvariant

/-- One target sweep: the stored degrees drop by exactly the occurrences
in the processed target list, and everything pushed is a target whose
ghost count `f` (occurrences from still-unprocessed sources) is zero. -/
theorem processTargets_spec (ids : List Str) (f : Str → Nat) :
    ∀ (ts : List Str) (q : List Str) (deg : MapF Int),
      (∀ v ∈ ts, v ∈ ids) →
      (∀ w ∈ ids, deg.get w = some ((f w : Int) + (ts.count w : Int))) →
      (∀ w ∈ ids, (processTargets ts (q, deg)).2.get w = some ((f w : Int))) ∧
      ∃ new, (processTargets ts (q, deg)).1 = q ++ new ∧ new.Nodup ∧
        (∀ v ∈ new, v ∈ ts ∧ f v = 0) := by
  intro ts
  induction ts with
  | nil =>
    intro q deg _ hdeg
    refine ⟨?_, [], by simp [processTargets], List.nodup_nil,
      fun v hv => absurd hv (List.not_mem_nil _)⟩
    intro w hw
    simpa using hdeg w hw
  | cons v vs ih =>
    intro q deg hts hdeg
    have hvid : v ∈ ids := hts v (List.mem_cons_self _ _)
    have hv := hdeg v hvid
    have h1 : (v :: vs).count v = vs.count v + 1 := List.count_cons_self _ _
    have hd : jsOrI (deg.get v) 1 - 1 = ((f v : Int) + (vs.count v : Int)) := by
      rw [hv, jsOrI_some_ne]
      · omega
      · omega
    have hdeg2 : ∀ w ∈ ids,
        (deg.set v ((f v : Int) + (vs.count v : Int))).get w =
          some ((f w : Int) + (vs.count w : Int)) := by
      intro w hw
      by_cases hwv : w = v
      · subst hwv; rw [MapF.get_set_self]
      · rw [MapF.get_set_ne _ _ _ _ hwv, hdeg w hw,
          List.count_cons_of_ne hwv]
    unfold processTargets
    rw [hd]
    dsimp only
    by_cases hz : ((f v : Int) + (vs.count v : Int)) = 0
    · rw [if_pos hz]
      have hf0 : f v = 0 := by omega
      have hc0 : vs.count v = 0 := by omega
      obtain ⟨hdeg', new, hq, hnd, hmem⟩ := ih (q ++ [v])
        (deg.set v ((f v : Int) + (vs.count v : Int)))
        (fun x hx => hts x (List.mem_cons_of_mem _ hx)) hdeg2
      refine ⟨hdeg', v :: new, ?_, ?_, ?_⟩
      · rw [hq, List.append_assoc]
        rfl
      · refine List.nodup_cons.2 ⟨?_, hnd⟩
        intro hvn
        have hvv := (hmem v hvn).1
        have : 0 < vs.count v := List.count_pos_iff.2 hvv
        omega
      · intro x hx
        rcases List.mem_cons.1 hx with rfl | hx2
        · exact ⟨List.mem_cons_self _ _, hf0⟩
        · obtain ⟨hxv, hxf⟩ := hmem x hx2
          exact ⟨List.mem_cons_of_mem _ hxv, hxf⟩
    · rw [if_neg hz]
      obtain ⟨hdeg', new, hq, hnd, hmem⟩ := ih q
        (deg.set v ((f v : Int) + (vs.count v : Int)))
        (fun x hx => hts x (List.mem_cons_of_mem _ hx)) hdeg2
      refine ⟨hdeg', new, hq, hnd, ?_⟩
      intro x hx
      obtain ⟨hxv, hxf⟩ := hmem x hx
      exact ⟨List.mem_cons_of_mem _ hxv, hxf⟩

/-- One whole layer sweep: degrees end up tracking occurrences from the
sources outside the processed set extended by the whole queue, and every
pushed id is a fresh id all of whose in-edges come from processed
sources. -/
theorem processQueue_spec (adj : MapF (List Str)) (ids : List Str)
    (hN : ids.Nodup) (hT : ∀ u v, v ∈ adjL adj u → v ∈ ids) :
    ∀ (rest P q : List Str) (deg : MapF Int),
      (∀ u ∈ rest, u ∈ ids) →
      (P ++ rest).Nodup →
      (∀ w ∈ ids, deg.get w =
        some ((occFrom adj (remaining ids P) w : Int))) →
      (∀ w, w ∈ P ∨ w ∈ rest → occFrom adj (remaining ids P) w = 0) →
      q.Nodup →
      (∀ x ∈ q, x ∈ ids ∧ x ∉ P ∧ x ∉ rest ∧
        occFrom adj (remaining ids P) x = 0) →
      (∀ w ∈ ids, (processQueue adj rest (q, deg)).2.get w =
        some ((occFrom adj (remaining ids (P ++ rest)) w : Int))) ∧
      ∃ new, (processQueue adj rest (q, deg)).1 = q ++ new ∧
        (q ++ new).Nodup ∧
        ∀ x ∈ new, x ∈ ids ∧ x ∉ P ∧ x ∉ rest ∧
          occFrom adj (remaining ids (P ++ rest)) x = 0 := by
  intro rest
  induction rest with
  | nil =>
    intro P q deg _ _ hdeg _ hqN hq
    refine ⟨?_, [], by simp [processQueue], by simp [hqN],
      fun x hx => absurd hx (List.not_mem_nil _)⟩
    intro w hw
    rw [List.append_nil]
    exact hdeg w hw
  | cons u us ih =>
    intro P q deg hrest hPN hdeg hP0 hqN hq
    have huid : u ∈ ids := hrest u (List.mem_cons_self _ _)
    have huP : u ∉ P := fun hP =>
      (List.nodup_append.1 hPN).2.2 hP (List.mem_cons_self _ _)
    have humem : u ∈ remaining ids P := mem_remaining.2 ⟨huid, huP⟩
    have hstep := fun w => occFrom_remaining_step adj hN huid huP w
    have hts : ∀ v ∈ adjL adj u, v ∈ ids := fun v hv => hT u v hv
    have hdeg1 : ∀ w ∈ ids, deg.get w =
        some (((occFrom adj (remaining ids (P ++ [u])) w : Nat) : Int) +
          ((adjL adj u).count w : Int)) := by
      intro w hw
      rw [hdeg w hw]
      congr 1
      rw [hstep w]
      push_cast
      ring
    obtain ⟨hdegA, newA, hqA, hndA, hmemA⟩ := processTargets_spec ids
      (fun w => occFrom adj (remaining ids (P ++ [u])) w) (adjL adj u)
      q deg hts hdeg1
    have hnewA : ∀ x ∈ newA, x ∈ ids ∧ x ∉ P ∧ x ∉ (u :: us) ∧
        occFrom adj (remaining ids (P ++ [u])) x = 0 := by
      intro x hx
      obtain ⟨hxts, hxf⟩ := hmemA x hx
      have hxid : x ∈ ids := hT u x hxts
      have hxpos : 0 < occFrom adj (remaining ids P) x :=
        occFrom_pos adj humem hxts
      have hxP : x ∉ P := fun hP => by
        have := hP0 x (Or.inl hP)
        omega
      have hxrest : x ∉ (u :: us) := fun hR => by
        have := hP0 x (Or.inr hR)
        omega
      exact ⟨hxid, hxP, hxrest, hxf⟩
    have hpr : processTargets (adjL adj u) (q, deg) =
        (q ++ newA, (processTargets (adjL adj u) (q, deg)).2) := by
      rw [← hqA]
    have hqN2 : (q ++ newA).Nodup := by
      rw [List.nodup_append]
      refine ⟨hqN, hndA, ?_⟩
      intro x hxq hxA
      have hx0 := (hq x hxq).2.2.2
      have hxpos : 0 < occFrom adj (remaining ids P) x :=
        occFrom_pos adj humem (hmemA x hxA).1
      omega
    have hsubPu : ∀ y, y ∈ P → y ∈ P ++ [u] := fun y hy =>
      List.mem_append.2 (Or.inl hy)
    have hq2 : ∀ x ∈ q ++ newA, x ∈ ids ∧ x ∉ P ++ [u] ∧ x ∉ us ∧
        occFrom adj (remaining ids (P ++ [u])) x = 0 := by
      intro x hx
      rcases List.mem_append.1 hx with hxq | hxA
      · obtain ⟨hxid, hxP, hxrest, hx0⟩ := hq x hxq
        refine ⟨hxid, ?_, ?_, occFrom_remaining_zero adj ids hsubPu hx0⟩
        · intro hc
          rcases List.mem_append.1 hc with hc2 | hc2
          · exact hxP hc2
          · exact hxrest (by
              rw [show x = u by simpa using hc2]
              exact List.mem_cons_self u us)
        · exact fun hc => hxrest (List.mem_cons_of_mem _ hc)
      · obtain ⟨hxid, hxP, hxrest, hx0⟩ := hnewA x hxA
        refine ⟨hxid, ?_, ?_, hx0⟩
        · intro hc
          rcases List.mem_append.1 hc with hc2 | hc2
          · exact hxP hc2
          · exact hxrest (by
              rw [show x = u by simpa using hc2]
              exact List.mem_cons_self u us)
        · exact fun hc => hxrest (List.mem_cons_of_mem _ hc)
    have hPN2 : ((P ++ [u]) ++ us).Nodup := by
      rw [List.append_assoc]
      exact hPN
    have hP02 : ∀ w, w ∈ P ++ [u] ∨ w ∈ us →
        occFrom adj (remaining ids (P ++ [u])) w = 0 := by
      intro w hw
      refine occFrom_remaining_zero adj ids hsubPu ?_
      rcases hw with hw | hw
      · rcases List.mem_append.1 hw with hw2 | hw2
        · exact hP0 w (Or.inl hw2)
        · refine hP0 w (Or.inr ?_)
          rw [show w = u by simpa using hw2]
          exact List.mem_cons_self u us
      · exact hP0 w (Or.inr (List.mem_cons_of_mem _ hw))
    obtain ⟨hdegB, newB, hqB, hndB, hmemB⟩ := ih (P ++ [u]) (q ++ newA)
      (processTargets (adjL adj u) (q, deg)).2
      (fun x hx => hrest x (List.mem_cons_of_mem _ hx)) hPN2 hdegA hP02
      hqN2 hq2
    have hE : (P ++ [u]) ++ us = P ++ u :: us := by simp
    constructor
    · intro w hw
      have := hdegB w hw
      unfold processQueue
      rw [hpr]
      rw [hE] at this
      exact this
    · refine ⟨newA ++ newB, ?_, ?_, ?_⟩
      · unfold processQueue
        rw [hpr, hqB, List.append_assoc]
      · rw [← List.append_assoc]
        exact hndB
      · intro x hx
        rcases List.mem_append.1 hx with hxA | hxB
        · obtain ⟨hxid, hxP, hxrest, hx0⟩ := hnewA x hxA
          refine ⟨hxid, hxP, hxrest, ?_⟩
          refine occFrom_remaining_zero adj ids ?_ hx0
          intro y hy
          rcases List.mem_append.1 hy with hy2 | hy2
          · exact List.mem_append.2 (Or.inl hy2)
          · refine List.mem_append.2 (Or.inr ?_)
            rw [show y = u by simpa using hy2]
            exact List.mem_cons_self u us
        · obtain ⟨hxid, hxPu, hxus, hx0⟩ := hmemB x hxB
          have hxP : x ∉ P := fun hc =>
            hxPu (List.mem_append.2 (Or.inl hc))
          have hxu : x ≠ u := fun hc =>
            hxPu (List.mem_append.2 (Or.inr (by simp [hc])))
          refine ⟨hxid, hxP, ?_, ?_⟩
          · intro hc
            rcases List.mem_cons.1 hc with hc2 | hc2
            · exact hxu hc2
            · exact hxus hc2
          · rw [hE] at hx0
            exact hx0

/-- An element of an indexed layer is in the flattened layers. -/
theorem mem_getD_flatten {α : Type} :
    ∀ (L : List (List α)) (k : Nat) (x : α),
      x ∈ L.getD k [] → x ∈ L.flatten := by
  intro L
  induction L with
  | nil =>
    intro k x h
    cases k <;> exact absurd h (List.not_mem_nil _)
  | cons l t ih =>
    intro k x h
    cases k with
    | zero => exact List.mem_flatten.2 ⟨l, List.mem_cons_self _ _, h⟩
    | succ k2 =>
      have h2 := ih k2 x h
      rw [List.flatten_cons]
      exact List.mem_append.2 (Or.inr h2)

/-- An element of the flattened prefix sits in a layer before the cut. -/
theorem take_flatten_mem {α : Type} :
    ∀ (L : List (List α)) (j : Nat) (x : α), x ∈ (L.take j).flatten →
      ∃ k, k < j ∧ x ∈ L.getD k [] := by
  intro L
  induction L with
  | nil =>
    intro j x h
    rw [List.take_nil] at h
    exact absurd h (List.not_mem_nil _)
  | cons l t ih =>
    intro j x h
    cases j with
    | zero => exact absurd h (List.not_mem_nil _)
    | succ j2 =>
      rw [List.take_succ_cons, List.flatten_cons] at h
      rcases List.mem_append.1 h with h2 | h2
      · exact ⟨0, Nat.succ_pos _, h2⟩
      · obtain ⟨k, hk, hx⟩ := ih j2 x h2
        exact ⟨k + 1, Nat.succ_lt_succ hk, hx⟩

/-- An element of the flattened layers has a layer index. -/
theorem flatten_mem_getD {α : Type} :
    ∀ (L : List (List α)) (x : α), x ∈ L.flatten →
      ∃ k, x ∈ L.getD k [] := by
  intro L
  induction L with
  | nil =>
    intro x h
    rw [List.flatten_nil] at h
    exact absurd h (List.not_mem_nil _)
  | cons l t ih =>
    intro x h
    rw [List.flatten_cons] at h
    rcases List.mem_append.1 h with h2 | h2
    · exact ⟨0, h2⟩
    · obtain ⟨k, hk⟩ := ih x h2
      exact ⟨k + 1, hk⟩

/-- With duplicate-free flattened layers, an id determines its layer
index. -/
theorem flatten_nodup_getD_unique {α : Type} :
    ∀ (L : List (List α)), L.flatten.Nodup →
      ∀ i k (x : α), x ∈ L.getD i [] → x ∈ L.getD k [] → i = k := by
  intro L
  induction L with
  | nil =>
    intro _ i k x h _
    cases i <;> exact absurd h (List.not_mem_nil _)
  | cons l t ih =>
    intro hN i k x hi hk
    rw [List.flatten_cons, List.nodup_append] at hN
    obtain ⟨hl, ht, hdisj⟩ := hN
    cases i with
    | zero =>
      cases k with
      | zero => rfl
      | succ k2 =>
        exact absurd (mem_getD_flatten t k2 x hk) (hdisj hi)
    | succ i2 =>
      cases k with
      | zero => exact absurd (mem_getD_flatten t i2 x hi) (hdisj hk)
      | succ k2 => exact congrArg Nat.succ (ih ht i2 k2 x hi hk)

/-- The Kahn loop invariant: starting from a queue of ids all of whose
in-edges come from the processed prefix `P`, the produced layers are
pairwise disjoint (no id repeats), stay inside the id set, and every id of
layer `j` has all its in-edges from sources processed strictly before
layer `j`. -/
theorem kahnLoop_spec (adj : MapF (List Str)) (ids : List Str)
    (hN : ids.Nodup) (hT : ∀ u v, v ∈ adjL adj u → v ∈ ids) :
    ∀ (fuel : Nat) (P queue : List Str) (deg : MapF Int),
      (P ++ queue).Nodup →
      (∀ u ∈ queue, u ∈ ids) →
      (∀ w ∈ ids, deg.get w =
        some ((occFrom adj (remaining ids P) w : Int))) →
      (∀ w, w ∈ P ∨ w ∈ queue → occFrom adj (remaining ids P) w = 0) →
      (P ++ (kahnLoop adj fuel queue deg).flatten).Nodup ∧
      (∀ l ∈ kahnLoop adj fuel queue deg, ∀ x ∈ l, x ∈ ids) ∧
      ∀ j, ∀ v ∈ (kahnLoop adj fuel queue deg).getD j [],
        occFrom adj
          (remaining ids (P ++ ((kahnLoop adj fuel queue deg).take j).flatten))
          v = 0 := by
  intro fuel
  induction fuel with
  | zero =>
    intro P queue deg hPN _ _ _
    unfold kahnLoop
    refine ⟨by simpa using (List.nodup_append.1 hPN).1, ?_, ?_⟩
    · intro l hl; exact absurd hl (List.not_mem_nil _)
    · intro j v hv
      cases j <;> exact absurd hv (List.not_mem_nil _)
  | succ f ih =>
    intro P queue deg hPN hqids hdeg hP0
    unfold kahnLoop
    by_cases he : queue.isEmpty
    · rw [if_pos he]
      refine ⟨by simpa using (List.nodup_append.1 hPN).1, ?_, ?_⟩
      · intro l hl; exact absurd hl (List.not_mem_nil _)
      · intro j v hv
        cases j <;> exact absurd hv (List.not_mem_nil _)
    · rw [if_neg he]
      dsimp only
      unfold processLayer
      have hq0 : ∀ x ∈ ([] : List Str), x ∈ ids ∧ x ∉ P ∧ x ∉ queue ∧
          occFrom adj (remaining ids P) x = 0 :=
        fun x hx => absurd hx (List.not_mem_nil _)
      obtain ⟨hdeg2, new, hnew1, hnew2, hnew3⟩ := processQueue_spec adj ids
        hN hT queue P [] deg hqids hPN hdeg hP0 List.nodup_nil hq0
      rw [List.nil_append] at hnew1 hnew2
      have hPQN : ((P ++ queue) ++
          (processQueue adj queue ([], deg)).1).Nodup := by
        rw [hnew1, List.nodup_append]
        refine ⟨hPN, hnew2, ?_⟩
        intro x hx hx2
        obtain ⟨_, hxP, hxq, _⟩ := hnew3 x hx2
        rcases List.mem_append.1 hx with h2 | h2
        · exact hxP h2
        · exact hxq h2
      have hqids2 : ∀ u ∈ (processQueue adj queue ([], deg)).1, u ∈ ids := by
        rw [hnew1]
        intro u hu
        exact (hnew3 u hu).1
      have hP02 : ∀ w, w ∈ P ++ queue ∨
          w ∈ (processQueue adj queue ([], deg)).1 →
          occFrom adj (remaining ids (P ++ queue)) w = 0 := by
        intro w hw
        rcases hw with hw | hw
        · exact occFrom_remaining_zero adj ids
            (fun y hy => List.mem_append.2 (Or.inl hy))
            (hP0 w (by
              rcases List.mem_append.1 hw with h2 | h2
              · exact Or.inl h2
              · exact Or.inr h2))
        · rw [hnew1] at hw
          exact (hnew3 w hw).2.2.2
      obtain ⟨IH1, IH2, IH3⟩ := ih (P ++ queue)
        (processQueue adj queue ([], deg)).1
        (processQueue adj queue ([], deg)).2 hPQN hqids2 hdeg2 hP02
      refine ⟨?_, ?_, ?_⟩
      · rw [List.flatten_cons, ← List.append_assoc]
        exact IH1
      · intro l hl
        rcases List.mem_cons.1 hl with rfl | hl2
        · exact hqids
        · exact IH2 l hl2
      · intro j v hv
        cases j with
        | zero =>
          rw [List.take_zero, List.flatten_nil, List.append_nil]
          exact hP0 v (Or.inr hv)
        | succ j2 =>
          rw [List.take_succ_cons, List.flatten_cons, ← List.append_assoc]
          exact IH3 j2 v hv

/-- The layering of a neat successful build: no id repeats across layers,
all ids are node ids, and every id of layer `j` has all its residual
in-edges from layers strictly before `j`. -/
theorem assignLayers_invariant (nodes : List Node) (edges : List Edge)
    (gb : Graph × List Str) (h : builtGraph nodes edges = some gb)
    (hN : (nodeIds nodes).Nodup) (hC : CleanIds (nodeIds nodes))
    (fuel : Nat) :
    (assignLayers fuel nodes gb.1.adj gb.1.inDegree).flatten.Nodup ∧
    (∀ l ∈ assignLayers fuel nodes gb.1.adj gb.1.inDegree,
      ∀ x ∈ l, x ∈ nodeIds nodes) ∧
    ∀ j, ∀ v ∈ (assignLayers fuel nodes gb.1.adj gb.1.inDegree).getD j [],
      occFrom gb.1.adj
        (remaining (nodeIds nodes)
          (((assignLayers fuel nodes gb.1.adj gb.1.inDegree).take j).flatten))
        v = 0 := by
  have hD := builtGraph_consistency nodes edges gb h hN hC
  have hT := builtGraph_adj_targets nodes edges gb h
  unfold assignLayers
  have hq : ∀ u ∈ (nodes.filter
      (fun n => gb.1.inDegree.get n.id = some 0)).map (fun n => n.id),
      u ∈ nodeIds nodes := by
    intro u hu
    rcases List.mem_map.1 hu with ⟨n, hn, rfl⟩
    exact List.mem_map.2 ⟨n, List.mem_of_mem_filter hn, rfl⟩
  have hqN : (([] : List Str) ++ (nodes.filter
      (fun n => gb.1.inDegree.get n.id = some 0)).map
        (fun n => n.id)).Nodup := by
    rw [List.nil_append]
    exact List.Nodup.sublist
      (List.Sublist.map (fun n => n.id) (List.filter_sublist nodes)) hN
  have hdeg0 : ∀ w ∈ nodeIds nodes, gb.1.inDegree.get w =
      some ((occFrom gb.1.adj (remaining (nodeIds nodes) []) w : Int)) := by
    intro w hw
    rw [remaining_nil]
    exact hD w hw
  have hP0 : ∀ w, w ∈ ([] : List Str) ∨ w ∈ (nodes.filter
      (fun n => gb.1.inDegree.get n.id = some 0)).map (fun n => n.id) →
      occFrom gb.1.adj (remaining (nodeIds nodes) []) w = 0 := by
    intro w hw
    rcases hw with hw | hw
    · exact absurd hw (List.not_mem_nil _)
    · rcases List.mem_map.1 hw with ⟨n, hn, rfl⟩
      have hz : gb.1.inDegree.get n.id = some 0 := by
        have := List.of_mem_filter hn
        simpa using this
      have hocc := hD n.id (List.mem_map.2 ⟨n, List.mem_of_mem_filter hn, rfl⟩)
      rw [hz] at hocc
      rw [remaining_nil]
      have h2 := Option.some.inj hocc
      omega
  obtain ⟨K1, K2, K3⟩ := kahnLoop_spec gb.1.adj (nodeIds nodes) hN hT
    fuel []
    ((nodes.filter (fun n => gb.1.inDegree.get n.id = some 0)).map
      (fun n => n.id)) gb.1.inDegree hqN hq hdeg0 hP0
  rw [List.nil_append] at K1
  refine ⟨K1, K2, ?_⟩
  intro j v hv
  have h3 := K3 j v hv
  rwa [List.nil_append] at h3

/-- Layer monotonicity: a residual edge always points from an earlier
layer to a strictly later one. -/
theorem layers_mono (nodes : List Node) (edges : List Edge)
    (gb : Graph × List Str) (h : builtGraph nodes edges = some gb)
    (hN : (nodeIds nodes).Nodup) (hC : CleanIds (nodeIds nodes))
    (fuel : Nat) (u v : Str) (huv : v ∈ adjL gb.1.adj u) (i j : Nat)
    (hu : u ∈ (assignLayers fuel nodes gb.1.adj gb.1.inDegree).getD i [])
    (hv : v ∈ (assignLayers fuel nodes gb.1.adj gb.1.inDegree).getD j []) :
    i < j := by
  obtain ⟨hflat, hsub, hocc⟩ :=
    assignLayers_invariant nodes edges gb h hN hC fuel
  have h0 := hocc j v hv
  obtain ⟨l, hl, hul⟩ := List.mem_flatten.1 (mem_getD_flatten _ i u hu)
  have huid : u ∈ nodeIds nodes := hsub l hl u hul
  by_cases hrem : u ∈ remaining (nodeIds nodes)
      (((assignLayers fuel nodes gb.1.adj gb.1.inDegree).take j).flatten)
  · exfalso
    have := occFrom_pos gb.1.adj hrem huv
    omega
  · have hu2 : u ∈ ((assignLayers fuel nodes gb.1.adj
        gb.1.inDegree).take j).flatten := by
      by_contra hcon
      exact hrem (mem_remaining.2 ⟨huid, hcon⟩)
    obtain ⟨k, hk, hku⟩ := take_flatten_mem _ j u hu2
    have hki : k = i := flatten_nodup_getD_unique _ hflat k i u hku hu
    omega

/-- A layered id never keeps a residual self-edge. -/
theorem layers_no_self (nodes : List Node) (edges : List Edge)
    (gb : Graph × List Str) (h : builtGraph nodes edges = some gb)
    (hN : (nodeIds nodes).Nodup) (hC : CleanIds (nodeIds nodes))
    (fuel : Nat) (u : Str) (j : Nat)
    (hu : u ∈ (assignLayers fuel nodes gb.1.adj gb.1.inDegree).getD j []) :
    u ∉ adjL gb.1.adj u := by
  intro hself
  exact Nat.lt_irrefl j
    (layers_mono nodes edges gb h hN hC fuel u u hself j j hu hu)

end KahnInvariant

section NodeMapLemmas

/-- The node map binds each id to a node carrying that id. -/
theorem mkNodeMap_idKeyed (nodes : List Node) : IdKeyed (mkNodeMap nodes) := by
  intro k nd h
  unfold mkNodeMap at h
  rcases get_foldl_set (fun n => n.id) (fun n => n) nodes MapF.empty k nd h with
    ⟨b, _, hk, hv⟩ | h2
  · rw [← hv]; exact hk
  · cases h2

/-- Overlaying id-keyed dummy entries preserves id-keyedness. -/
theorem overlayDummies_idKeyed (nm : MapF Node) (dummies : List (Str × Node))
    (h : IdKeyed nm) (hd : ∀ p ∈ dummies, (p.2 : Node).id = p.1) :
    IdKeyed (overlayDummies nm dummies) := by
  intro k nd hget
  unfold overlayDummies at hget
  rcases get_foldl_set (fun p => p.1) (fun p => p.2) dummies nm k nd hget with
    ⟨b, hb, hk, hv⟩ | hget2
  · rw [← hv, ← hk]; exact hd b hb
  · exact h _ _ hget2

/-- The dummy-chain loop only collects id-keyed dummy entries. -/
theorem addChainGo_dummies (u v : Str) :
    ∀ (is : List Nat) (s : VG × Str),
      (∀ p ∈ s.1.dummies, (p.2 : Node).id = p.1) →
      ∀ p ∈ (addChainGo u v is s).1.dummies, (p.2 : Node).id = p.1 := by
  intro is
  induction is with
  | nil => intro s hs; exact hs
  | cons i t ih =>
    intro s hs
    refine ih _ ?_
    intro p hp
    rcases List.mem_append.1 hp with hp | hp
    · exact hs p hp
    · have : p = (dummyId u v i, mkDummyNode u v i) := by simpa using hp
      rw [this]
      rfl

/-- The successor loop only collects id-keyed dummy entries. -/
theorem virtTargets_dummies (lm : MapF Nat) (u : Str) :
    ∀ (vs : List Str) (st : VG),
      (∀ p ∈ st.dummies, (p.2 : Node).id = p.1) →
      ∀ p ∈ (virtTargets lm u vs st).dummies, (p.2 : Node).id = p.1 := by
  intro vs
  induction vs with
  | nil => intro st hs; exact hs
  | cons v t ih =>
    intro st hs
    unfold virtTargets
    refine ih _ ?_
    cases hu : lm.get u with
    | none => simp only [hu]; exact hs
    | some ul =>
      cases hv : lm.get v with
      | none => simp only [hu, hv]; exact hs
      | some vl =>
        simp only [hu, hv]
        by_cases hgt : (vl : Int) - ul > 1
        · rw [if_pos hgt]
          unfold addChain
          exact addChainGo_dummies u v _ (st, u) hs
        · rw [if_neg hgt]
          exact hs

/-- The virtual-graph worklist only collects id-keyed dummy entries. -/
theorem virtLoop_dummies (lm : MapF Nat) (adj : MapF (List Str)) :
    ∀ (fuel : Nat) (st : VG) (c k : Nat),
      (∀ p ∈ st.dummies, (p.2 : Node).id = p.1) →
      ∀ p ∈ (virtLoop lm adj fuel st c k).dummies, (p.2 : Node).id = p.1 := by
  intro fuel
  induction fuel with
  | zero => intro st c k hs; exact hs
  | succ f ih =>
    intro st c k hs
    unfold virtLoop
    by_cases hc : c < st.layers.length
    · rw [if_pos hc]
      by_cases hk : k < (st.layers.getD c []).length
      · rw [if_pos hk]
        exact ih _ _ _ (virtTargets_dummies lm _ _ st hs)
      · rw [if_neg hk]
        exact ih _ _ _ hs
    · rw [if_neg hc]
      exact hs

/-- `createVirtualGraph`'s dummy entries are id-keyed. -/
theorem createVirtualGraph_dummies (layers : List (List Str))
    (adj : MapF (List Str)) (fuel : Nat) :
    ∀ p ∈ (createVirtualGraph layers adj fuel).dummies,
      (p.2 : Node).id = p.1 := by
  unfold createVirtualGraph
  exact virtLoop_dummies _ _ fuel _ 0 0 (by intro p hp; cases hp)

/-- The run's virtual node map is id-keyed. -/
theorem vmapOf_idKeyed (nodes : List Node) (edges : List Edge) (g : Graph)
    (layers : List (List Str)) : IdKeyed (vmapOf nodes (vgOf edges g layers)) :=
  overlayDummies_idKeyed _ _ (mkNodeMap_idKeyed nodes)
    (createVirtualGraph_dummies _ _ _)

/-- Any property of freshly minted dummy entries survives the chain
loop. -/
theorem addChainGo_dummies_prop (Pr : Str × Node → Prop)
    (hmk : ∀ u v i, Pr (dummyId u v i, mkDummyNode u v i)) (u v : Str) :
    ∀ (is : List Nat) (s : VG × Str),
      (∀ p ∈ s.1.dummies, Pr p) →
      ∀ p ∈ (addChainGo u v is s).1.dummies, Pr p := by
  intro is
  induction is with
  | nil => intro s hs; exact hs
  | cons i t ih =>
    intro s hs
    refine ih _ ?_
    intro p hp
    rcases List.mem_append.1 hp with hp | hp
    · exact hs p hp
    · have hpe : p = (dummyId u v i, mkDummyNode u v i) := by simpa using hp
      rw [hpe]
      exact hmk u v i

/-- Any property of freshly minted dummy entries survives the successor
loop. -/
theorem virtTargets_dummies_prop (Pr : Str × Node → Prop)
    (hmk : ∀ u v i, Pr (dummyId u v i, mkDummyNode u v i))
    (lm : MapF Nat) (u : Str) :
    ∀ (vs : List Str) (st : VG),
      (∀ p ∈ st.dummies, Pr p) →
      ∀ p ∈ (virtTargets lm u vs st).dummies, Pr p := by
  intro vs
  induction vs with
  | nil => intro st hs; exact hs
  | cons v t ih =>
    intro st hs
    unfold virtTargets
    refine ih _ ?_
    cases hu : lm.get u with
    | none => simp only [hu]; exact hs
    | some ul =>
      cases hv : lm.get v with
      | none => simp only [hu, hv]; exact hs
      | some vl =>
        simp only [hu, hv]
        by_cases hgt : (vl : Int) - ul > 1
        · rw [if_pos hgt]
          unfold addChain
          exact addChainGo_dummies_prop Pr hmk u v _ (st, u) hs
        · rw [if_neg hgt]
          exact hs

/-- Any property of freshly minted dummy entries survives the worklist. -/
theorem virtLoop_dummies_prop (Pr : Str × Node → Prop)
    (hmk : ∀ u v i, Pr (dummyId u v i, mkDummyNode u v i))
    (lm : MapF Nat) (adj : MapF (List Str)) :
    ∀ (fuel : Nat) (st : VG) (c k : Nat),
      (∀ p ∈ st.dummies, Pr p) →
      ∀ p ∈ (virtLoop lm adj fuel st c k).dummies, Pr p := by
  intro fuel
  induction fuel with
  | zero => intro st c k hs; exact hs
  | succ f ih =>
    intro st c k hs
    unfold virtLoop
    by_cases hc : c < st.layers.length
    · rw [if_pos hc]
      by_cases hk : k < (st.layers.getD c []).length
      · rw [if_pos hk]
        exact ih _ _ _ (virtTargets_dummies_prop Pr hmk lm _ _ st hs)
      · rw [if_neg hk]
        exact ih _ _ _ hs
    · rw [if_neg hc]
      exact hs

/-- Every dummy entry satisfies any property of freshly minted ones. -/
theorem createVirtualGraph_dummies_prop (Pr : Str × Node → Prop)
    (hmk : ∀ u v i, Pr (dummyId u v i, mkDummyNode u v i))
    (layers : List (List Str)) (adj : MapF (List Str)) (fuel : Nat) :
    ∀ p ∈ (createVirtualGraph layers adj fuel).dummies, Pr p := by
  unfold createVirtualGraph
  exact virtLoop_dummies_prop Pr hmk _ _ fuel _ 0 0 (by intro p hp; cases hp)

/-- Every binding of the node map is one of the input nodes. -/
theorem mkNodeMap_get_mem (nodes : List Node) (id : Str) (nd : Node)
    (h : (mkNodeMap nodes).get id = some nd) : nd ∈ nodes := by
  unfold mkNodeMap at h
  rcases get_foldl_set (fun n => n.id) (fun n => n) nodes MapF.empty id nd h with
    ⟨b, hb, _, hv⟩ | h2
  · rw [← hv]; exact hb
  · cases h2

/-- The run's virtual node map has well-formed dimensions: real nodes by
hypothesis, dummies by construction (`width: 1, height: 50`). -/
theorem vmapOf_dims (nodes : List Node) (edges : List Edge) (g : Graph)
    (layers : List (List Str)) (hW : WFDims nodes) :
    ∀ id nd, (vmapOf nodes (vgOf edges g layers)).get id = some nd →
      0 < nd.width.den ∧ 0 < nd.height.den := by
  intro id nd h
  unfold vmapOf overlayDummies at h
  rcases get_foldl_set (fun p : Str × Node => p.1) (fun p : Str × Node => p.2)
      _ _ id nd h with ⟨b, hb, _, hv⟩ | h2
  · rw [← hv]
    exact createVirtualGraph_dummies_prop
      (fun p : Str × Node => 0 < p.2.width.den ∧ 0 < p.2.height.den)
      (fun u v i => ⟨Nat.one_pos, Nat.one_pos⟩) _ _ _ b hb
  · exact hW nd (mkNodeMap_get_mem nodes id nd h2)

end NodeMapLemmas

section CoordinateStructure

/-- Every node placed by a horizontal row comes from a layer id whose
lookup succeeded, and keeps that node's id. -/
theorem placeRowH_mem (nm : MapF Node) (x : JNum) :
    ∀ (layer : List Str) (y mw : JNum) (out : List Node) (mw2 : JNum),
      placeRowH nm x layer y mw = some (out, mw2) →
      ∀ n ∈ out, ∃ id ∈ layer, ∃ nd, nm.get id = some nd ∧ n.id = nd.id := by
  intro layer
  induction layer with
  | nil =>
    intro y mw out mw2 h n hn
    unfold placeRowH at h
    cases h
    exact absurd hn (List.not_mem_nil _)
  | cons id rest ih =>
    intro y mw out mw2 h n hn
    unfold placeRowH at h
    cases hget : nm.get id with
    | none => simp only [hget] at h; cases h
    | some nd =>
      simp only [hget] at h
      cases hrec : placeRowH nm x rest (jadd y (jadd nd.height Y_GAP))
          (if jlt mw nd.width then nd.width else mw) with
      | none => simp only [hrec] at h; cases h
      | some rm =>
        simp only [hrec] at h
        cases h
        rcases List.mem_cons.1 hn with rfl | hn2
        · exact ⟨id, List.mem_cons_self _ _, nd, hget, rfl⟩
        · obtain ⟨id2, hid2, nd2, hnd2, hnid2⟩ := ih _ _ _ _ hrec n hn2
          exact ⟨id2, List.mem_cons_of_mem _ hid2, nd2, hnd2, hnid2⟩

/-- Vertical analogue of `placeRowH_mem`. -/
theorem placeRowV_mem (nm : MapF Node) (y : JNum) :
    ∀ (layer : List Str) (x mh : JNum) (out : List Node) (mh2 : JNum),
      placeRowV nm y layer x mh = some (out, mh2) →
      ∀ n ∈ out, ∃ id ∈ layer, ∃ nd, nm.get id = some nd ∧ n.id = nd.id := by
  intro layer
  induction layer with
  | nil =>
    intro x mh out mh2 h n hn
    unfold placeRowV at h
    cases h
    exact absurd hn (List.not_mem_nil _)
  | cons id rest ih =>
    intro x mh out mh2 h n hn
    unfold placeRowV at h
    cases hget : nm.get id with
    | none => simp only [hget] at h; cases h
    | some nd =>
      simp only [hget] at h
      cases hrec : placeRowV nm y rest (jadd x (jadd nd.width X_GAP))
          (if jlt mh nd.height then nd.height else mh) with
      | none => simp only [hrec] at h; cases h
      | some rm =>
        simp only [hrec] at h
        cases h
        rcases List.mem_cons.1 hn with rfl | hn2
        · exact ⟨id, List.mem_cons_self _ _, nd, hget, rfl⟩
        · obtain ⟨id2, hid2, nd2, hnd2, hnid2⟩ := ih _ _ _ _ hrec n hn2
          exact ⟨id2, List.mem_cons_of_mem _ hid2, nd2, hnd2, hnid2⟩

/-- Every node placed by the horizontal fold comes from some layer. -/
theorem coordFoldH_mem (nm : MapF Node) (maxH : JNum) :
    ∀ (layers : List (List Str)) (curX : JNum) (out : List Node),
      coordFoldH nm maxH layers curX = some out →
      ∀ n ∈ out, ∃ i id, id ∈ layers.getD i [] ∧
        ∃ nd, nm.get id = some nd ∧ n.id = nd.id := by
  intro layers
  induction layers with
  | nil =>
    intro curX out h n hn
    unfold coordFoldH at h
    cases h
    exact absurd hn (List.not_mem_nil _)
  | cons layer rest ih =>
    intro curX out h n hn
    unfold coordFoldH at h
    cases hext : layerExtent nm (fun n => n.height) Y_GAP layer with
    | none => simp only [hext] at h; cases h
    | some lh =>
      simp only [hext] at h
      cases hrow : placeRowH nm curX layer
          (jadd (jhalf (jsub maxH lh)) (jofNat 50)) (jofNat 0) with
      | none => simp only [hrow] at h; cases h
      | some rm =>
        simp only [hrow] at h
        cases hrec : coordFoldH nm maxH rest (jadd curX (jadd rm.2 X_GAP)) with
        | none => simp only [hrec] at h; cases h
        | some out2 =>
          simp only [hrec] at h
          cases h
          rcases List.mem_append.1 hn with hn2 | hn2
          · obtain ⟨id, hid, nd, hnd, hnid⟩ :=
              placeRowH_mem nm curX layer _ _ _ _ hrow n hn2
            exact ⟨0, id, by simpa using hid, nd, hnd, hnid⟩
          · obtain ⟨i, id, hid, nd, hnd, hnid⟩ := ih _ _ hrec n hn2
            exact ⟨i + 1, id, by simpa using hid, nd, hnd, hnid⟩

/-- Vertical analogue of `coordFoldH_mem`. -/
theorem coordFoldV_mem (nm : MapF Node) (maxW : JNum) :
    ∀ (layers : List (List Str)) (curY : JNum) (out : List Node),
      coordFoldV nm maxW layers curY = some out →
      ∀ n ∈ out, ∃ i id, id ∈ layers.getD i [] ∧
        ∃ nd, nm.get id = some nd ∧ n.id = nd.id := by
  intro layers
  induction layers with
  | nil =>
    intro curY out h n hn
    unfold coordFoldV at h
    cases h
    exact absurd hn (List.not_mem_nil _)
  | cons layer rest ih =>
    intro curY out h n hn
    unfold coordFoldV at h
    cases hext : layerExtent nm (fun n => n.width) X_GAP layer with
    | none => simp only [hext] at h; cases h
    | some lw =>
      simp only [hext] at h
      cases hrow : placeRowV nm curY layer
          (jadd (jhalf (jsub maxW lw)) (jofNat 50)) (jofNat 0) with
      | none => simp only [hrow] at h; cases h
      | some rm =>
        simp only [hrow] at h
        cases hrec : coordFoldV nm maxW rest (jadd curY (jadd rm.2 Y_GAP)) with
        | none => simp only [hrec] at h; cases h
        | some out2 =>
          simp only [hrec] at h
          cases h
          rcases List.mem_append.1 hn with hn2 | hn2
          · obtain ⟨id, hid, nd, hnd, hnid⟩ :=
              placeRowV_mem nm curY layer _ _ _ _ hrow n hn2
            exact ⟨0, id, by simpa using hid, nd, hnd, hnid⟩
          · obtain ⟨i, id, hid, nd, hnd, hnid⟩ := ih _ _ hrec n hn2
            exact ⟨i + 1, id, by simpa using hid, nd, hnd, hnid⟩

/-- Every node placed by `assignCoordinates` comes from some layer. -/
theorem assignCoordinates_mem (layers : List (List Str)) (nm : MapF Node)
    (o : Orientation) (out : List Node)
    (h : assignCoordinates layers nm o = some out) :
    ∀ n ∈ out, ∃ i id, id ∈ layers.getD i [] ∧
      ∃ nd, nm.get id = some nd ∧ n.id = nd.id := by
  unfold assignCoordinates at h
  cases o with
  | horizontal =>
    cases hm : layers.mapM (layerExtent nm (fun n => n.height) Y_GAP) with
    | none => simp only [hm] at h; cases h
    | some hs =>
      simp only [hm] at h
      exact coordFoldH_mem nm _ layers _ out h
  | vertical =>
    cases hm : layers.mapM (layerExtent nm (fun n => n.width) X_GAP) with
    | none => simp only [hm] at h; cases h
    | some ws =>
      simp only [hm] at h
      exact coordFoldV_mem nm _ layers _ out h

/-- An id in some `getD`-indexed layer is in some member layer. -/
theorem mem_getD_mem (ls : List (List Str)) (i : Nat) (x : Str)
    (h : x ∈ ls.getD i []) : ∃ L ∈ ls, x ∈ L := by
  rw [List.getD_eq_getElem?_getD] at h
  cases hl : ls[i]? with
  | none => rw [hl] at h; exact absurd h (List.not_mem_nil _)
  | some L =>
    rw [hl] at h
    obtain ⟨hlt, hL⟩ := List.getElem?_eq_some_iff.1 hl
    exact ⟨L, hL ▸ List.getElem_mem hlt, h⟩

end CoordinateStructure

section HandleLemmas

/-- Handle assignment touches only the handle fields. -/
theorem assignEdgeHandles_sig (edges : List Edge) (nm : MapF Node)
    (back : List Str) (o : Orientation) :
    (assignEdgeHandles edges nm back o).map edgeSig = edges.map edgeSig := by
  unfold assignEdgeHandles
  rw [List.map_map]
  apply List.map_congr_left
  intro e _
  simp only [Function.comp]
  cases hs : nm.get e.source with
  | none => rfl
  | some s =>
    cases ht : nm.get e.target with
    | none => rfl
    | some t =>
      by_cases hb : edgeKey e.source e.target ∈ back
      · simp [hb, edgeSig]
      · cases o <;> simp [hb, edgeSig] <;> split_ifs <;> simp

end HandleLemmas

section RunDestructuring

/-- With a successful build, `layersOf` is `layersFor` of that build. -/
theorem layersOf_eq (nodes : List Node) (edges : List Edge)
    (gb : Graph × List Str) (hbuild : builtGraph nodes edges = some gb) :
    layersOf nodes edges = layersFor nodes edges gb := by
  unfold layersOf layersFor
  rw [hbuild]

/-- With a failed build, `layersOf` is empty by convention. -/
theorem layersOf_eq_none (nodes : List Node) (edges : List Edge)
    (hbuild : builtGraph nodes edges = none) : layersOf nodes edges = [] := by
  unfold layersOf
  rw [hbuild]

/-- With a successful build, `backOf` is the build's back-edge list. -/
theorem backOf_eq (nodes : List Node) (edges : List Edge)
    (gb : Graph × List Str) (hbuild : builtGraph nodes edges = some gb) :
    backOf nodes edges = gb.2 := by
  unfold backOf
  rw [hbuild]

/-- An empty node list always produces an empty layering. -/
theorem layersFor_nil (edges : List Edge) (gb : Graph × List Str) :
    layersFor [] edges gb = [] := rfl

/-- Destructuring of a successful non-fallback run: the positioned node
list exists and determines both outputs. -/
theorem autoLayout_normal (nodes : List Node) (edges : List Edge)
    (o : Orientation) (r : LayoutResult) (gb : Graph × List Str)
    (hbuild : builtGraph nodes edges = some gb)
    (hlay : layersFor nodes edges gb ≠ [])
    (h : autoLayout nodes edges o = some r) :
    ∃ positioned,
      assignCoordinates (orderedOf (vgOf edges gb.1 (layersFor nodes edges gb)))
          (vmapOf nodes (vgOf edges gb.1 (layersFor nodes edges gb))) o =
        some positioned ∧
      r.newNodes = positioned.filter (fun n => ¬ dummyPre.isPrefixOf n.id) ∧
      r.newEdges = assignEdgeHandles edges (mkFinalMap positioned) gb.2 o := by
  unfold autoLayout at h
  have hne : nodes ≠ [] := by
    intro hnil
    subst hnil
    exact hlay (layersFor_nil edges gb)
  have hemp : ¬ nodes.isEmpty := by
    cases nodes with
    | nil => exact absurd rfl hne
    | cons a t => simp
  rw [if_neg hemp] at h
  simp only [hbuild] at h
  rw [if_neg (by simpa [List.isEmpty_iff] using hlay)] at h
  unfold layoutFromLayers at h
  cases hac : assignCoordinates
      (orderedOf (vgOf edges gb.1 (layersFor nodes edges gb)))
      (vmapOf nodes (vgOf edges gb.1 (layersFor nodes edges gb))) o with
  | none => simp only [hac] at h; cases h
  | some positioned =>
    simp only [hac] at h
    cases h
    exact ⟨positioned, rfl, rfl, rfl⟩

/-- A node id appearing in the returned `newNodes` is a key of the final
positioned-node map. -/
theorem finalMap_isSome_of_newNodes (positioned : List Node) (k : Str)
    (h : ∃ n ∈ positioned.filter (fun n => ¬ dummyPre.isPrefixOf n.id),
      (n : Node).id = k) :
    ((mkFinalMap positioned).get k).isSome := by
  obtain ⟨n, hn, hk⟩ := h
  unfold mkFinalMap
  exact isSome_foldl_set (fun n => n.id) (fun n => n) positioned MapF.empty k
    (Or.inl ⟨n, (List.mem_filter.1 hn).1, hk⟩)

/-- The handle assignment at one index, when both endpoints are present
and the edge is a back-edge: the fixed pair. -/
theorem assignEdgeHandles_back_at (edges : List Edge) (nm : MapF Node)
    (back : List Str) (o : Orientation) (i : Nat) (e : Edge)
    (he : edges[i]? = some e)
    (hs : (nm.get e.source).isSome) (ht : (nm.get e.target).isSome)
    (hb : edgeKey e.source e.target ∈ back) :
    (assignEdgeHandles edges nm back o)[i]? = some
      { e with sourceHandle := some (if o = Orientation.horizontal then 2 else 1),
               targetHandle := some (if o = Orientation.horizontal then 2 else 1) } := by
  unfold assignEdgeHandles
  rw [List.getElem?_map, he]
  cases hgs : nm.get e.source with
  | none => rw [hgs] at hs; cases hs
  | some s =>
    cases hgt : nm.get e.target with
    | none => rw [hgt] at ht; cases ht
    | some t =>
      rw [Option.map_some']
      simp only [hgs, hgt]
      rw [if_pos hb]

/-- The output handle pair at one index is a function of the edge's
source and target ids, the endpoint nodes, the back-edge set and the
orientation only (when both endpoint lookups succeed). -/
theorem assignEdgeHandles_handles_at (edges : List Edge) (nm : MapF Node)
    (back : List Str) (o : Orientation) (i : Nat) (e : Edge) (s t : Node)
    (he : edges[i]? = some e)
    (hs : nm.get e.source = some s) (ht : nm.get e.target = some t) :
    ((assignEdgeHandles edges nm back o)[i]?).map
        (fun x => (x.sourceHandle, x.targetHandle)) =
      some (if edgeKey e.source e.target ∈ back then
          ((some (if o = Orientation.horizontal then 2 else 1) : Option Int),
           (some (if o = Orientation.horizontal then 2 else 1) : Option Int))
        else
          match o with
          | Orientation.horizontal =>
            if jlt (jadd t.position.y (jofNat 10)) s.position.y then (some 0, some 2)
            else if jlt s.position.y (jsub t.position.y (jofNat 10)) then (some 2, some 0)
            else (some 1, some 3)
          | Orientation.vertical =>
            if jlt (jadd t.position.x (jofNat 10)) s.position.x then (some 3, some 1)
            else if jlt s.position.x (jsub t.position.x (jofNat 10)) then (some 1, some 3)
            else (some 2, some 0)) := by
  unfold assignEdgeHandles
  rw [List.getElem?_map, he, Option.map_some', Option.map_some']
  simp only [hs, ht]
  by_cases hb : edgeKey e.source e.target ∈ back
  · rw [if_pos hb, if_pos hb]
  · rw [if_neg hb, if_neg hb]
    cases o <;> split_ifs <;> rfl

end RunDestructuring

section SigCongruence

/-- Graph building reads only the sources and targets of the edges, which
`edgeSig` determines. -/
theorem addEdges_sig_congr : ∀ (es es' : List Edge) (g : Graph),
    es.map edgeSig = es'.map edgeSig → addEdges g es = addEdges g es' := by
  intro es
  induction es with
  | nil =>
    intro es' g h
    cases es' with
    | nil => rfl
    | cons e' t' => simp at h
  | cons e t ih =>
    intro es' g h
    cases es' with
    | nil => simp at h
    | cons e' t' =>
      simp only [List.map_cons, List.cons.injEq] at h
      obtain ⟨hsg, hrest⟩ := h
      have hsrc : e.source = e'.source := congrArg (fun p => p.2.1) hsg
      have htgt : e.target = e'.target := congrArg (fun p => p.2.2.1) hsg
      unfold addEdges
      rw [hsrc, htgt]
      cases hg : g.adj.get e'.source with
      | none => rfl
      | some l =>
        simp only [hg]
        cases hg2 : g.revAdj.get e'.target with
        | none => rfl
        | some l2 =>
          simp only [hg2]
          exact ih t' _ hrest

/-- The whole build phase (adjacency, DFS, removal) reads only the edge
sources and targets. -/
theorem builtGraph_sig_congr (nodes : List Node) (edges edges' : List Edge)
    (h : edges.map edgeSig = edges'.map edgeSig) :
    builtGraph nodes edges = builtGraph nodes edges' := by
  unfold builtGraph findAndHandleCycles
  rw [addEdges_sig_congr edges edges' (initGraph nodes) h]

end SigCongruence

section RowGeometry

/-- Dimension sums have positive denominators when the selected
dimensions do. -/
theorem sumSel_wf (nm : MapF Node) (sel : Node → JNum)
    (hsel : ∀ id nd, nm.get id = some nd → 0 < (sel nd).den) :
    ∀ (layer : List Str) (s : JNum), sumSel nm sel layer = some s →
      0 < s.den := by
  intro layer
  induction layer with
  | nil =>
    intro s h
    cases h
    exact Nat.one_pos
  | cons id rest ih =>
    intro s h
    unfold sumSel at h
    cases hget : nm.get id with
    | none => simp only [hget] at h; cases h
    | some nd =>
      simp only [hget] at h
      cases hrec : sumSel nm sel rest with
      | none => simp only [hrec] at h; cases h
      | some s2 =>
        simp only [hrec] at h
        cases h
        exact den_jadd (hsel id nd hget) (ih s2 hrec)

/-- Layer extents have positive denominators when the dimensions and gap
do. -/
theorem layerExtent_wf (nm : MapF Node) (sel : Node → JNum) (gap : JNum)
    (hsel : ∀ id nd, nm.get id = some nd → 0 < (sel nd).den)
    (hgap : 0 < gap.den) :
    ∀ (layer : List Str) (s : JNum), layerExtent nm sel gap layer = some s →
      0 < s.den := by
  intro layer s h
  unfold layerExtent at h
  cases hsum : sumSel nm sel layer with
  | none => simp only [hsum] at h; cases h
  | some s2 =>
    simp only [hsum] at h
    cases h
    exact den_jadd (sumSel_wf nm sel hsel layer s2 hsum)
      (den_jmul (den_jsub (den_jofNat _) (den_jofNat 1)) hgap)

/-- All extents computed by `mapM` have positive denominators. -/
theorem mapM_extent_wf (nm : MapF Node) (sel : Node → JNum) (gap : JNum)
    (hsel : ∀ id nd, nm.get id = some nd → 0 < (sel nd).den)
    (hgap : 0 < gap.den) :
    ∀ (layers : List (List Str)) (hs : List JNum),
      layers.mapM (layerExtent nm sel gap) = some hs →
      ∀ x ∈ hs, 0 < x.den := by
  intro layers
  induction layers with
  | nil =>
    intro hs h x hx
    cases h
    exact absurd hx (List.not_mem_nil _)
  | cons layer rest ih =>
    intro hs h x hx
    rw [List.mapM_cons] at h
    cases hext : layerExtent nm sel gap layer with
    | none => simp only [hext] at h; cases h
    | some v =>
      rw [hext] at h
      cases hrec : rest.mapM (layerExtent nm sel gap) with
      | none => simp only [hrec] at h; cases h
      | some vs =>
        simp only [hrec] at h
        cases h
        rcases List.mem_cons.1 hx with rfl | hx
        · exact layerExtent_wf nm sel gap hsel hgap layer x hext
        · exact ih vs hrec x hx

/-- The maximum of a list of well-formed numbers is well-formed. -/
theorem jmaxList_wf (l : List JNum) (h : ∀ x ∈ l, 0 < x.den) :
    0 < (jmaxList l).den := by
  cases l with
  | nil => exact Nat.one_pos
  | cons a t =>
    unfold jmaxList
    have aux : ∀ (t : List JNum) (a : JNum), 0 < a.den → (∀ x ∈ t, 0 < x.den) →
        0 < (t.foldl jmax a).den := by
      intro t
      induction t with
      | nil => intro a ha _; exact ha
      | cons b t2 ih =>
        intro a ha hb
        exact ih _ (den_jmax ha (hb b (List.mem_cons_self _ _)))
          (fun x hx => hb x (List.mem_cons_of_mem _ hx))
    exact aux t a (h a (List.mem_cons_self _ _))
      (fun x hx => h x (List.mem_cons_of_mem _ hx))

/-- Geometry of one placed horizontal row: the first node sits at the
start offset, every node records a well-formed nonnegative height and a
well-formed `y`, and consecutive nodes are separated by exactly
`height + 120`. -/
theorem placeRowH_geometry (nm : MapF Node) (x : JNum)
    (hh : ∀ id nd, nm.get id = some nd →
      0 < nd.height.den ∧ 0 ≤ nd.height.toRat) :
    ∀ (layer : List Str) (y mw : JNum) (out : List Node) (mw2 : JNum),
      0 < y.den → placeRowH nm x layer y mw = some (out, mw2) →
      (∀ n0, out.head? = some n0 → n0.position.y = y) ∧
      (∀ n ∈ out, 0 < n.height.den ∧ 0 ≤ n.height.toRat ∧
        0 < n.position.y.den) ∧
      List.Chain' (fun a b =>
        b.position.y.toRat = a.position.y.toRat + a.height.toRat + 120) out := by
  intro layer
  induction layer with
  | nil =>
    intro y mw out mw2 hy h
    unfold placeRowH at h
    cases h
    refine ⟨?_, ?_, ?_⟩
    · intro n0 h0; cases h0
    · intro n hn; exact absurd hn (List.not_mem_nil _)
    · exact List.chain'_nil
  | cons id rest ih =>
    intro y mw out mw2 hy h
    unfold placeRowH at h
    cases hget : nm.get id with
    | none => simp only [hget] at h; cases h
    | some nd =>
      simp only [hget] at h
      cases hrec : placeRowH nm x rest (jadd y (jadd nd.height Y_GAP))
          (if jlt mw nd.width then nd.width else mw) with
      | none => simp only [hrec] at h; cases h
      | some rm =>
        simp only [hrec] at h
        cases h
        have hhd := hh id nd hget
        have hy2 : 0 < (jadd y (jadd nd.height Y_GAP)).den :=
          den_jadd hy (den_jadd hhd.1 (den_jofNat 120))
        obtain ⟨ihead, imem, ichain⟩ := ih _ _ _ _ hy2 hrec
        refine ⟨fun n0 h0 => by cases h0; rfl, ?_, ?_⟩
        · intro n hn
          rcases List.mem_cons.1 hn with rfl | hn
          · exact ⟨hhd.1, hhd.2, hy⟩
          · exact imem n hn
        · refine List.Chain'.cons' ichain ?_
          intro b hb
          have hb2 := ihead b hb
          have : b.position.y.toRat = y.toRat + (nd.height.toRat + 120) := by
            rw [hb2]
            show (jadd y (jadd nd.height (jofNat 120))).toRat = _
            rw [toRat_jadd hy (den_jadd hhd.1 (den_jofNat 120))]
            rw [toRat_jadd hhd.1 (den_jofNat 120)]
            rw [toRat_jofNat]
            norm_num
          rw [this]
          show y.toRat + (nd.height.toRat + 120) = y.toRat + nd.height.toRat + 120
          ring

/-- Vertical analogue of `placeRowH_geometry`. -/
theorem placeRowV_geometry (nm : MapF Node) (y : JNum)
    (hh : ∀ id nd, nm.get id = some nd →
      0 < nd.width.den ∧ 0 ≤ nd.width.toRat) :
    ∀ (layer : List Str) (x mh : JNum) (out : List Node) (mh2 : JNum),
      0 < x.den → placeRowV nm y layer x mh = some (out, mh2) →
      (∀ n0, out.head? = some n0 → n0.position.x = x) ∧
      (∀ n ∈ out, 0 < n.width.den ∧ 0 ≤ n.width.toRat ∧
        0 < n.position.x.den) ∧
      List.Chain' (fun a b =>
        b.position.x.toRat = a.position.x.toRat + a.width.toRat + 200) out := by
  intro layer
  induction layer with
  | nil =>
    intro x mh out mh2 hx h
    unfold placeRowV at h
    cases h
    refine ⟨?_, ?_, ?_⟩
    · intro n0 h0; cases h0
    · intro n hn; exact absurd hn (List.not_mem_nil _)
    · exact List.chain'_nil
  | cons id rest ih =>
    intro x mh out mh2 hx h
    unfold placeRowV at h
    cases hget : nm.get id with
    | none => simp only [hget] at h; cases h
    | some nd =>
      simp only [hget] at h
      cases hrec : placeRowV nm y rest (jadd x (jadd nd.width X_GAP))
          (if jlt mh nd.height then nd.height else mh) with
      | none => simp only [hrec] at h; cases h
      | some rm =>
        simp only [hrec] at h
        cases h
        have hhd := hh id nd hget
        have hx2 : 0 < (jadd x (jadd nd.width X_GAP)).den :=
          den_jadd hx (den_jadd hhd.1 (den_jofNat 200))
        obtain ⟨ihead, imem, ichain⟩ := ih _ _ _ _ hx2 hrec
        refine ⟨fun n0 h0 => by cases h0; rfl, ?_, ?_⟩
        · intro n hn
          rcases List.mem_cons.1 hn with rfl | hn
          · exact ⟨hhd.1, hhd.2, hx⟩
          · exact imem n hn
        · refine List.Chain'.cons' ichain ?_
          intro b hb
          have hb2 := ihead b hb
          have : b.position.x.toRat = x.toRat + (nd.width.toRat + 200) := by
            rw [hb2]
            show (jadd x (jadd nd.width (jofNat 200))).toRat = _
            rw [toRat_jadd hx (den_jadd hhd.1 (den_jofNat 200))]
            rw [toRat_jadd hhd.1 (den_jofNat 200)]
            rw [toRat_jofNat]
            norm_num
          rw [this]
          show x.toRat + (nd.width.toRat + 200) = x.toRat + nd.width.toRat + 200
          ring

/-- A row whose consecutive nodes are exactly `size + gap` apart (with
`gap` positive and sizes nonnegative) has strictly separated, pairwise
non-overlapping boxes along the stacking axis. -/
theorem chain_gap_pairwise (pos size : Node → ℚ) (gap : ℚ) (hgap : 0 < gap) :
    ∀ (row : List Node),
      (∀ n ∈ row, 0 ≤ size n) →
      List.Chain' (fun a b => pos b = pos a + size a + gap) row →
      row.Pairwise (fun a b => pos a + size a < pos b) := by
  have aux : ∀ (row : List Node) (a : Node),
      (∀ n ∈ a :: row, 0 ≤ size n) →
      List.Chain' (fun a b => pos b = pos a + size a + gap) (a :: row) →
      ∀ b ∈ row, pos a + size a + gap ≤ pos b := by
    intro row
    induction row with
    | nil => intro a _ _ b hb; exact absurd hb (List.not_mem_nil _)
    | cons b t ih =>
      intro a hnn hc c hc2
      have hab : pos b = pos a + size a + gap := (List.chain'_cons.1 hc).1
      rcases List.mem_cons.1 hc2 with rfl | hc2
      · rw [hab]
      · have hbc := ih b (fun n hn => hnn n (List.mem_cons_of_mem _ hn))
          (List.chain'_cons.1 hc).2 c hc2
        have hb0 : 0 ≤ size b := hnn b (List.mem_cons_of_mem _ (List.mem_cons_self _ _))
        calc pos a + size a + gap = pos b := hab.symm
          _ ≤ pos b + size b + gap := by linarith
          _ ≤ pos c := hbc
  intro row
  induction row with
  | nil => intro _ _; exact List.Pairwise.nil
  | cons a t ih =>
    intro hnn hc
    refine List.Pairwise.cons ?_ (ih (fun n hn => hnn n (List.mem_cons_of_mem _ hn))
      (List.chain'_cons'.1 hc).2)
    intro b hb
    have := aux t a hnn hc b hb
    linarith

/-- A `JNum` with nonnegative numerator interprets nonnegatively. -/
theorem toRat_nonneg {a : JNum} (h : 0 ≤ a.num) : 0 ≤ a.toRat := by
  unfold JNum.toRat
  apply div_nonneg
  · exact_mod_cast h
  · exact_mod_cast Nat.zero_le a.den

/-- The horizontal coordinate fold emits one geometric row per layer: the
output is the concatenation of one block per layer, and within each block
consecutive nodes sit exactly `height + 120` apart on `y`, with all pairs
strictly separated. -/
theorem coordFoldH_rows (nm : MapF Node) (maxH : JNum)
    (hh : ∀ id nd, nm.get id = some nd →
      0 < nd.height.den ∧ 0 ≤ nd.height.toRat)
    (hmax : 0 < maxH.den) :
    ∀ (layers : List (List Str)) (curX : JNum) (out : List Node),
      coordFoldH nm maxH layers curX = some out →
      ∃ rows : List (List Node), out = rows.flatten ∧
        rows.length = layers.length ∧
        ∀ row ∈ rows,
          List.Chain' (fun a b =>
            b.position.y.toRat = a.position.y.toRat + a.height.toRat + 120) row ∧
          row.Pairwise (fun a b =>
            a.position.y.toRat + a.height.toRat < b.position.y.toRat) := by
  intro layers
  induction layers with
  | nil =>
    intro curX out h
    unfold coordFoldH at h
    cases h
    exact ⟨[], rfl, rfl, fun row hr => absurd hr (List.not_mem_nil _)⟩
  | cons layer rest ih =>
    intro curX out h
    unfold coordFoldH at h
    cases hext : layerExtent nm (fun n => n.height) Y_GAP layer with
    | none => simp only [hext] at h; cases h
    | some lh =>
      simp only [hext] at h
      cases hrow : placeRowH nm curX layer
          (jadd (jhalf (jsub maxH lh)) (jofNat 50)) (jofNat 0) with
      | none => simp only [hrow] at h; cases h
      | some rm =>
        simp only [hrow] at h
        cases hrec : coordFoldH nm maxH rest (jadd curX (jadd rm.2 X_GAP)) with
        | none => simp only [hrec] at h; cases h
        | some out2 =>
          simp only [hrec] at h
          cases h
          have hlh : 0 < lh.den := layerExtent_wf nm _ Y_GAP
            (fun id nd hg => (hh id nd hg).1) (den_jofNat 120) layer lh hext
          have hy0 : 0 < (jadd (jhalf (jsub maxH lh)) (jofNat 50)).den :=
            den_jadd (den_jhalf (den_jsub hmax hlh)) (den_jofNat 50)
          obtain ⟨_, hmem, hchain⟩ :=
            placeRowH_geometry nm curX hh layer _ _ _ _ hy0 hrow
          obtain ⟨rows, hjoin, hlen, hrows⟩ := ih _ _ hrec
          refine ⟨rm.1 :: rows, by rw [List.flatten_cons, hjoin], by simp [hlen], ?_⟩
          intro row hr
          rcases List.mem_cons.1 hr with rfl | hr
          · refine ⟨hchain, ?_⟩
            exact chain_gap_pairwise (fun n => n.position.y.toRat)
              (fun n => n.height.toRat) 120 (by norm_num) rm.1
              (fun n hn => (hmem n hn).2.1) hchain
          · exact hrows row hr

/-- Vertical analogue of `coordFoldH_rows`: within each block consecutive
nodes sit exactly `width + 200` apart on `x`. -/
theorem coordFoldV_rows (nm : MapF Node) (maxW : JNum)
    (hw : ∀ id nd, nm.get id = some nd →
      0 < nd.width.den ∧ 0 ≤ nd.width.toRat)
    (hmax : 0 < maxW.den) :
    ∀ (layers : List (List Str)) (curY : JNum) (out : List Node),
      coordFoldV nm maxW layers curY = some out →
      ∃ rows : List (List Node), out = rows.flatten ∧
        rows.length = layers.length ∧
        ∀ row ∈ rows,
          List.Chain' (fun a b =>
            b.position.x.toRat = a.position.x.toRat + a.width.toRat + 200) row ∧
          row.Pairwise (fun a b =>
            a.position.x.toRat + a.width.toRat < b.position.x.toRat) := by
  intro layers
  induction layers with
  | nil =>
    intro curY out h
    unfold coordFoldV at h
    cases h
    exact ⟨[], rfl, rfl, fun row hr => absurd hr (List.not_mem_nil _)⟩
  | cons layer rest ih =>
    intro curY out h
    unfold coordFoldV at h
    cases hext : layerExtent nm (fun n => n.width) X_GAP layer with
    | none => simp only [hext] at h; cases h
    | some lw =>
      simp only [hext] at h
      cases hrow : placeRowV nm curY layer
          (jadd (jhalf (jsub maxW lw)) (jofNat 50)) (jofNat 0) with
      | none => simp only [hrow] at h; cases h
      | some rm =>
        simp only [hrow] at h
        cases hrec : coordFoldV nm maxW rest (jadd curY (jadd rm.2 Y_GAP)) with
        | none => simp only [hrec] at h; cases h
        | some out2 =>
          simp only [hrec] at h
          cases h
          have hlw : 0 < lw.den := layerExtent_wf nm _ X_GAP
            (fun id nd hg => (hw id nd hg).1) (den_jofNat 200) layer lw hext
          have hx0 : 0 < (jadd (jhalf (jsub maxW lw)) (jofNat 50)).den :=
            den_jadd (den_jhalf (den_jsub hmax hlw)) (den_jofNat 50)
          obtain ⟨_, hmem, hchain⟩ :=
            placeRowV_geometry nm curY hw layer _ _ _ _ hx0 hrow
          obtain ⟨rows, hjoin, hlen, hrows⟩ := ih _ _ hrec
          refine ⟨rm.1 :: rows, by rw [List.flatten_cons, hjoin], by simp [hlen], ?_⟩
          intro row hr
          rcases List.mem_cons.1 hr with rfl | hr
          · refine ⟨hchain, ?_⟩
            exact chain_gap_pairwise (fun n => n.position.x.toRat)
              (fun n => n.width.toRat) 200 (by norm_num) rm.1
              (fun n hn => (hmem n hn).2.1) hchain
          · exact hrows row hr

end RowGeometry

section AxisGeometry

/-- Every node of one horizontal row is emitted at the row's `x`. -/
theorem placeRowH_axis (nm : MapF Node) (x : JNum) :
    ∀ (layer : List Str) (y mw : JNum) (out : List Node) (mw2 : JNum),
      placeRowH nm x layer y mw = some (out, mw2) →
      ∀ n ∈ out, n.position.x = x := by
  intro layer
  induction layer with
  | nil =>
    intro y mw out mw2 h n hn
    unfold placeRowH at h
    cases h
    exact absurd hn (List.not_mem_nil _)
  | cons id rest ih =>
    intro y mw out mw2 h n hn
    unfold placeRowH at h
    cases hget : nm.get id with
    | none => simp only [hget] at h; cases h
    | some nd =>
      simp only [hget] at h
      cases hrec : placeRowH nm x rest (jadd y (jadd nd.height Y_GAP))
          (if jlt mw nd.width then nd.width else mw) with
      | none => simp only [hrec] at h; cases h
      | some rm =>
        simp only [hrec] at h
        cases h
        rcases List.mem_cons.1 hn with rfl | hn2
        · rfl
        · exact ih _ _ _ _ hrec n hn2

/-- Every node of one vertical row is emitted at the row's `y`. -/
theorem placeRowV_axis (nm : MapF Node) (y : JNum) :
    ∀ (layer : List Str) (x mh : JNum) (out : List Node) (mh2 : JNum),
      placeRowV nm y layer x mh = some (out, mh2) →
      ∀ n ∈ out, n.position.y = y := by
  intro layer
  induction layer with
  | nil =>
    intro x mh out mh2 h n hn
    unfold placeRowV at h
    cases h
    exact absurd hn (List.not_mem_nil _)
  | cons id rest ih =>
    intro x mh out mh2 h n hn
    unfold placeRowV at h
    cases hget : nm.get id with
    | none => simp only [hget] at h; cases h
    | some nd =>
      simp only [hget] at h
      cases hrec : placeRowV nm y rest (jadd x (jadd nd.width X_GAP))
          (if jlt mh nd.height then nd.height else mh) with
      | none => simp only [hrec] at h; cases h
      | some rm =>
        simp only [hrec] at h
        cases h
        rcases List.mem_cons.1 hn with rfl | hn2
        · rfl
        · exact ih _ _ _ _ hrec n hn2

/-- The running maximum width of a horizontal row stays well-formed and
nonnegative. -/
theorem placeRowH_maxw (nm : MapF Node) (x : JNum)
    (hw : ∀ id nd, nm.get id = some nd → 0 < nd.width.den) :
    ∀ (layer : List Str) (y mw : JNum) (out : List Node) (mw2 : JNum),
      0 < mw.den → 0 ≤ mw.toRat →
      placeRowH nm x layer y mw = some (out, mw2) →
      0 < mw2.den ∧ 0 ≤ mw2.toRat := by
  intro layer
  induction layer with
  | nil =>
    intro y mw out mw2 h1 h2 h
    unfold placeRowH at h
    cases h
    exact ⟨h1, h2⟩
  | cons id rest ih =>
    intro y mw out mw2 h1 h2 h
    unfold placeRowH at h
    cases hget : nm.get id with
    | none => simp only [hget] at h; cases h
    | some nd =>
      simp only [hget] at h
      cases hrec : placeRowH nm x rest (jadd y (jadd nd.height Y_GAP))
          (if jlt mw nd.width then nd.width else mw) with
      | none => simp only [hrec] at h; cases h
      | some rm =>
        simp only [hrec] at h
        cases h
        have hwd := hw id nd hget
        by_cases hlt : jlt mw nd.width = true
        · rw [if_pos hlt] at hrec
          have hlt2 : mw.toRat < nd.width.toRat := (jlt_iff h1 hwd).1 hlt
          exact ih _ _ _ _ hwd (le_of_lt (lt_of_le_of_lt h2 hlt2)) hrec
        · rw [if_neg hlt] at hrec
          exact ih _ _ _ _ h1 h2 hrec

/-- The running maximum height of a vertical row stays well-formed and
nonnegative. -/
theorem placeRowV_maxh (nm : MapF Node) (y : JNum)
    (hh : ∀ id nd, nm.get id = some nd → 0 < nd.height.den) :
    ∀ (layer : List Str) (x mh : JNum) (out : List Node) (mh2 : JNum),
      0 < mh.den → 0 ≤ mh.toRat →
      placeRowV nm y layer x mh = some (out, mh2) →
      0 < mh2.den ∧ 0 ≤ mh2.toRat := by
  intro layer
  induction layer with
  | nil =>
    intro x mh out mh2 h1 h2 h
    unfold placeRowV at h
    cases h
    exact ⟨h1, h2⟩
  | cons id rest ih =>
    intro x mh out mh2 h1 h2 h
    unfold placeRowV at h
    cases hget : nm.get id with
    | none => simp only [hget] at h; cases h
    | some nd =>
      simp only [hget] at h
      cases hrec : placeRowV nm y rest (jadd x (jadd nd.width X_GAP))
          (if jlt mh nd.height then nd.height else mh) with
      | none => simp only [hrec] at h; cases h
      | some rm =>
        simp only [hrec] at h
        cases h
        have hhd := hh id nd hget
        by_cases hlt : jlt mh nd.height = true
        · rw [if_pos hlt] at hrec
          have hlt2 : mh.toRat < nd.height.toRat := (jlt_iff h1 hhd).1 hlt
          exact ih _ _ _ _ hhd (le_of_lt (lt_of_le_of_lt h2 hlt2)) hrec
        · rw [if_neg hlt] at hrec
          exact ih _ _ _ _ h1 h2 hrec

/-- The horizontal fold emits its layers as blocks with per-layer-constant
`x`, strictly increasing from layer to layer, and every placed node's id
comes from its block's layer. -/
theorem coordFoldH_axis (nm : MapF Node) (maxH : JNum) (hk : IdKeyed nm)
    (hw : ∀ id nd, nm.get id = some nd → 0 < nd.width.den) :
    ∀ (layers : List (List Str)) (curX : JNum) (out : List Node),
      0 < curX.den →
      coordFoldH nm maxH layers curX = some out →
      (∀ n ∈ out, 0 < n.position.x.den ∧
        curX.toRat ≤ n.position.x.toRat) ∧
      ∃ rows : List (List Node), out = rows.flatten ∧
        rows.length = layers.length ∧
        (∀ k n, n ∈ rows.getD k [] → n.id ∈ layers.getD k []) ∧
        (∀ k1 k2 n1 n2, k1 < k2 → n1 ∈ rows.getD k1 [] →
          n2 ∈ rows.getD k2 [] →
          n1.position.x.toRat < n2.position.x.toRat) := by
  intro layers
  induction layers with
  | nil =>
    intro curX out hcx h
    unfold coordFoldH at h
    cases h
    refine ⟨fun n hn => absurd hn (List.not_mem_nil _), [], rfl, rfl, ?_, ?_⟩
    · intro k n hn
      cases k <;> exact absurd hn (List.not_mem_nil _)
    · intro k1 k2 n1 n2 _ hn1 _
      cases k1 <;> exact absurd hn1 (List.not_mem_nil _)
  | cons layer rest ih =>
    intro curX out hcx h
    unfold coordFoldH at h
    cases hext : layerExtent nm (fun n => n.height) Y_GAP layer with
    | none => simp only [hext] at h; cases h
    | some lh =>
      simp only [hext] at h
      cases hrow : placeRowH nm curX layer
          (jadd (jhalf (jsub maxH lh)) (jofNat 50)) (jofNat 0) with
      | none => simp only [hrow] at h; cases h
      | some rm =>
        simp only [hrow] at h
        cases hrec : coordFoldH nm maxH rest (jadd curX (jadd rm.2 X_GAP)) with
        | none => simp only [hrec] at h; cases h
        | some out2 =>
          simp only [hrec] at h
          cases h
          have hmw2 := placeRowH_maxw nm curX hw layer _ _ _ _
            (den_jofNat 0) (by rw [toRat_jofNat]; norm_num) hrow
          have hcx2 : 0 < (jadd curX (jadd rm.2 X_GAP)).den :=
            den_jadd hcx (den_jadd hmw2.1 (den_jofNat 200))
          have hxeq : (jadd curX (jadd rm.2 X_GAP)).toRat =
              curX.toRat + rm.2.toRat + 200 := by
            show (jadd curX (jadd rm.2 (jofNat 200))).toRat = _
            rw [toRat_jadd hcx (den_jadd hmw2.1 (den_jofNat 200)),
              toRat_jadd hmw2.1 (den_jofNat 200), toRat_jofNat]
            push_cast
            ring
          have hstep : curX.toRat < (jadd curX (jadd rm.2 X_GAP)).toRat := by
            rw [hxeq]
            have := hmw2.2
            linarith
          obtain ⟨hbound2, rows, hjoin, hlen, hid2, hmono2⟩ :=
            ih _ _ hcx2 hrec
          have hax := placeRowH_axis nm curX layer _ _ _ _ hrow
          refine ⟨?_, rm.1 :: rows, by rw [List.flatten_cons, hjoin],
            by simp [hlen], ?_, ?_⟩
          · intro n hn
            rcases List.mem_append.1 hn with hn2 | hn2
            · rw [hax n hn2]
              exact ⟨hcx, le_refl _⟩
            · obtain ⟨hd2, hb2⟩ := hbound2 n hn2
              exact ⟨hd2, le_trans (le_of_lt hstep) hb2⟩
          · intro k n hn
            cases k with
            | zero =>
              obtain ⟨id, hid, nd, hnd, hnid⟩ :=
                placeRowH_mem nm curX layer _ _ _ _ hrow n hn
              have : nd.id = id := hk id nd hnd
              show n.id ∈ layer
              rw [hnid, this]
              exact hid
            | succ k2 => exact hid2 k2 n hn
          · intro k1 k2 n1 n2 hk12 hn1 hn2
            cases k1 with
            | zero =>
              cases k2 with
              | zero => exact absurd hk12 (Nat.lt_irrefl _)
              | succ k22 =>
                have hx1 : n1.position.x = curX := hax n1 hn1
                have hn2f : n2 ∈ out2 := by
                  rw [hjoin]
                  exact mem_getD_flatten rows k22 n2 hn2
                obtain ⟨_, hb2⟩ := hbound2 n2 hn2f
                rw [hx1]
                exact lt_of_lt_of_le hstep hb2
            | succ k12 =>
              cases k2 with
              | zero => exact absurd hk12 (by omega)
              | succ k22 =>
                exact hmono2 k12 k22 n1 n2 (by omega) hn1 hn2

/-- Vertical analogue of `coordFoldH_axis`: per-layer-constant `y`,
strictly increasing from layer to layer. -/
theorem coordFoldV_axis (nm : MapF Node) (maxW : JNum) (hk : IdKeyed nm)
    (hh : ∀ id nd, nm.get id = some nd → 0 < nd.height.den) :
    ∀ (layers : List (List Str)) (curY : JNum) (out : List Node),
      0 < curY.den →
      coordFoldV nm maxW layers curY = some out →
      (∀ n ∈ out, 0 < n.position.y.den ∧
        curY.toRat ≤ n.position.y.toRat) ∧
      ∃ rows : List (List Node), out = rows.flatten ∧
        rows.length = layers.length ∧
        (∀ k n, n ∈ rows.getD k [] → n.id ∈ layers.getD k []) ∧
        (∀ k1 k2 n1 n2, k1 < k2 → n1 ∈ rows.getD k1 [] →
          n2 ∈ rows.getD k2 [] →
          n1.position.y.toRat < n2.position.y.toRat) := by
  intro layers
  induction layers with
  | nil =>
    intro curY out hcy h
    unfold coordFoldV at h
    cases h
    refine ⟨fun n hn => absurd hn (List.not_mem_nil _), [], rfl, rfl, ?_, ?_⟩
    · intro k n hn
      cases k <;> exact absurd hn (List.not_mem_nil _)
    · intro k1 k2 n1 n2 _ hn1 _
      cases k1 <;> exact absurd hn1 (List.not_mem_nil _)
  | cons layer rest ih =>
    intro curY out hcy h
    unfold coordFoldV at h
    cases hext : layerExtent nm (fun n => n.width) X_GAP layer with
    | none => simp only [hext] at h; cases h
    | some lw =>
      simp only [hext] at h
      cases hrow : placeRowV nm curY layer
          (jadd (jhalf (jsub maxW lw)) (jofNat 50)) (jofNat 0) with
      | none => simp only [hrow] at h; cases h
      | some rm =>
        simp only [hrow] at h
        cases hrec : coordFoldV nm maxW rest (jadd curY (jadd rm.2 Y_GAP)) with
        | none => simp only [hrec] at h; cases h
        | some out2 =>
          simp only [hrec] at h
          cases h
          have hmh2 := placeRowV_maxh nm curY hh layer _ _ _ _
            (den_jofNat 0) (by rw [toRat_jofNat]; norm_num) hrow
          have hcy2 : 0 < (jadd curY (jadd rm.2 Y_GAP)).den :=
            den_jadd hcy (den_jadd hmh2.1 (den_jofNat 120))
          have hyeq : (jadd curY (jadd rm.2 Y_GAP)).toRat =
              curY.toRat + rm.2.toRat + 120 := by
            show (jadd curY (jadd rm.2 (jofNat 120))).toRat = _
            rw [toRat_jadd hcy (den_jadd hmh2.1 (den_jofNat 120)),
              toRat_jadd hmh2.1 (den_jofNat 120), toRat_jofNat]
            push_cast
            ring
          have hstep : curY.toRat < (jadd curY (jadd rm.2 Y_GAP)).toRat := by
            rw [hyeq]
            have := hmh2.2
            linarith
          obtain ⟨hbound2, rows, hjoin, hlen, hid2, hmono2⟩ :=
            ih _ _ hcy2 hrec
          have hax := placeRowV_axis nm curY layer _ _ _ _ hrow
          refine ⟨?_, rm.1 :: rows, by rw [List.flatten_cons, hjoin],
            by simp [hlen], ?_, ?_⟩
          · intro n hn
            rcases List.mem_append.1 hn with hn2 | hn2
            · rw [hax n hn2]
              exact ⟨hcy, le_refl _⟩
            · obtain ⟨hd2, hb2⟩ := hbound2 n hn2
              exact ⟨hd2, le_trans (le_of_lt hstep) hb2⟩
          · intro k n hn
            cases k with
            | zero =>
              obtain ⟨id, hid, nd, hnd, hnid⟩ :=
                placeRowV_mem nm curY layer _ _ _ _ hrow n hn
              have : nd.id = id := hk id nd hnd
              show n.id ∈ layer
              rw [hnid, this]
              exact hid
            | succ k2 => exact hid2 k2 n hn
          · intro k1 k2 n1 n2 hk12 hn1 hn2
            cases k1 with
            | zero =>
              cases k2 with
              | zero => exact absurd hk12 (Nat.lt_irrefl _)
              | succ k22 =>
                have hy1 : n1.position.y = curY := hax n1 hn1
                have hn2f : n2 ∈ out2 := by
                  rw [hjoin]
                  exact mem_getD_flatten rows k22 n2 hn2
                obtain ⟨_, hb2⟩ := hbound2 n2 hn2f
                rw [hy1]
                exact lt_of_lt_of_le hstep hb2
            | succ k12 =>
              cases k2 with
              | zero => exact absurd hk12 (by omega)
              | succ k22 =>
                exact hmono2 k12 k22 n1 n2 (by omega) hn1 hn2

/-- `assignCoordinates` places layers as blocks whose layer-axis
coordinate strictly increases from layer to layer. -/
theorem assignCoordinates_axis (layers : List (List Str)) (nm : MapF Node)
    (o : Orientation) (out : List Node) (hk : IdKeyed nm)
    (hd : ∀ id nd, nm.get id = some nd →
      0 < nd.width.den ∧ 0 < nd.height.den)
    (h : assignCoordinates layers nm o = some out) :
    ∃ rows : List (List Node), out = rows.flatten ∧
      rows.length = layers.length ∧
      (∀ k n, n ∈ rows.getD k [] → n.id ∈ layers.getD k []) ∧
      ∀ k1 k2 n1 n2, k1 < k2 → n1 ∈ rows.getD k1 [] →
        n2 ∈ rows.getD k2 [] →
        (axisCoord o n1).toRat < (axisCoord o n2).toRat := by
  unfold assignCoordinates at h
  cases o with
  | horizontal =>
    cases hm : layers.mapM (layerExtent nm (fun n => n.height) Y_GAP) with
    | none => simp only [hm] at h; cases h
    | some hs =>
      simp only [hm] at h
      obtain ⟨_, rows, hjoin, hlen, hid, hmono⟩ := coordFoldH_axis nm
        (jmaxList hs) hk (fun id nd hg => (hd id nd hg).1) layers
        (jofNat 50) out (den_jofNat 50) h
      exact ⟨rows, hjoin, hlen, hid, hmono⟩
  | vertical =>
    cases hm : layers.mapM (layerExtent nm (fun n => n.width) X_GAP) with
    | none => simp only [hm] at h; cases h
    | some ws =>
      simp only [hm] at h
      obtain ⟨_, rows, hjoin, hlen, hid, hmono⟩ := coordFoldV_axis nm
        (jmaxList ws) hk (fun id nd hg => (hd id nd hg).2) layers
        (jofNat 50) out (den_jofNat 50) h
      exact ⟨rows, hjoin, hlen, hid, hmono⟩

end AxisGeometry

section VedgeProvenance

/-- The last endpoint of a nonempty dummy chain is a dummy id. -/
theorem addChainGo_snd (u v : Str) :
    ∀ (is : List Nat) (s : VG × Str), is ≠ [] →
      ∃ i, (addChainGo u v is s).2 = dummyId u v i := by
  intro is
  induction is with
  | nil => intro s h; exact absurd rfl h
  | cons i t ih =>
    intro s _
    by_cases ht : t = []
    · subst ht
      exact ⟨i, rfl⟩
    · exact ih _ ht

/-- Every virtual edge produced by a chain loop is harmless: its target
is a dummy id. -/
theorem addChainGo_vedges (adj : MapF (List Str)) (u v : Str) :
    ∀ (is : List Nat) (s : VG × Str),
      (∀ ve ∈ s.1.vedges, ve.target ∈ adjL adj ve.source ∨
        dummyPre.isPrefixOf ve.target = true ∨
        dummyPre.isPrefixOf ve.source = true) →
      ∀ ve ∈ (addChainGo u v is s).1.vedges,
        ve.target ∈ adjL adj ve.source ∨
        dummyPre.isPrefixOf ve.target = true ∨
        dummyPre.isPrefixOf ve.source = true := by
  intro is
  induction is with
  | nil => intro s hs; exact hs
  | cons i t ih =>
    intro s hs
    refine ih _ ?_
    intro ve hve
    rcases List.mem_append.1 hve with hve | hve
    · exact hs ve hve
    · have hveq : ve = mkVirtEdge s.2 (dummyId u v i) := by simpa using hve
      right; left
      rw [hveq]
      exact dummyId_pre u v i

/-- Every virtual edge produced by one chain synthesis is an adjacency
pair or touches a dummy id. -/
theorem addChain_vedges (adj : MapF (List Str)) (st : VG) (u v : Str)
    (ul vl : Nat) (hgt : (vl : Int) - ul > 1)
    (hst : ∀ ve ∈ st.vedges, ve.target ∈ adjL adj ve.source ∨
      dummyPre.isPrefixOf ve.target = true ∨
      dummyPre.isPrefixOf ve.source = true) :
    ∀ ve ∈ (addChain st u v ul vl).vedges,
      ve.target ∈ adjL adj ve.source ∨
      dummyPre.isPrefixOf ve.target = true ∨
      dummyPre.isPrefixOf ve.source = true := by
  intro ve hve
  unfold addChain at hve
  rcases List.mem_append.1 hve with h2 | h2
  · exact addChainGo_vedges adj u v _ (st, u) hst ve h2
  · have hveq : ve = mkVirtEdge
        (addChainGo u v (List.range' (ul + 1) (vl - 1 - ul)) (st, u)).2 v := by
      simpa using h2
    have hne : List.range' (ul + 1) (vl - 1 - ul) ≠ [] := by
      intro hcon
      have hlen := congrArg List.length hcon
      rw [List.length_range'] at hlen
      simp at hlen
      omega
    obtain ⟨i, hi⟩ := addChainGo_snd u v _ (st, u) hne
    right; right
    rw [hveq]
    show dummyPre.isPrefixOf
      (addChainGo u v (List.range' (ul + 1) (vl - 1 - ul)) (st, u)).2 = true
    rw [hi]
    exact dummyId_pre u v i

/-- Every virtual edge produced by one successor sweep is an adjacency
pair or touches a dummy id. -/
theorem virtTargets_vedges (adj : MapF (List Str)) (lm : MapF Nat)
    (u : Str) :
    ∀ (vs : List Str) (st : VG),
      (∀ x ∈ vs, x ∈ adjL adj u) →
      (∀ ve ∈ st.vedges, ve.target ∈ adjL adj ve.source ∨
        dummyPre.isPrefixOf ve.target = true ∨
        dummyPre.isPrefixOf ve.source = true) →
      ∀ ve ∈ (virtTargets lm u vs st).vedges,
        ve.target ∈ adjL adj ve.source ∨
        dummyPre.isPrefixOf ve.target = true ∨
        dummyPre.isPrefixOf ve.source = true := by
  intro vs
  induction vs with
  | nil => intro st _ hs; exact hs
  | cons v t ih =>
    intro st hl hs
    unfold virtTargets
    refine ih _ (fun x hx => hl x (List.mem_cons_of_mem _ hx)) ?_
    have hpass : ∀ ve ∈ ({ st with
        vedges := st.vedges ++ [mkVirtEdge u v] } : VG).vedges,
        ve.target ∈ adjL adj ve.source ∨
        dummyPre.isPrefixOf ve.target = true ∨
        dummyPre.isPrefixOf ve.source = true := by
      intro ve hve
      rcases List.mem_append.1 hve with hve | hve
      · exact hs ve hve
      · have hveq : ve = mkVirtEdge u v := by simpa using hve
        left
        rw [hveq]
        exact hl v (List.mem_cons_self _ _)
    cases hu : lm.get u with
    | none => simp only [hu]; exact hpass
    | some ul =>
      cases hv : lm.get v with
      | none => simp only [hu, hv]; exact hpass
      | some vl =>
        simp only [hu, hv]
        by_cases hgt : (vl : Int) - ul > 1
        · rw [if_pos hgt]
          exact addChain_vedges adj st u v ul vl hgt hs
        · rw [if_neg hgt]
          exact hpass

/-- Every virtual edge produced by the worklist is an adjacency pair or
touches a dummy id. -/
theorem virtLoop_vedges (lm : MapF Nat) (adj : MapF (List Str)) :
    ∀ (fuel : Nat) (st : VG) (c k : Nat),
      (∀ ve ∈ st.vedges, ve.target ∈ adjL adj ve.source ∨
        dummyPre.isPrefixOf ve.target = true ∨
        dummyPre.isPrefixOf ve.source = true) →
      ∀ ve ∈ (virtLoop lm adj fuel st c k).vedges,
        ve.target ∈ adjL adj ve.source ∨
        dummyPre.isPrefixOf ve.target = true ∨
        dummyPre.isPrefixOf ve.source = true := by
  intro fuel
  induction fuel with
  | zero => intro st c k hs; exact hs
  | succ f ih =>
    intro st c k hs
    unfold virtLoop
    by_cases hc : c < st.layers.length
    · rw [if_pos hc]
      by_cases hk : k < (st.layers.getD c []).length
      · rw [if_pos hk]
        refine ih _ _ _ ?_
        unfold processVirt
        exact virtTargets_vedges adj lm _ _ st (fun x hx => hx) hs
      · rw [if_neg hk]
        exact ih _ _ _ hs
    · rw [if_neg hc]
      exact hs

/-- Every virtual edge of the virtual graph is a residual adjacency pair
or touches a dummy id. -/
theorem createVirtualGraph_vedges (layers : List (List Str))
    (adj : MapF (List Str)) (fuel : Nat) :
    ∀ ve ∈ (createVirtualGraph layers adj fuel).vedges,
      ve.target ∈ adjL adj ve.source ∨
      dummyPre.isPrefixOf ve.target = true ∨
      dummyPre.isPrefixOf ve.source = true := by
  unfold createVirtualGraph
  exact virtLoop_vedges _ _ fuel _ 0 0 (by intro ve hve; cases hve)

/-- A non-dummy id of a crossing-reduced layer was already in the input
layer of the same index. -/
theorem ordered_mem_layer (edges : List Edge) (g : Graph)
    (L : List (List Str)) (k : Nat) (x : Str)
    (hx : x ∈ (orderedOf (vgOf edges g L)).getD k [])
    (hnd : ¬ dummyPre.isPrefixOf x = true) :
    x ∈ L.getD k [] := by
  have hperm := reduceCrossingsIter_permByIndex 4 (vgOf edges g L).layers
    (vgOf edges g L).vedges
  have hx2 : x ∈ (vgOf edges g L).layers.getD k [] :=
    ((hperm.2 k).mem_iff).1 hx
  have hext := createVirtualGraph_layerExt L g.adj (virtFuel L edges.length)
  obtain ⟨ext, hexteq, hextp⟩ := hext.2 k
  unfold vgOf at hx2
  rw [hexteq] at hx2
  rcases List.mem_append.1 hx2 with h2 | h2
  · exact h2
  · exact absurd (hextp x h2) hnd

end VedgeProvenance

section RunAccessors

/-- On a successful build, the residual-adjacency accessor is the adjusted
adjacency map. -/
theorem residualAdj_eq (nodes : List Node) (edges : List Edge)
    (gb : Graph × List Str) (h : builtGraph nodes edges = some gb) :
    residualAdj nodes edges = gb.1.adj := by
  unfold residualAdj
  rw [h]

/-- On a successful build, the virtual-graph accessor is the virtual graph
of the run's layering. -/
theorem vgRun_eq (nodes : List Node) (edges : List Edge)
    (gb : Graph × List Str) (h : builtGraph nodes edges = some gb) :
    vgRun nodes edges = vgOf edges gb.1 (layersFor nodes edges gb) := by
  unfold vgRun
  rw [h]

end RunAccessors

/-- C2: the claim says `layout` never throws and skips dangling edges; but
on a node list `[A]` with a single edge `B→A` whose source id is absent,
`findAndHandleCycles` evaluates `adj.get('B')!.push(...)`, i.e. calls
`.push` on `undefined`, and the run throws a `TypeError` (modelled by
`none`) instead of returning a layout. -/
theorem C2_dangling_edge_throws :
    autoLayout [cNode ['A']] [cEdge ['1'] ['B'] ['A']] Orientation.horizontal
      = none := by decide

/-- C9: `layout` is deterministic — two calls with identical input (same
nodes in the same order, same edges in the same order, same orientation)
return identical outputs.  The embedding is a pure function (the only
implementation-sensitive step, `Array.prototype.sort`, is modelled by its
deterministic stable-sort semantics), so equal inputs give equal
outputs. -/
theorem C9_deterministic (n1 n2 : List Node) (e1 e2 : List Edge)
    (o1 o2 : Orientation) (hn : n1 = n2) (he : e1 = e2) (ho : o1 = o2) :
    autoLayout n1 e1 o1 = autoLayout n2 e2 o2 := by
  subst hn; subst he; subst ho; rfl

/-- C9 witness: the determinism theorem applied at a concrete input. -/
theorem C9_deterministic_witness :
    fbNodes = fbNodes ∧
      autoLayout fbNodes fbEdges Orientation.horizontal =
        autoLayout fbNodes fbEdges Orientation.horizontal :=
  ⟨rfl, C9_deterministic fbNodes fbNodes fbEdges fbEdges
    Orientation.horizontal Orientation.horizontal rfl rfl rfl⟩

/-- C4: the source's crossing-reduction loop (`for iter < 4`, each
iteration one downward plus one upward pass) performs four downward and
four upward sweeps, not the claimed (and comment-documented) two of each;
on this concrete three-layer input the eight-sweep result differs from
the four-sweep (two iterations) result, so the extra sweeps are
observable. -/
theorem C4_eight_sweeps_observable :
    reduceCrossings c4layers c4edges =
      [[['A']], [['s'], ['r'], ['q'], ['p']], [['z'], ['y'], ['x']]] ∧
    reduceCrossingsIter 2 c4layers c4edges =
      [[['A']], [['s'], ['r'], ['q'], ['p']], [['y'], ['z'], ['x']]] ∧
    reduceCrossings c4layers c4edges ≠ reduceCrossingsIter 2 c4layers c4edges := by
  decide

/-- C1 counterexample: the claim promises `newNodes` has exactly the input
id set for every input, but a node whose id starts with `dummy-` is
swallowed by the dummy filter: the run succeeds and returns no nodes at
all for the one-node input `[dummy-a]`. -/
theorem C1_counterexample :
    (autoLayout [dummyNamedNode] [] Orientation.horizontal).map
        (fun r => r.newNodes.map (fun n => n.id)) = some [] ∧
    nodeIds [dummyNamedNode] = [['d', 'u', 'm', 'm', 'y', '-', 'a']] := by
  decide

/-- C3 counterexample: on the fully-cyclic input the run degrades to the
fallback placement, where every node gets `x = 50`; the edge `A→B` is not
a back-edge, yet the target's layer-axis coordinate does not exceed the
source's. -/
theorem C3_counterexample :
    edgeKey ['A'] ['B'] ∉ backOf fbNodes fbEdges ∧
    (fbEdges.map (fun e => (e.source, e.target))).head? =
      some (['A'], ['B']) ∧
    (autoLayout fbNodes fbEdges Orientation.horizontal).map
        (fun r => r.newNodes.map (fun n => n.position.x)) =
      some [⟨50, 1⟩, ⟨50, 1⟩] ∧
    ¬ ((⟨50, 1⟩ : JNum).toRat < (⟨50, 1⟩ : JNum).toRat) :=
  ⟨by decide, by decide, by decide, lt_irrefl _⟩

/-- C5 counterexample: input handles are claimed to be ignored on every
input shape including the fallback, but the fallback branch returns the
edge array unchanged: changing only an input `sourceHandle` changes the
output, and no handle is recomputed. -/
theorem C5_counterexample :
    (autoLayout fbNodes c5EdgesA Orientation.horizontal).map
        (fun r => r.newEdges.map (fun e => e.sourceHandle)) =
      some [some 0, none, none] ∧
    (autoLayout fbNodes c5EdgesB Orientation.horizontal).map
        (fun r => r.newEdges.map (fun e => e.sourceHandle)) =
      some [some 1, none, none] := by decide

/-- C7 counterexample: the returned self-loop edge carries no distinct
loop-geometry marker — it gets the ordinary numeric handle pair `(2, 2)`,
exactly the pair every ordinary back-edge receives (here `B→A` in a plain
two-node cycle), and the `Edge` record has no other field that could
mark it. -/
theorem C7_counterexample :
    (autoLayout selfNodes selfEdges Orientation.horizontal).map
        (fun r => r.newEdges.map (fun e => (e.sourceHandle, e.targetHandle))) =
      some [(some 2, some 2)] ∧
    (autoLayout abNodes abEdges Orientation.horizontal).map
        (fun r => r.newEdges.map (fun e => (e.sourceHandle, e.targetHandle))) =
      some [(some 1, some 3), (some 2, some 2)] := by decide

/-- C8 counterexample: `B→A` is classified as a back-edge and both
endpoints are in the node list, yet on this fully-cyclic input the
fallback branch returns the edges unchanged — no fixed `(2, 2)` pair is
assigned. -/
theorem C8_counterexample :
    edgeKey ['B'] ['A'] ∈ backOf fbNodes fbEdges ∧
    ['B'] ∈ nodeIds fbNodes ∧ ['A'] ∈ nodeIds fbNodes ∧
    (autoLayout fbNodes fbEdges Orientation.horizontal).map
        (fun r => r.newEdges.map (fun e => (e.sourceHandle, e.targetHandle))) =
      some [(none, none), (none, none), (none, none)] := by decide

/-- C10 counterexample: the pair `(B, A)` is marked as a back-edge, the
input has two distinct parallel `B→A` edges, yet the two edges come back
with different (and non-fixed) handle values, because the fallback branch
returns input edges unchanged. -/
theorem C10_counterexample :
    edgeKey ['B'] ['A'] ∈ backOf fbNodes c10Edges ∧
    (autoLayout fbNodes c10Edges Orientation.horizontal).map
        (fun r => r.newEdges.map (fun e => (e.sourceHandle, e.targetHandle))) =
      some [(none, none), (some 0, none), (some 1, none)] := by decide

/-- C1 (amended): on every successful run with a nonempty node list, the
returned edges carry exactly the input ids, sources, targets and labels,
and every returned node id is an input node id — no additions and no
dummy leakage.  The original claim's "no omissions" half fails
(`C1_counterexample`): a node whose id starts with `dummy-` is filtered
out, and nodes trapped in residual cycles are dropped from the layering;
for the empty node list the run returns no edges regardless of the edge
list. -/
theorem C1_amended_coverage (nodes : List Node) (edges : List Edge)
    (o : Orientation) (r : LayoutResult) (hne : nodes ≠ [])
    (h : autoLayout nodes edges o = some r) :
    r.newEdges.map edgeSig = edges.map edgeSig ∧
      ∀ n ∈ r.newNodes, n.id ∈ nodeIds nodes := by
  unfold autoLayout at h
  have hemp : ¬ nodes.isEmpty := by
    cases nodes with
    | nil => exact absurd rfl hne
    | cons a t => simp
  rw [if_neg hemp] at h
  cases hbuild : builtGraph nodes edges with
  | none => simp only [hbuild] at h; cases h
  | some gb =>
    simp only [hbuild] at h
    by_cases hlay : (layersFor nodes edges gb).isEmpty
    · rw [if_pos hlay] at h
      cases h
      refine ⟨rfl, ?_⟩
      intro n hn
      unfold fallbackLayout at hn
      rcases List.mem_map.1 hn with ⟨⟨i, pn⟩, hp, rfl⟩
      obtain ⟨hlt, hx⟩ := List.mem_enum hp
      refine List.mem_map.2 ⟨pn, ?_, rfl⟩
      rw [hx]
      exact List.getElem_mem hlt
    · rw [if_neg hlay] at h
      unfold layoutFromLayers at h
      cases hac : assignCoordinates
          (orderedOf (vgOf edges gb.1 (layersFor nodes edges gb)))
          (vmapOf nodes (vgOf edges gb.1 (layersFor nodes edges gb))) o with
      | none => simp only [hac] at h; cases h
      | some positioned =>
        simp only [hac] at h
        cases h
        refine ⟨assignEdgeHandles_sig edges _ gb.2 o, ?_⟩
        intro n hn
        obtain ⟨hpos, hpref⟩ := List.mem_filter.1 hn
        obtain ⟨i, id, hid, nd, hnd, hnid⟩ :=
          assignCoordinates_mem _ _ _ _ hac n hpos
        have hkid : nd.id = id := vmapOf_idKeyed nodes edges gb.1 _ id nd hnd
        have hnid2 : n.id = id := by rw [hnid, hkid]
        have hperm := (reduceCrossingsIter_permByIndex 4
          (vgOf edges gb.1 (layersFor nodes edges gb)).layers
          (vgOf edges gb.1 (layersFor nodes edges gb)).vedges).2 i
        have hid2 : id ∈ (vgOf edges gb.1 (layersFor nodes edges gb)).layers.getD i [] :=
          hperm.mem_iff.1 hid
        have hle : LayerExt (layersFor nodes edges gb)
            (vgOf edges gb.1 (layersFor nodes edges gb)).layers := by
          unfold vgOf
          exact createVirtualGraph_layerExt _ _ _
        obtain ⟨ext, hext, hextp⟩ := hle.2 i
        rw [hext] at hid2
        rcases List.mem_append.1 hid2 with hid3 | hid3
        · obtain ⟨L, hL, hxL⟩ := mem_getD_mem _ _ _ hid3
          rw [hnid2]
          exact layers_subset nodes edges gb hbuild _ L hL id hxL
        · exfalso
          have hpre := hextp id hid3
          rw [← hnid2] at hpre
          exact (of_decide_eq_true hpref) hpre

/-- C8 (amended): in a successful non-fallback run, every edge classified
as a back-edge whose endpoints both appear among the returned nodes gets
the fixed return pair — `sourceHandle = targetHandle = 2` (bottom→bottom)
for horizontal orientation and `1` (right→right) for vertical —
independent of the nodes' relative positions.  The unamended claim fails
on fallback runs and on back-edges whose endpoints were dropped from the
layering (`C8_counterexample`). -/
theorem C8_amended (nodes : List Node) (edges : List Edge) (o : Orientation)
    (r : LayoutResult) (i : Nat) (e : Edge)
    (h : autoLayout nodes edges o = some r)
    (hlay : layersOf nodes edges ≠ [])
    (hei : edges[i]? = some e)
    (hback : edgeKey e.source e.target ∈ backOf nodes edges)
    (hsmem : ∃ n ∈ r.newNodes, n.id = e.source)
    (htmem : ∃ n ∈ r.newNodes, n.id = e.target) :
    r.newEdges[i]? = some { e with
      sourceHandle := some (if o = Orientation.horizontal then 2 else 1),
      targetHandle := some (if o = Orientation.horizontal then 2 else 1) } := by
  cases hbuild : builtGraph nodes edges with
  | none =>
    rw [layersOf_eq_none nodes edges hbuild] at hlay
    exact absurd rfl hlay
  | some gb =>
    rw [layersOf_eq nodes edges gb hbuild] at hlay
    obtain ⟨positioned, hac, hnn, hne'⟩ :=
      autoLayout_normal nodes edges o r gb hbuild hlay h
    rw [hne']
    rw [backOf_eq nodes edges gb hbuild] at hback
    refine assignEdgeHandles_back_at edges _ gb.2 o i e hei ?_ ?_ hback
    · exact finalMap_isSome_of_newNodes positioned e.source (hnn ▸ hsmem)
    · exact finalMap_isSome_of_newNodes positioned e.target (hnn ▸ htmem)

/-- C8 witness: the amended theorem applied to the concrete two-node
cycle, whose back-edge `B→A` has both endpoints laid out. -/
theorem C8_amended_witness :
    autoLayout abNodes abEdges Orientation.horizontal = some abResult ∧
      layersOf abNodes abEdges ≠ [] ∧
      abEdges[1]? = some (cEdge ['2'] ['B'] ['A']) ∧
      edgeKey ['B'] ['A'] ∈ backOf abNodes abEdges ∧
      abResult.newEdges[1]? = some { cEdge ['2'] ['B'] ['A'] with
        sourceHandle := some 2, targetHandle := some 2 } :=
  ⟨by decide, by decide, by decide, by decide,
    C8_amended abNodes abEdges Orientation.horizontal abResult 1
      (cEdge ['2'] ['B'] ['A']) (by decide) (by decide) (by decide) (by decide)
      (by decide) (by decide)⟩

/-- C10 (amended): handle assignment depends on an edge only through its
(source, target) pair: in a successful non-fallback run, two (distinct,
possibly parallel) edges with the same source and the same target whose
endpoints appear among the returned nodes receive identical handle
values.  The unamended claim fails because a back-marked parallel pair
leaves its endpoints trapped in a residual cycle, so those edges are
returned unchanged — with whatever distinct input handles they carried
(`C10_counterexample`). -/
theorem C10_amended (nodes : List Node) (edges : List Edge) (o : Orientation)
    (r : LayoutResult) (i j : Nat) (e f : Edge)
    (h : autoLayout nodes edges o = some r)
    (hlay : layersOf nodes edges ≠ [])
    (hei : edges[i]? = some e) (hej : edges[j]? = some f)
    (hsrc : f.source = e.source) (htgt : f.target = e.target)
    (hsmem : ∃ n ∈ r.newNodes, n.id = e.source)
    (htmem : ∃ n ∈ r.newNodes, n.id = e.target) :
    ∃ ei ej, r.newEdges[i]? = some ei ∧ r.newEdges[j]? = some ej ∧
      ei.sourceHandle = ej.sourceHandle ∧ ei.targetHandle = ej.targetHandle := by
  cases hbuild : builtGraph nodes edges with
  | none =>
    rw [layersOf_eq_none nodes edges hbuild] at hlay
    exact absurd rfl hlay
  | some gb =>
    rw [layersOf_eq nodes edges gb hbuild] at hlay
    obtain ⟨positioned, hac, hnn, hne'⟩ :=
      autoLayout_normal nodes edges o r gb hbuild hlay h
    have hsi : ((mkFinalMap positioned).get e.source).isSome :=
      finalMap_isSome_of_newNodes positioned e.source (hnn ▸ hsmem)
    have hti : ((mkFinalMap positioned).get e.target).isSome :=
      finalMap_isSome_of_newNodes positioned e.target (hnn ▸ htmem)
    obtain ⟨s, hs⟩ := Option.isSome_iff_exists.1 hsi
    obtain ⟨t, ht⟩ := Option.isSome_iff_exists.1 hti
    have h1 := assignEdgeHandles_handles_at edges (mkFinalMap positioned)
      gb.2 o i e s t hei hs ht
    have h2 := assignEdgeHandles_handles_at edges (mkFinalMap positioned)
      gb.2 o j f s t hej (by rw [hsrc]; exact hs) (by rw [htgt]; exact ht)
    rw [hsrc, htgt] at h2
    rw [hne']
    obtain ⟨ei, hei', hpi⟩ := Option.map_eq_some'.1 h1
    obtain ⟨ej, hej', hpj⟩ := Option.map_eq_some'.1 h2
    refine ⟨ei, ej, hei', hej', ?_, ?_⟩
    · have := hpi.trans hpj.symm
      exact congrArg Prod.fst this
    · have := hpi.trans hpj.symm
      exact congrArg Prod.snd this

/-- C10 witness: two parallel forward edges `A→B` both receive the
identical freshly computed pair. -/
theorem C10_amended_witness :
    autoLayout abNodes parEdges Orientation.horizontal = some parResult ∧
      layersOf abNodes parEdges ≠ [] ∧
      (∃ ei ej, parResult.newEdges[0]? = some ei ∧
        parResult.newEdges[1]? = some ej ∧
        ei.sourceHandle = ej.sourceHandle ∧ ei.targetHandle = ej.targetHandle) :=
  ⟨by decide, by decide,
    C10_amended abNodes parEdges Orientation.horizontal parResult 0 1
      (cEdge ['1'] ['A'] ['B']) (cEdge ['2'] ['A'] ['B']) (by decide)
      (by decide) (by decide) (by decide) (by decide) (by decide) (by decide)
      (by decide)⟩

/-- C5 (amended): in successful non-fallback runs, the handles returned
for an edge whose endpoints both appear among the returned nodes are
independent of the input handle values: two runs whose edge lists agree
on ids, sources, targets and labels (differing only in handles) return
identical handle values at that edge.  The unamended claim fails on the
fallback branch — and for edges whose endpoints were dropped — where the
input edges (with their input handles) are returned unchanged
(`C5_counterexample`). -/
theorem C5_amended (nodes : List Node) (edges edges' : List Edge)
    (o : Orientation) (r r' : LayoutResult) (i : Nat) (e : Edge)
    (hsig : edges.map edgeSig = edges'.map edgeSig)
    (h : autoLayout nodes edges o = some r)
    (h' : autoLayout nodes edges' o = some r')
    (hlay : layersOf nodes edges ≠ [])
    (hei : edges[i]? = some e)
    (hsmem : ∃ n ∈ r.newNodes, n.id = e.source)
    (htmem : ∃ n ∈ r.newNodes, n.id = e.target) :
    ∃ ei ei', r.newEdges[i]? = some ei ∧ r'.newEdges[i]? = some ei' ∧
      ei.sourceHandle = ei'.sourceHandle ∧ ei.targetHandle = ei'.targetHandle := by
  cases hbuild : builtGraph nodes edges with
  | none =>
    rw [layersOf_eq_none nodes edges hbuild] at hlay
    exact absurd rfl hlay
  | some gb =>
    have hbuild' : builtGraph nodes edges' = some gb := by
      rw [← builtGraph_sig_congr nodes edges edges' hsig]
      exact hbuild
    rw [layersOf_eq nodes edges gb hbuild] at hlay
    have hlen : edges.length = edges'.length := by
      have := congrArg List.length hsig
      simpa using this
    have hlf : layersFor nodes edges gb = layersFor nodes edges' gb := by
      unfold layersFor
      rw [hlen]
    obtain ⟨positioned, hac, hnn, hne1⟩ :=
      autoLayout_normal nodes edges o r gb hbuild hlay h
    obtain ⟨positioned', hac', hnn', hne1'⟩ :=
      autoLayout_normal nodes edges' o r' gb hbuild' (hlf ▸ hlay) h'
    have hvg : vgOf edges' gb.1 (layersFor nodes edges' gb) =
        vgOf edges gb.1 (layersFor nodes edges gb) := by
      unfold vgOf
      rw [← hlf, hlen]
    rw [hvg] at hac'
    have hpos : positioned' = positioned :=
      Option.some.inj (hac'.symm.trans hac)
    have hsi : ((mkFinalMap positioned).get e.source).isSome :=
      finalMap_isSome_of_newNodes positioned e.source (hnn ▸ hsmem)
    have hti : ((mkFinalMap positioned).get e.target).isSome :=
      finalMap_isSome_of_newNodes positioned e.target (hnn ▸ htmem)
    obtain ⟨s, hs⟩ := Option.isSome_iff_exists.1 hsi
    obtain ⟨t, ht⟩ := Option.isSome_iff_exists.1 hti
    have hmape : (edges'.map edgeSig)[i]? = some (edgeSig e) := by
      rw [← hsig, List.getElem?_map, hei]
      rfl
    rw [List.getElem?_map] at hmape
    obtain ⟨e', hei', hsg⟩ := Option.map_eq_some'.1 hmape
    have hsrc : e'.source = e.source := congrArg (fun p => p.2.1) hsg
    have htgt : e'.target = e.target := congrArg (fun p => p.2.2.1) hsg
    have h1 := assignEdgeHandles_handles_at edges (mkFinalMap positioned)
      gb.2 o i e s t hei hs ht
    have h2 := assignEdgeHandles_handles_at edges' (mkFinalMap positioned)
      gb.2 o i e' s t hei' (by rw [hsrc]; exact hs) (by rw [htgt]; exact ht)
    rw [hsrc, htgt] at h2
    rw [hne1, hne1', hpos]
    obtain ⟨ei, hgi, hpi⟩ := Option.map_eq_some'.1 h1
    obtain ⟨ej, hgj, hpj⟩ := Option.map_eq_some'.1 h2
    refine ⟨ei, ej, hgi, hgj, ?_, ?_⟩
    · exact congrArg Prod.fst (hpi.trans hpj.symm)
    · exact congrArg Prod.snd (hpi.trans hpj.symm)

/-- C5 witness: planting an input handle on `A→B` in the two-node cycle
does not change the returned handles of that edge. -/
theorem C5_amended_witness :
    (abEdges.map edgeSig = abEdgesH.map edgeSig) ∧
      autoLayout abNodes abEdges Orientation.horizontal = some abResult ∧
      autoLayout abNodes abEdgesH Orientation.horizontal = some abResultH ∧
      (∃ ei ei', abResult.newEdges[0]? = some ei ∧
        abResultH.newEdges[0]? = some ei' ∧
        ei.sourceHandle = ei'.sourceHandle ∧
        ei.targetHandle = ei'.targetHandle) :=
  ⟨by decide, by decide, by decide,
    C5_amended abNodes abEdges abEdgesH Orientation.horizontal abResult
      abResultH 0 (cEdge ['1'] ['A'] ['B']) (by decide) (by decide) (by decide)
      (by decide) (by decide) (by decide) (by decide)⟩

/-- C1 witness: the amended coverage theorem applied to the concrete
two-node cycle. -/
theorem C1_amended_coverage_witness :
    abNodes ≠ [] ∧
      autoLayout abNodes abEdges Orientation.horizontal = some abResult ∧
      (abResult.newEdges.map edgeSig = abEdges.map edgeSig ∧
        ∀ n ∈ abResult.newNodes, n.id ∈ nodeIds abNodes) :=
  ⟨by decide, by decide,
    C1_amended_coverage abNodes abEdges Orientation.horizontal abResult
      (by decide) (by decide)⟩

/-- C6: every successful run of the coordinate-assignment stage places
its layers as consecutive blocks (one block per layer, concatenated in
order), and inside each block consecutive nodes of the layer sit exactly
the configured inter-node gap apart along the stacking axis (`y` with gap
120 for horizontal orientation, `x` with gap 200 for vertical), so every
pair of distinct nodes of a layer has strictly non-overlapping bounding
boxes along that axis.  The dimension hypotheses say each mapped node has
well-formed nonnegative width and height (true of every real node and of
the `width: 1, height: 50` dummy nodes). -/
theorem C6_layer_gap_no_overlap (layers : List (List Str)) (nm : MapF Node)
    (o : Orientation) (out : List Node)
    (hwf : ∀ id nd, nm.get id = some nd →
      0 < nd.height.den ∧ 0 ≤ nd.height.toRat ∧
      0 < nd.width.den ∧ 0 ≤ nd.width.toRat)
    (h : assignCoordinates layers nm o = some out) :
    ∃ rows : List (List Node), out = rows.flatten ∧
      rows.length = layers.length ∧
      ∀ row ∈ rows,
        match o with
        | Orientation.horizontal =>
          List.Chain' (fun a b =>
            b.position.y.toRat = a.position.y.toRat + a.height.toRat + 120) row ∧
          row.Pairwise (fun a b =>
            a.position.y.toRat + a.height.toRat < b.position.y.toRat)
        | Orientation.vertical =>
          List.Chain' (fun a b =>
            b.position.x.toRat = a.position.x.toRat + a.width.toRat + 200) row ∧
          row.Pairwise (fun a b =>
            a.position.x.toRat + a.width.toRat < b.position.x.toRat) := by
  cases o with
  | horizontal =>
    unfold assignCoordinates at h
    cases hmap : layers.mapM (layerExtent nm (fun n => n.height) Y_GAP) with
    | none => simp only [hmap] at h; cases h
    | some hs =>
      simp only [hmap] at h
      have hmax : 0 < (jmaxList hs).den :=
        jmaxList_wf hs (mapM_extent_wf nm _ Y_GAP
          (fun id nd hg => (hwf id nd hg).1) (den_jofNat 120) layers hs hmap)
      exact coordFoldH_rows nm (jmaxList hs)
        (fun id nd hg => ⟨(hwf id nd hg).1, (hwf id nd hg).2.1⟩) hmax
        layers (jofNat 50) out h
  | vertical =>
    unfold assignCoordinates at h
    cases hmap : layers.mapM (layerExtent nm (fun n => n.width) X_GAP) with
    | none => simp only [hmap] at h; cases h
    | some ws =>
      simp only [hmap] at h
      have hmax : 0 < (jmaxList ws).den :=
        jmaxList_wf ws (mapM_extent_wf nm _ X_GAP
          (fun id nd hg => (hwf id nd hg).2.2.1) (den_jofNat 200) layers ws hmap)
      exact coordFoldV_rows nm (jmaxList ws)
        (fun id nd hg => ⟨(hwf id nd hg).2.2.1, (hwf id nd hg).2.2.2⟩) hmax
        layers (jofNat 50) out h

/-- C6 witness: the layer-geometry theorem applied to the concrete
one-layer instance holding nodes `A` and `B`. -/
theorem C6_layer_gap_no_overlap_witness :
    (∀ id nd, (mkNodeMap abNodes).get id = some nd →
      0 < nd.height.den ∧ 0 ≤ nd.height.toRat ∧
      0 < nd.width.den ∧ 0 ≤ nd.width.toRat) ∧
    assignCoordinates c6Layers (mkNodeMap abNodes) Orientation.horizontal =
      some c6Out ∧
    ∃ rows : List (List Node), c6Out = rows.flatten ∧
      rows.length = c6Layers.length ∧
      ∀ row ∈ rows,
        List.Chain' (fun a b =>
          b.position.y.toRat = a.position.y.toRat + a.height.toRat + 120) row ∧
        row.Pairwise (fun a b =>
          a.position.y.toRat + a.height.toRat < b.position.y.toRat) := by
  have hwf : ∀ id nd, (mkNodeMap abNodes).get id = some nd →
      0 < nd.height.den ∧ 0 ≤ nd.height.toRat ∧
      0 < nd.width.den ∧ 0 ≤ nd.width.toRat := by
    intro id nd hg
    have hm := mkNodeMap_get_mem abNodes id nd hg
    have hall : ∀ n ∈ abNodes, 0 < n.height.den ∧ 0 ≤ n.height.num ∧
        0 < n.width.den ∧ 0 ≤ n.width.num := by decide
    obtain ⟨h1, h2, h3, h4⟩ := hall nd hm
    exact ⟨h1, toRat_nonneg h2, h3, toRat_nonneg h4⟩
  have heq : assignCoordinates c6Layers (mkNodeMap abNodes)
      Orientation.horizontal = some c6Out := by decide
  exact ⟨hwf, heq, C6_layer_gap_no_overlap c6Layers (mkNodeMap abNodes)
    Orientation.horizontal c6Out hwf heq⟩

/-- C3 (amended): on a successful non-fallback run over neat input
(duplicate-free ids containing no `"->"`, well-formed node sizes), every
input edge that is not classified as a back-edge and whose two endpoints
appear among the returned nodes advances strictly along the layer axis:
the returned target node's layer-axis coordinate (x for horizontal, y for
vertical) strictly exceeds the returned source node's.  The unamended
claim, quantified over every input, fails on the fallback branch where
all nodes share `x = 50` (`C3_counterexample`). -/
theorem C3_amended (nodes : List Node) (edges : List Edge) (o : Orientation)
    (r : LayoutResult) (e : Edge) (nu nv : Node)
    (hN : (nodeIds nodes).Nodup) (hC : CleanIds (nodeIds nodes))
    (hW : WFDims nodes)
    (h : autoLayout nodes edges o = some r)
    (hlay : layersOf nodes edges ≠ [])
    (he : e ∈ edges)
    (hback : edgeKey e.source e.target ∉ backOf nodes edges)
    (hnu : nu ∈ r.newNodes) (hnuid : nu.id = e.source)
    (hnv : nv ∈ r.newNodes) (hnvid : nv.id = e.target) :
    (axisCoord o nu).toRat < (axisCoord o nv).toRat := by
  cases hbuild : builtGraph nodes edges with
  | none =>
    rw [layersOf_eq_none nodes edges hbuild] at hlay
    exact absurd rfl hlay
  | some gb =>
    rw [layersOf_eq nodes edges gb hbuild] at hlay
    obtain ⟨positioned, hac, hnn, _⟩ :=
      autoLayout_normal nodes edges o r gb hbuild hlay h
    rw [backOf_eq nodes edges gb hbuild] at hback
    have hadj : e.target ∈ adjL gb.1.adj e.source :=
      builtGraph_nonback_mem nodes edges gb hbuild hC e he hback
    have hkk := vmapOf_idKeyed nodes edges gb.1 (layersFor nodes edges gb)
    have hdm := vmapOf_dims nodes edges gb.1 (layersFor nodes edges gb) hW
    obtain ⟨rows, hjoin, hlen, hid, hmono⟩ :=
      assignCoordinates_axis _ _ o positioned hkk hdm hac
    rw [hnn] at hnu hnv
    have hnu1 : nu ∈ positioned := (List.mem_filter.1 hnu).1
    have hnu2 : ¬ dummyPre.isPrefixOf nu.id = true := by
      have h2 := (List.mem_filter.1 hnu).2
      simpa using h2
    have hnv1 : nv ∈ positioned := (List.mem_filter.1 hnv).1
    have hnv2 : ¬ dummyPre.isPrefixOf nv.id = true := by
      have h2 := (List.mem_filter.1 hnv).2
      simpa using h2
    obtain ⟨k1, hk1⟩ := flatten_mem_getD rows nu (hjoin ▸ hnu1)
    obtain ⟨k2, hk2⟩ := flatten_mem_getD rows nv (hjoin ▸ hnv1)
    have hl1 : nu.id ∈ (layersFor nodes edges gb).getD k1 [] :=
      ordered_mem_layer edges gb.1 _ k1 nu.id (hid k1 nu hk1) hnu2
    have hl2 : nv.id ∈ (layersFor nodes edges gb).getD k2 [] :=
      ordered_mem_layer edges gb.1 _ k2 nv.id (hid k2 nv hk2) hnv2
    rw [hnuid] at hl1
    rw [hnvid] at hl2
    have hk12 : k1 < k2 :=
      layers_mono nodes edges gb hbuild hN hC
        (nodes.length + edges.length + 1) e.source e.target hadj k1 k2 hl1 hl2
    exact hmono k1 k2 nu nv hk12 hk1 hk2

/-- C3 witness: the amended theorem applied to the two-node cycle, whose
forward edge `A→B` is not a back-edge; the laid-out `B` sits strictly to
the right of the laid-out `A`. -/
theorem C3_amended_witness :
    (nodeIds abNodes).Nodup ∧ CleanIds (nodeIds abNodes) ∧ WFDims abNodes ∧
    autoLayout abNodes abEdges Orientation.horizontal = some abResult ∧
    layersOf abNodes abEdges ≠ [] ∧
    cEdge ['1'] ['A'] ['B'] ∈ abEdges ∧
    edgeKey ['A'] ['B'] ∉ backOf abNodes abEdges ∧
    c3nu ∈ abResult.newNodes ∧ c3nu.id = ['A'] ∧
    c3nv ∈ abResult.newNodes ∧ c3nv.id = ['B'] ∧
    (axisCoord Orientation.horizontal c3nu).toRat <
      (axisCoord Orientation.horizontal c3nv).toRat := by
  refine ⟨by decide, by decide, by decide, by decide, by decide, by decide,
    by decide, by decide, by decide, by decide, by decide, ?_⟩
  exact C3_amended abNodes abEdges Orientation.horizontal abResult
    (cEdge ['1'] ['A'] ['B']) c3nu c3nv (by decide) (by decide) (by decide)
    (by decide) (by decide) (by decide) (by decide) (by decide) (by decide)
    (by decide) (by decide)

/-- C7 (amended): on a successful non-fallback run over neat input, a
self-loop edge whose node appears among the returned nodes (1) leaves no
self-entry in the residual adjacency used for layering, (2) has its key
classified as a back-edge, (3) induces no self-edge in the virtual graph,
and (4) is returned with the fixed back-edge handle pair (2,2 horizontal,
1,1 vertical).  The unamended claim fails on its "distinct loop-geometry
marker" half: the returned edge carries only the ordinary numeric pair
that every back-edge gets, and the `Edge` record has no marker field
(`C7_counterexample`); loop rendering instead re-detects `source =
target` downstream. -/
theorem C7_amended (nodes : List Node) (edges : List Edge) (o : Orientation)
    (r : LayoutResult) (i : Nat) (e : Edge)
    (hN : (nodeIds nodes).Nodup) (hC : CleanIds (nodeIds nodes))
    (h : autoLayout nodes edges o = some r)
    (hlay : layersOf nodes edges ≠ [])
    (hei : edges[i]? = some e)
    (hself : e.source = e.target)
    (hmem : ∃ n ∈ r.newNodes, n.id = e.source) :
    e.source ∉ adjL (residualAdj nodes edges) e.source ∧
    edgeKey e.source e.source ∈ backOf nodes edges ∧
    (∀ ve ∈ (vgRun nodes edges).vedges,
      ¬ (ve.source = e.source ∧ ve.target = e.source)) ∧
    r.newEdges[i]? = some { e with
      sourceHandle := some (if o = Orientation.horizontal then 2 else 1),
      targetHandle := some (if o = Orientation.horizontal then 2 else 1) } := by
  cases hbuild : builtGraph nodes edges with
  | none =>
    rw [layersOf_eq_none nodes edges hbuild] at hlay
    exact absurd rfl hlay
  | some gb =>
    rw [layersOf_eq nodes edges gb hbuild] at hlay
    obtain ⟨positioned, hac, hnn, hne'⟩ :=
      autoLayout_normal nodes edges o r gb hbuild hlay h
    have he : e ∈ edges := by
      obtain ⟨hlt, heq⟩ := List.getElem?_eq_some_iff.1 hei
      exact heq ▸ List.getElem_mem hlt
    -- the self node sits in some layer
    obtain ⟨n, hn, hnid⟩ := hmem
    rw [hnn] at hn
    have hn1 : n ∈ positioned := (List.mem_filter.1 hn).1
    have hn2 : ¬ dummyPre.isPrefixOf n.id = true := by
      have h2 := (List.mem_filter.1 hn).2
      simpa using h2
    have hkk := vmapOf_idKeyed nodes edges gb.1 (layersFor nodes edges gb)
    obtain ⟨j, id2, hid2, nd, hnd, hnid3⟩ := assignCoordinates_mem _ _ o
      positioned hac n hn1
    have hid2' : id2 = e.source := by
      rw [← hnid, hnid3, hkk id2 nd hnd]
    rw [hid2'] at hid2
    have hsrcnd : ¬ dummyPre.isPrefixOf e.source = true := by
      rw [← hnid]
      exact hn2
    have hlayer : e.source ∈ (layersFor nodes edges gb).getD j [] :=
      ordered_mem_layer edges gb.1 _ j e.source hid2 hsrcnd
    have hnoself : e.source ∉ adjL gb.1.adj e.source :=
      layers_no_self nodes edges gb hbuild hN hC
        (nodes.length + edges.length + 1) e.source j hlayer
    have hback : edgeKey e.source e.source ∈ gb.2 := by
      by_contra hnb
      refine hnoself ?_
      have h2 := builtGraph_nonback_mem nodes edges gb hbuild hC e he
        (by rw [← hself]; exact hnb)
      rw [← hself] at h2
      exact h2
    refine ⟨?_, ?_, ?_, ?_⟩
    · rw [residualAdj_eq nodes edges gb hbuild]
      exact hnoself
    · rw [backOf_eq nodes edges gb hbuild]
      exact hback
    · rw [vgRun_eq nodes edges gb hbuild]
      intro ve hve hcontra
      have hprov := createVirtualGraph_vedges
        (layersFor nodes edges gb) gb.1.adj
        (virtFuel (layersFor nodes edges gb) edges.length) ve hve
      rcases hprov with h2 | h2 | h2
      · rw [hcontra.1, hcontra.2] at h2
        exact hnoself h2
      · rw [hcontra.2] at h2
        exact hsrcnd h2
      · rw [hcontra.1] at h2
        exact hsrcnd h2
    · rw [hne']
      have hsi : ((mkFinalMap positioned).get e.source).isSome :=
        finalMap_isSome_of_newNodes positioned e.source
          (by rw [← hnn]; exact ⟨n, hnn ▸ hn, hnid⟩)
      refine assignEdgeHandles_back_at edges _ gb.2 o i e hei hsi ?_ ?_
      · rw [← hself]
        exact hsi
      · rw [← hself]
        exact hback

/-- C7 witness: the amended theorem applied to the single node `X` with
the self-loop `X→X`. -/
theorem C7_amended_witness :
    (nodeIds selfNodes).Nodup ∧ CleanIds (nodeIds selfNodes) ∧
    autoLayout selfNodes selfEdges Orientation.horizontal = some selfResult ∧
    layersOf selfNodes selfEdges ≠ [] ∧
    selfEdges[0]? = some (cEdge ['1'] ['X'] ['X']) ∧
    (∃ n ∈ selfResult.newNodes, (n : Node).id = ['X']) ∧
    (['X'] ∉ adjL (residualAdj selfNodes selfEdges) ['X'] ∧
      edgeKey ['X'] ['X'] ∈ backOf selfNodes selfEdges ∧
      (∀ ve ∈ (vgRun selfNodes selfEdges).vedges,
        ¬ ((ve : Edge).source = ['X'] ∧ (ve : Edge).target = ['X'])) ∧
      selfResult.newEdges[0]? = some { cEdge ['1'] ['X'] ['X'] with
        sourceHandle := some 2, targetHandle := some 2 }) := by
  refine ⟨by decide, by decide, by decide, by decide, by decide,
    ⟨selfResult.newNodes.getD 0 (cNode []), by decide, by decide⟩, ?_⟩
  exact C7_amended selfNodes selfEdges Orientation.horizontal selfResult 0
    (cEdge ['1'] ['X'] ['X']) (by decide) (by decide) (by decide) (by decide)
    (by decide) (by decide)
    ⟨selfResult.newNodes.getD 0 (cNode []), by decide, by decide⟩

end AutoLayout
